import Mathlib

/-!
Verification of the tree-navigation core of `birdeye` (`src/birdeye/_nodes.py`).

The Python code is a lazily populated file tree whose nodes carry secondary
"visible order" pointers (`_same_level_down`, `_same_level_up`, `_child_down`)
threaded through the tree, maintained incrementally by `load_children`,
`enter` and `exit`.  We embed the mutable object graph as an arena: a list of
node records addressed by natural-number ids, with each Python attribute
write becoming a functional update of the arena.  Node ids are allocated in
the order the children are linked (sorted order); ids are a modelling
artefact invisible to the Python program's behaviour.

The filesystem (the `Path.iterdir` collaborator) is modelled as a static tree
`FsTree` whose directories either enumerate successfully or fail with an I/O
error; the gitignore oracle (`pygit2.Repository.path_is_ignored`) is an
abstract predicate on paths.
-/

namespace Birdeye

/-- The filesystem seen by the program: a file, or a directory whose
enumeration either yields a listing or raises an I/O error
(`Path.iterdir` / the generator consuming it). -/
inductive FsTree where
  | file : String → FsTree
  | dir : String → Except String (List FsTree) → FsTree

def FsTree.name : FsTree → String
  | .file n => n
  | .dir n _ => n

def FsTree.isDir : FsTree → Bool
  | .file _ => false
  | .dir _ _ => true

instance : Inhabited FsTree := ⟨.file ""⟩

/-- Navigate the filesystem along a path of name segments. -/
def lookupFs : FsTree → List String → Option FsTree
  | t, [] => some t
  | .file _, _ :: _ => none
  | .dir _ (.error _), _ :: _ => none
  | .dir _ (.ok cs), n :: rest =>
    match cs.find? (fun c => c.name = n) with
    | some c => lookupFs c rest
    | none => none

/-- `path.iterdir()`: enumerate the immediate children of the directory at
`p`, or fail (permission error, not a directory, missing path). -/
def iterdirAt (fs : FsTree) (p : List String) : Except String (List FsTree) :=
  match lookupFs fs p with
  | some (.dir _ r) => r
  | some (.file _) => Except.error "NotADirectoryError"
  | none => Except.error "FileNotFoundError"

/-- Configuration: the `use_gitignore` flag passed to `TreeNode`, and the
optional git repository, abstracted to its ignore oracle
`path_is_ignored`. -/
structure Config where
  useGit : Bool
  repo : Option (List String → Bool)

/-- `use_gitignore(repo, root_folder)`: yield the children of `root_folder`
that the repository does not ignore (`_nodes.py` lines 17-28).  The
enumeration error of `iterdir` propagates unchanged. -/
def listChildren (fs : FsTree) (cfg : Config) (p : List String) :
    Except String (List FsTree) :=
  match iterdirAt fs p with
  | .error e => .error e
  | .ok cs =>
    match cfg.repo, cfg.useGit with
    | some orc, true => .ok (cs.filter (fun c => !orc (p ++ [c.name])))
    | _, _ => .ok cs

/-- Lexicographic `≤` on character lists by code point: Python's string
comparison used by `sorted` through `BaseNode.__lt__`. -/
def charListLe : List Char → List Char → Bool
  | [], _ => true
  | _ :: _, [] => false
  | a :: as, b :: bs =>
    if a.toNat < b.toNat then true
    else if b.toNat < a.toNat then false
    else charListLe as bs

/-- Python's stable `sorted` over nodes compared by `name`
(`BaseNode.__lt__`), modelled as a stable insertion sort on the listing. -/
def insertByName (c : FsTree) : List FsTree → List FsTree
  | [] => [c]
  | d :: ds =>
    if charListLe c.name.data d.name.data then c :: d :: ds
    else d :: insertByName c ds

def sortByName : List FsTree → List FsTree
  | [] => []
  | c :: cs => insertByName c (sortByName cs)

/-- One entry of the arena: the attributes of a `Node` (leaf, `isDir =
false`) or `TreeNode` (directory, `isDir = true`).

* `slDown`/`slUp` are `_same_level_down`/`_same_level_up`;
* `childDown` is `_child_down`, `lastChild` is `last_child`;
* `loaded` is the `_children` memo field (`None` vs `True`);
* `matchFind` is `match_find`. -/
structure NodeObj where
  path : List String
  name : String
  isDir : Bool
  level : Nat
  parent : Option Nat
  slDown : Option Nat := none
  slUp : Option Nat := none
  childDown : Option Nat := none
  lastChild : Option Nat := none
  expanded : Bool := false
  loaded : Bool := false
  focussed : Bool := false
  matchFind : Option (Nat × Nat) := none
deriving DecidableEq, Repr

instance : Inhabited NodeObj :=
  ⟨{ path := [], name := "", isDir := false, level := 0, parent := none }⟩

/-- The whole mutable state: the arena of nodes, the viewer's
`_focussed_node`, and a count of `MATCH_FOUND` events that reached the
viewer. -/
structure TState where
  nodes : List NodeObj
  focus : Nat
  matchEvents : Nat
deriving DecidableEq, Repr

def TState.len (σ : TState) : Nat := σ.nodes.length

def getN (σ : TState) (i : Nat) : NodeObj := σ.nodes.getD i default

def modifyN (σ : TState) (i : Nat) (f : NodeObj → NodeObj) : TState :=
  { σ with nodes := σ.nodes.set i (f (getN σ i)) }

def setSlDown (σ : TState) (i : Nat) (v : Option Nat) : TState :=
  modifyN σ i (fun nd => { nd with slDown := v })

def setSlUp (σ : TState) (i : Nat) (v : Option Nat) : TState :=
  modifyN σ i (fun nd => { nd with slUp := v })

def setChildDown (σ : TState) (i : Nat) (v : Option Nat) : TState :=
  modifyN σ i (fun nd => { nd with childDown := v })

def setLastChild (σ : TState) (i : Nat) (v : Option Nat) : TState :=
  modifyN σ i (fun nd => { nd with lastChild := v })

def setExpanded (σ : TState) (i : Nat) (v : Bool) : TState :=
  modifyN σ i (fun nd => { nd with expanded := v })

def setLoaded (σ : TState) (i : Nat) (v : Bool) : TState :=
  modifyN σ i (fun nd => { nd with loaded := v })

def setFocusFlag (σ : TState) (i : Nat) (v : Bool) : TState :=
  modifyN σ i (fun nd => { nd with focussed := v })

def setMatchFind (σ : TState) (i : Nat) (v : Option (Nat × Nat)) : TState :=
  modifyN σ i (fun nd => { nd with matchFind := v })

/-- A fresh child node object, as constructed by `get_children` inside
`load_children` (a `TreeNode` for a directory, a `Node` for a file). -/
def mkChild (ppath : List String) (lvl : Nat) (parentId : Nat) (c : FsTree) :
    NodeObj :=
  { path := ppath ++ [c.name], name := c.name, isDir := c.isDir,
    level := lvl, parent := some parentId }

/-- The linking loop of `load_children` (lines 266-276): `up` starts as the
container itself; the first child becomes `_child_down` of `up`, later
children become `_same_level_down` of the previous child; every child's
`_same_level_up` is the previous `up`. -/
def linkGo (σ : TState) (up : Nat) (first : Bool) : List Nat → TState
  | [] => σ
  | c :: rest =>
    let σ1 := if first then setChildDown σ up (some c) else setSlDown σ up (some c)
    let σ2 := setSlUp σ1 c (some up)
    linkGo σ2 c false rest

/-- The construction-and-linking step of `load_children` (lines 252-280),
applied to the already sorted child listing `specs`: construct the child
node objects, run the linking loop, re-point the last child's
`_same_level_down` at the container's own resume pointer, record
`last_child`, and set the memo flag. -/
def loadCore (σ : TState) (i : Nat) (specs : List FsTree) : TState :=
  let base := σ.len
  let σ1 : TState :=
    { σ with nodes := σ.nodes ++
        specs.map (mkChild (getN σ i).path ((getN σ i).level + 1) i) }
  let ids := (List.range specs.length).map (base + ·)
  let σ2 := linkGo σ1 i true ids
  let σ3 :=
    match ids.getLast? with
    | some c => setLastChild (setSlDown σ2 c (getN σ2 i).slDown) i (some c)
    | none => σ2
  setLoaded σ3 i true

/-- `TreeNode.load_children` (lines 244-280).  Memoized by `loaded`; on an
enumeration error the exception propagates with no state change (the code
has no handler and mutates nothing before the `sorted(...)` call consumes
the generator). -/
def loadChildren (fs : FsTree) (cfg : Config) (σ : TState) (i : Nat) :
    Except String TState :=
  if (getN σ i).loaded then .ok σ
  else
    match listChildren fs cfg (getN σ i).path with
    | .error e => .error e
    | .ok listing => .ok (loadCore σ i (sortByName listing))

/-- `TreeNode.enter` (lines 208-212): load, splice the following sibling's
`_same_level_up` to `last_child`, set `_expanded`. -/
def enterOp (fs : FsTree) (cfg : Config) (σ : TState) (i : Nat) :
    Except String TState :=
  match loadChildren fs cfg σ i with
  | .error e => .error e
  | .ok σ1 =>
    let σ2 :=
      match (getN σ1 i).slDown with
      | some f => setSlUp σ1 f (getN σ1 i).lastChild
      | none => σ1
    .ok (setExpanded σ2 i true)

/-- Modelled from the spec: the `FileTreeViewer`'s handling of a bubbled
`FOCUS_CHANGED` event is not under `src/` (the shipped viewer is a different,
Textual-based variant); §4.5 of the spec: move the focus flag to the event's
target entry, clearing it on the previous one; if the target is none, do
nothing. -/
def setFocusTo (σ : TState) : Option Nat → TState
  | none => σ
  | some j => { setFocusFlag (setFocusFlag σ σ.focus false) j true with focus := j }

/-- `TreeNode.down` / `Node.down` (lines 137-141, 227-235). -/
def downOf (σ : TState) (i : Nat) : Option Nat :=
  let nd := getN σ i
  if nd.isDir then (if nd.expanded then nd.childDown else nd.slDown)
  else nd.slDown

/-- `TreeNode.up` / `Node.up` (lines 143-147, 237-242). -/
def upOf (σ : TState) (i : Nat) : Option Nat := (getN σ i).slUp

/-- `focus(direction)` on the focused node (lines 158-161, 203-206) together
with the viewer's focus update. -/
def moveOp (σ : TState) (d : Int) : TState :=
  let tgt := if d = -1 then upOf σ σ.focus else downOf σ σ.focus
  setFocusTo σ tgt

/-- `TreeNode.exit` (lines 214-225) and `Node.exit` (lines 155-156): an
expanded container collapses (restoring the sibling's `_same_level_up`); a
collapsed container or a leaf bubbles `FOCUS_CHANGED` to its parent. -/
def nodeExit (σ : TState) (i : Nat) : TState :=
  let nd := getN σ i
  if nd.isDir ∧ nd.expanded then
    let σ1 :=
      match nd.slDown with
      | some f => setSlUp σ f (some i)
      | none => σ
    setExpanded σ1 i false
  else
    setFocusTo σ nd.parent

/-- `TreeNode.full_tree` (lines 294-301): the visible chain obtained by
repeatedly following `down` from a node, with explicit fuel. -/
def chainFrom (σ : TState) : Nat → Nat → List Nat
  | 0, i => [i]
  | fuel + 1, i =>
    i :: (match downOf σ i with
          | none => []
          | some j => chainFrom σ fuel j)

/-- The currently visible sequence: `full_tree` from the root (id 0). -/
def visibleChain (σ : TState) : List Nat := chainFrom σ σ.len 0

/-- The root `TreeNode` as constructed by the viewer (level 0, focussed). -/
def mkRoot (fs : FsTree) : NodeObj :=
  { path := [], name := fs.name, isDir := true, level := 0, parent := none,
    focussed := true }

/-- Construction of the tree: the root node is created and auto-entered
(`TreeNode.__init__`, lines 192-196). -/
def buildInit (fs : FsTree) (cfg : Config) : Except String TState :=
  enterOp fs cfg { nodes := [mkRoot fs], focus := 0, matchEvents := 0 } 0

/-! ### Search and rendering -/

/-- Python's `str.find` over character lists: the first index at which `t`
occurs as a contiguous substring of `s` (`some i`), or `none` (Python's
`-1`).  In particular the empty string matches at index 0. -/
def subIdx (t : List Char) : List Char → Nat → Option Nat
  | s, i =>
    if t.isPrefixOf s then some i
    else
      match s with
      | [] => none
      | _ :: s2 => subIdx t s2 (i + 1)

def pyFind (s t : String) : Option Nat := subIdx t.data s.data 0

/-- `TreeNode.bubble` for a `MATCH_FOUND` event (lines 198-201): every
ancestor `TreeNode` sets `_expanded = True` and forwards the event; the
viewer (the root's parent) finally receives it, which we count in
`matchEvents`.  Fuel bounds the parent walk (parent ids are strictly
smaller than child ids in every constructed state). -/
def bubbleMatch (σ : TState) : Nat → Option Nat → TState
  | _, none => { σ with matchEvents := σ.matchEvents + 1 }
  | 0, some _ => σ
  | fuel + 1, some p => bubbleMatch (setExpanded σ p true) fuel (getN σ p).parent

/-- `BaseNode.find` (lines 123-128): set or clear the match span; a match
bubbles `MATCH_FOUND` starting at the parent. -/
def nodeFind (σ : TState) (i : Nat) (term : String) : TState :=
  match pyFind (getN σ i).name term with
  | some idx =>
    let σ1 := setMatchFind σ i (some (idx, idx + term.length))
    bubbleMatch σ1 σ1.len (getN σ1 i).parent
  | none => setMatchFind σ i none

/-- Depth-first id order of the already-loaded tree, as walked by
`all_nodes` (lines 282-292): follow `_child_down` if present, else
`_same_level_down`. -/
def allNodesFrom (σ : TState) : Nat → Nat → List Nat
  | 0, i => [i]
  | fuel + 1, i =>
    i :: (match (getN σ i).childDown with
          | some c => allNodesFrom σ fuel c
          | none =>
            match (getN σ i).slDown with
            | some j => allNodesFrom σ fuel j
            | none => [])

/-- Force `load_children` on every container transitively (the eager
pre-load the search performs), by repeatedly loading along the `all_nodes`
walk until no node is unloaded.  `fuel` bounds the number of loads. -/
def loadAll (fs : FsTree) (cfg : Config) : Nat → TState → Nat →
    Except String TState
  | 0, σ, _ => .ok σ
  | fuel + 1, σ, i =>
    if i < σ.len then
      match (if (getN σ i).isDir then loadChildren fs cfg σ i else .ok σ) with
      | .error e => .error e
      | .ok σ1 =>
        match (getN σ1 i).childDown with
        | some c => loadAll fs cfg fuel σ1 c
        | none =>
          match (getN σ1 i).slDown with
          | some j => loadAll fs cfg fuel σ1 j
          | none => .ok σ1
    else .ok σ

/-- Modelled from the spec: the viewer's `find(term)` driver is not under
`src/` (only its tests and the node-level `find`/`bubble` are).  Per §4.4 it
first forces the Lazy Loader to materialize every container transitively,
then performs a depth-first walk invoking each entry's `find`. -/
def treeFind (fs : FsTree) (cfg : Config) (fuel : Nat) (σ : TState)
    (term : String) : Except String TState :=
  match loadAll fs cfg fuel σ 0 with
  | .error e => .error e
  | .ok σ1 => .ok ((allNodesFrom σ1 σ1.len 0).foldl (fun σ i => nodeFind σ i term) σ1)

/-- `BaseNode.render` (lines 87-121): indentation, icon, then the name split
around the match span, each with its style tag. -/
def render (σ : TState) (i : Nat) : List (String × String) :=
  let nd := getN σ i
  let defaultStyle := if nd.focussed then "class:node_focussed" else ""
  let icon := if nd.isDir then "📂" else "📄"
  let nameParts : List (String × String) :=
    match nd.matchFind with
    | some (a, b) =>
      (if 0 < a then [(defaultStyle, String.mk (nd.name.data.take a))] else []) ++
      [("class:node_find_match", String.mk ((nd.name.data.drop a).take (b - a)))] ++
      (if b < nd.name.data.length then
        [(defaultStyle, String.mk (nd.name.data.drop b))] else [])
    | none => [(defaultStyle, nd.name)]
  ("", String.mk (List.replicate nd.level ' ')) :: ("", icon) ::
    nameParts ++ [("", "\n")]

/-! ### Reachability

`Reach` is the liberal step relation of the claims "reachable by
enter/exit/load operations": any move of the focus, and `enter`, `exit` or a
bare `load_children` on any (directory) node.  `ReachS` restricts the
operations to the focused node — the way the application actually issues
them — and additionally requires each `enter` to satisfy `safeEnter` (the
entered container's last child, if already loaded, is not itself left
expanded); this is the restriction under which the amended round-trip claim
holds. -/

inductive Reach (fs : FsTree) (cfg : Config) : TState → Prop where
  | init (σ : TState) : buildInit fs cfg = .ok σ → Reach fs cfg σ
  | load (σ σ' : TState) (i : Nat) : Reach fs cfg σ → i < σ.len →
      (getN σ i).isDir = true → loadChildren fs cfg σ i = .ok σ' →
      Reach fs cfg σ'
  | enter (σ σ' : TState) (i : Nat) : Reach fs cfg σ → i < σ.len →
      (getN σ i).isDir = true → enterOp fs cfg σ i = .ok σ' →
      Reach fs cfg σ'
  | exi (σ : TState) (i : Nat) : Reach fs cfg σ → i < σ.len →
      Reach fs cfg (nodeExit σ i)
  | move (σ : TState) (d : Int) : Reach fs cfg σ → Reach fs cfg (moveOp σ d)

/-- The side condition of the amended round-trip claim: the container's last
child (if any — so in particular if it is already loaded) is not expanded. -/
def safeEnter (σ : TState) (i : Nat) : Prop :=
  ∀ L, (getN σ i).lastChild = some L → (getN σ L).expanded = false

instance (σ : TState) (i : Nat) : Decidable (safeEnter σ i) := by
  unfold safeEnter; infer_instance

inductive ReachS (fs : FsTree) (cfg : Config) : TState → Prop where
  | init (σ : TState) : buildInit fs cfg = .ok σ → ReachS fs cfg σ
  | load (σ σ' : TState) (i : Nat) : ReachS fs cfg σ → i < σ.len →
      (getN σ i).isDir = true → loadChildren fs cfg σ i = .ok σ' →
      ReachS fs cfg σ'
  | enter (σ σ' : TState) : ReachS fs cfg σ →
      (getN σ σ.focus).isDir = true → safeEnter σ σ.focus →
      enterOp fs cfg σ σ.focus = .ok σ' → ReachS fs cfg σ'
  | exi (σ : TState) : ReachS fs cfg σ → ReachS fs cfg (nodeExit σ σ.focus)
  | move (σ : TState) (d : Int) : ReachS fs cfg σ → ReachS fs cfg (moveOp σ d)

/-! ### Invariants -/

/-- `i` is recorded as the last child of some container. -/
def isLastChildN (σ : TState) (i : Nat) : Prop :=
  ∃ k, k < σ.len ∧ (getN σ k).lastChild = some i

/-- A "top" same-level link: `i married to j` by `_same_level_down` where `i`
is not itself a last child (so `i` is `j`'s previous sibling, the top of the
chain of containers whose subtree ends just before `j`). -/
def topLink (σ : TState) (i j : Nat) : Prop :=
  (getN σ i).slDown = some j ∧ ¬ isLastChildN σ i

/-- The deepest visible tail of the subtree "hanging" at `i`: descend into
`lastChild` while the node is an expanded container.  `none` encodes the
degenerate expanded-but-childless case (the splice then writes `None`, see
claim C10). -/
def dtQ (σ : TState) : Nat → Nat → Option Nat
  | 0, _ => none
  | fuel + 1, i =>
    if (getN σ i).isDir = true ∧ (getN σ i).expanded = true then
      match (getN σ i).lastChild with
      | some t => dtQ σ fuel t
      | none => none
    else some i

/-- Walk up from `b` while `b` is the recorded `last_child` of its parent:
the "top" of the chain of containers whose subtrees all end at `b` (fuel
bounds the walk; parent ids strictly decrease). -/
def upTop (σ : TState) : Nat → Nat → Nat
  | 0, b => b
  | fuel + 1, b =>
    match (getN σ b).parent with
    | some p => if (getN σ p).lastChild = some b then upTop σ fuel p else b
    | none => b

/-- Strict ancestorship through the parent back-references. -/
inductive Anc (σ : TState) : Nat → Nat → Prop where
  | parent (a j : Nat) : (getN σ j).parent = some a → Anc σ a j
  | step (a p j : Nat) : (getN σ j).parent = some p → Anc σ a p → Anc σ a j

/-- Parent ids strictly precede child ids (allocation order). -/
def ParentWF (σ : TState) : Prop :=
  ∀ j, j < σ.len → ∀ p, (getN σ j).parent = some p → p < j

/-- A ranking certifying that both down-pointer families strictly descend:
the chain-termination certificate. -/
def RankOK (σ : TState) : Prop :=
  ∃ r : Nat → Int, ∀ i, i < σ.len →
    (∀ j, (getN σ i).childDown = some j → r j < r i) ∧
    (∀ j, (getN σ i).slDown = some j → r j < r i)

/-- The light well-formedness invariant carried along `Reach`. -/
structure WfR (σ : TState) : Prop where
  len_pos : 0 < σ.len
  cd_lt : ∀ i, i < σ.len → ∀ j, (getN σ i).childDown = some j → j < σ.len
  sd_lt : ∀ i, i < σ.len → ∀ j, (getN σ i).slDown = some j → j < σ.len
  rank : RankOK σ

/-- The full invariant carried along `ReachS`, strong enough for the
round-trip property. -/
structure Inv (σ : TState) : Prop where
  len_pos : 0 < σ.len
  focus_lt : σ.focus < σ.len
  parent_lt : ParentWF σ
  parent_none_root : ∀ i, i < σ.len → (getN σ i).parent = none → i = 0
  root_parent : (getN σ 0).parent = none
  root_sd : (getN σ 0).slDown = none
  root_su : (getN σ 0).slUp = none
  sd_ne_root : ∀ i, i < σ.len → (getN σ i).slDown ≠ some 0
  cd_range : ∀ i, i < σ.len → ∀ j, (getN σ i).childDown = some j → i < j ∧ j < σ.len
  lc_range : ∀ i, i < σ.len → ∀ j, (getN σ i).lastChild = some j → i < j ∧ j < σ.len
  sd_lt : ∀ i, i < σ.len → ∀ j, (getN σ i).slDown = some j → j < σ.len
  su_lt : ∀ i, i < σ.len → ∀ j, (getN σ i).slUp = some j → j < σ.len
  cd_parent : ∀ i j, i < σ.len → (getN σ i).childDown = some j →
    (getN σ j).parent = some i
  lc_parent : ∀ i j, i < σ.len → (getN σ i).lastChild = some j →
    (getN σ j).parent = some i
  lc_sd : ∀ i j, i < σ.len → (getN σ i).lastChild = some j →
    (getN σ j).slDown = (getN σ i).slDown
  top_sibling : ∀ i j, i < σ.len → topLink σ i j →
    (getN σ j).parent = (getN σ i).parent
  unloaded_blank : ∀ i, i < σ.len → (getN σ i).loaded = false →
    (getN σ i).childDown = none ∧ (getN σ i).lastChild = none ∧
    (getN σ i).expanded = false
  leaf_blank : ∀ i, i < σ.len → (getN σ i).isDir = false →
    (getN σ i).childDown = none ∧ (getN σ i).lastChild = none ∧
    (getN σ i).expanded = false ∧ (getN σ i).loaded = false
  cd_sd_excl : ∀ p t j, p < σ.len → t < σ.len → (getN σ p).childDown = some j →
    (getN σ t).slDown ≠ some j
  top_inj : ∀ i i' j, i < σ.len → i' < σ.len → topLink σ i j →
    topLink σ i' j → i = i'
  cd_up : ∀ i j, i < σ.len → (getN σ i).childDown = some j →
    (getN σ j).slUp = some i
  top_up : ∀ i j, i < σ.len → topLink σ i j →
    (getN σ j).slUp = dtQ σ σ.len i
  rank : RankOK σ
  focus_vis : σ.focus ∈ visibleChain σ

/-- Unpack an `Except`-state, defaulting to the empty state (used only to
write concrete example states compactly). -/
def okD (e : Except String TState) : TState :=
  match e with
  | .ok s => s
  | .error _ => { nodes := [], focus := 0, matchEvents := 0 }

/-- Executable check that every stored parent id strictly precedes its
child id (the allocation order of `load_children`). -/
def parentWFb (σ : TState) : Bool :=
  (List.range σ.len).all (fun j =>
    match (getN σ j).parent with
    | some p => decide (p < j)
    | none => true)

/-! ### Concrete instances used by witnesses and counterexamples -/

/-- No-filtering configuration. -/
def cfgN : Config := { useGit := false, repo := none }

/-- `r/{a/{c/{d}}, b}`: a directory `a` whose only child `c` is itself a
directory with one file, plus a trailing file `b`. -/
def fsC : FsTree :=
  .dir "r" (.ok [.dir "a" (.ok [.dir "c" (.ok [.file "d"])]), .file "b"])

/-- The state after the op sequence of the C1 counterexample: enter `a`,
enter `c`, collapse `a` (from focus `a`), re-enter `a` while its last child
`c` is still expanded, and walk the focus down to the deepest leaf. -/
def σC0 : TState := okD (buildInit fsC cfgN)

def σC2 : TState := okD (enterOp fsC cfgN (moveOp σC0 1) (moveOp σC0 1).focus)

def σC4 : TState := okD (enterOp fsC cfgN (moveOp σC2 1) (moveOp σC2 1).focus)

def σC6 : TState := nodeExit (moveOp σC4 (-1)) (moveOp σC4 (-1)).focus

def σC7 : TState := okD (enterOp fsC cfgN σC6 σC6.focus)

def σC8 : TState := moveOp (moveOp σC7 1) 1

/-- `r/{a/, b}` with `a` an empty directory. -/
def fsE : FsTree := .dir "r" (.ok [.dir "a" (.ok []), .file "b"])

def σE0 : TState := okD (buildInit fsE cfgN)

def σE1 : TState := moveOp σE0 1

/-- `r/{a, b}` where enumerating `a` raises a permission error. -/
def fsP : FsTree :=
  .dir "r" (.ok [.dir "a" (.error "PermissionError"), .file "b"])

def σP0 : TState := okD (buildInit fsP cfgN)

/-- A single leaf node named `test_node`, focused and matched, as in the
repository's render tests. -/
def σR : TState :=
  { nodes := [{ path := ["test_node"], name := "test_node", isDir := false,
                level := 1, parent := none, focussed := true,
                matchFind := some (3, 7) }],
    focus := 0, matchEvents := 0 }

/-- Ignore-oracle configuration hiding exactly the path `r/b`. -/
def cfgG : Config := { useGit := true, repo := some (fun p => p = ["b"]) }

def σG0 : TState := okD (buildInit fsC cfgG)

/-! ## Theorems

### Arena access lemmas -/

theorem getN_eq (σ : TState) (i : Nat) : getN σ i = (σ.nodes[i]?).getD default := by
  simp [getN, List.getD]

theorem len_modify (σ : TState) (i : Nat) (f : NodeObj → NodeObj) :
    (modifyN σ i f).len = σ.len := by
  simp [modifyN, TState.len]

theorem focus_modify (σ : TState) (i : Nat) (f : NodeObj → NodeObj) :
    (modifyN σ i f).focus = σ.focus := rfl

theorem matchEvents_modify (σ : TState) (i : Nat) (f : NodeObj → NodeObj) :
    (modifyN σ i f).matchEvents = σ.matchEvents := rfl

theorem getN_modify_self (σ : TState) (i : Nat) (f : NodeObj → NodeObj)
    (h : i < σ.len) : getN (modifyN σ i f) i = f (getN σ i) := by
  simp [getN_eq, modifyN, List.getElem?_set_self (by simpa [TState.len] using h)]

theorem getN_modify_ne (σ : TState) (i j : Nat) (f : NodeObj → NodeObj)
    (h : i ≠ j) : getN (modifyN σ i f) j = getN σ j := by
  simp [getN_eq, modifyN, List.getElem?_set_ne h]

theorem getN_oob (σ : TState) (i : Nat) (h : σ.len ≤ i) : getN σ i = default := by
  simp [getN_eq, List.getElem?_eq_none (by simpa [TState.len] using h)]

theorem getN_modify (σ : TState) (i j : Nat) (f : NodeObj → NodeObj) :
    getN (modifyN σ i f) j =
      if j = i ∧ i < σ.len then f (getN σ i) else getN σ j := by
  by_cases hj : j = i
  · subst hj
    by_cases hi : j < σ.len
    · simp [hi, getN_modify_self _ _ _ hi]
    · simp [hi, modifyN, getN_eq,
        List.set_eq_of_length_le (by simpa [TState.len] using hi)]
  · simp [hj, getN_modify_ne _ _ _ _ (Ne.symm hj)]

/-! ### Characterization of the linking loop -/

theorem linkGo_len (σ : TState) (u : Nat) (first : Bool) (cs : List Nat) :
    (linkGo σ u first cs).len = σ.len := by
  induction cs generalizing σ u first with
  | nil => rfl
  | cons c rest ih =>
    simp only [linkGo]
    rw [ih]
    by_cases hf : first <;>
      simp [hf, setSlUp, setChildDown, setSlDown, len_modify]

theorem linkGo_focus (σ : TState) (u : Nat) (first : Bool) (cs : List Nat) :
    (linkGo σ u first cs).focus = σ.focus := by
  induction cs generalizing σ u first with
  | nil => rfl
  | cons c rest ih =>
    simp only [linkGo]
    rw [ih]
    by_cases hf : first <;>
      simp [hf, setSlUp, setChildDown, setSlDown, focus_modify]

theorem linkGo_matchEvents (σ : TState) (u : Nat) (first : Bool)
    (cs : List Nat) : (linkGo σ u first cs).matchEvents = σ.matchEvents := by
  induction cs generalizing σ u first with
  | nil => rfl
  | cons c rest ih =>
    simp only [linkGo]
    rw [ih]
    by_cases hf : first <;>
      simp [hf, setSlUp, setChildDown, setSlDown, matchEvents_modify]

theorem linkGo_frame (σ : TState) (u : Nat) (first : Bool) (cs : List Nat)
    (j : Nat) (hj : j ∉ cs) (hju : j ≠ u) :
    getN (linkGo σ u first cs) j = getN σ j := by
  induction cs generalizing σ u first with
  | nil => rfl
  | cons c rest ih =>
    simp only [List.mem_cons, not_or] at hj
    simp only [linkGo]
    rw [ih _ _ _ hj.2 hj.1]
    by_cases hf : first <;>
      simp [hf, setSlUp, setChildDown, setSlDown,
        getN_modify_ne _ _ _ _ (Ne.symm hju), getN_modify_ne _ _ _ _ (Ne.symm hj.1)]

/-- The block of ids `u+1, …, u+n`. -/
def blockIds (u n : Nat) : List Nat := (List.range n).map (fun k => u + 1 + k)

theorem blockIds_zero (u : Nat) : blockIds u 0 = [] := rfl

theorem blockIds_succ (u n : Nat) :
    blockIds u (n + 1) = (u + 1) :: blockIds (u + 1) n := by
  simp only [blockIds, List.range_succ_eq_map, List.map_cons, List.map_map]
  congr 1
  apply List.map_congr_left
  intro k _
  simp [Function.comp]
  omega

theorem mem_blockIds {u n j : Nat} :
    j ∈ blockIds u n ↔ u + 1 ≤ j ∧ j ≤ u + n := by
  simp only [blockIds, List.mem_map, List.mem_range]
  constructor
  · rintro ⟨k, hk, rfl⟩; omega
  · rintro ⟨h1, h2⟩; exact ⟨j - (u + 1), by omega, by omega⟩

/-- Effect of the linking loop on a contiguous block `u+1, …, u+n` with the
running `up` already past the head: the previous node's `_same_level_down`
and each block node's `_same_level_up`/`_same_level_down` get wired. -/
theorem linkGo_false_spec (n : Nat) : ∀ (σ : TState) (u : Nat),
    u < σ.len → u + n < σ.len →
    (0 < n → getN (linkGo σ u false (blockIds u n)) u =
      { getN σ u with slDown := some (u + 1) }) ∧
    (∀ k, 1 ≤ k → k ≤ n →
      getN (linkGo σ u false (blockIds u n)) (u + k) =
        { getN σ (u + k) with
          slUp := some (u + k - 1)
          slDown := if k < n then some (u + k + 1)
                    else (getN σ (u + k)).slDown }) := by
  induction n with
  | zero =>
    intro σ u hu _
    refine ⟨fun h => absurd h (by omega), fun k hk1 hk2 => absurd hk2 (by omega)⟩
  | succ n ih =>
    intro σ u hu hun
    rw [blockIds_succ]
    simp only [linkGo, Bool.false_eq_true, if_false]
    set σ2 := setSlUp (setSlDown σ u (some (u + 1))) (u + 1) (some u) with hσ2
    have hlen2 : σ2.len = σ.len := by
      simp [hσ2, setSlUp, setSlDown, len_modify]
    have hu2 : u + 1 < σ2.len := by omega
    have hun2 : u + 1 + n < σ2.len := by omega
    have hg2u : getN σ2 u = { getN σ u with slDown := some (u + 1) } := by
      rw [hσ2]
      rw [setSlUp, getN_modify_ne _ _ _ _ (by omega)]
      rw [setSlDown, getN_modify_self _ _ _ hu]
    have hg2u1 : getN σ2 (u + 1) = { getN σ (u + 1) with slUp := some u } := by
      rw [hσ2]
      rw [setSlUp, getN_modify_self _ _ _ (by simp [setSlDown, len_modify]; omega)]
      rw [setSlDown, getN_modify_ne _ _ _ _ (by omega)]
    have hg2o : ∀ j, j ≠ u → j ≠ u + 1 → getN σ2 j = getN σ j := by
      intro j hj1 hj2
      rw [hσ2]
      rw [setSlUp, getN_modify_ne _ _ _ _ (Ne.symm hj2)]
      rw [setSlDown, getN_modify_ne _ _ _ _ (Ne.symm hj1)]
    obtain ⟨ih1, ih2⟩ := ih σ2 (u + 1) hu2 hun2
    constructor
    · intro _
      rw [linkGo_frame _ _ _ _ u (by rw [mem_blockIds]; omega) (by omega)]
      exact hg2u
    · intro k hk1 hk2
      rcases Nat.lt_or_ge k 2 with hk | hk
      · have hk1' : k = 1 := by omega
        subst hk1'
        rcases Nat.eq_zero_or_pos n with hn | hn
        · subst hn
          rw [blockIds_zero]
          simp only [linkGo]
          rw [hg2u1]
          simp
        · have := ih1 hn
          rw [this, hg2u1]
          simp [Nat.lt_irrefl, hn]
      · have h2 := ih2 (k - 1) (by omega) (by omega)
        have e0 : u + 1 + (k - 1) = u + k := by omega
        rw [e0] at h2
        rw [h2]
        have e3 : (k - 1 < n) = (k < n + 1) := by
          apply propext; constructor <;> intro <;> omega
        simp only [hg2o (u + k) (by omega) (by omega), e3]

/-! ### Characterization of `load_children` -/

theorem getN_append_lt (σ : TState) (l : List NodeObj) (j : Nat)
    (h : j < σ.len) :
    getN { σ with nodes := σ.nodes ++ l } j = getN σ j := by
  simp only [getN_eq]
  rw [List.getElem?_append]
  simp [TState.len] at h
  simp [h]

theorem getN_append_block (σ : TState) (l : List NodeObj) (k : Nat)
    (h : k < l.length) :
    getN { σ with nodes := σ.nodes ++ l } (σ.len + k) = l.getD k default := by
  simp only [getN_eq]
  rw [List.getElem?_append]
  simp only [TState.len]
  rw [if_neg (by omega)]
  rw [List.getD_eq_getElem?_getD]
  congr 1
  congr 1
  omega

theorem blockIds_getLast (u n : Nat) (h : 0 < n) :
    (blockIds u n).getLast? = some (u + n) := by
  induction n generalizing u with
  | zero => omega
  | succ n ih =>
    rw [blockIds_succ]
    rcases Nat.eq_zero_or_pos n with hn | hn
    · subst hn; rfl
    · rw [List.getLast?_cons, ih (u + 1) hn]
      simp only [Option.getD_some]
      congr 1
      omega

theorem rangeMap_eq_cons (base n : Nat) (h : 0 < n) :
    (List.range n).map (base + ·) = base :: blockIds base (n - 1) := by
  obtain ⟨m, rfl⟩ : ∃ m, n = m + 1 := ⟨n - 1, by omega⟩
  rw [List.range_succ_eq_map]
  simp only [List.map_cons, List.map_map, Nat.add_zero, Nat.add_sub_cancel]
  congr 1
  unfold blockIds
  apply List.map_congr_left
  intro k _
  simp [Function.comp]
  omega

/-- The memoized branch of `load_children`. -/
theorem loadChildren_loaded (fs : FsTree) (cfg : Config) (σ : TState) (i : Nat)
    (h : (getN σ i).loaded = true) : loadChildren fs cfg σ i = .ok σ := by
  rw [loadChildren, if_pos h]

/-- The error branch of `load_children`: the enumeration error propagates. -/
theorem loadChildren_err (fs : FsTree) (cfg : Config) (σ : TState) (i : Nat)
    (e : String) (hnl : (getN σ i).loaded = false)
    (hls : listChildren fs cfg (getN σ i).path = .error e) :
    loadChildren fs cfg σ i = .error e := by
  rw [loadChildren, if_neg (by simp [hnl]), hls]

/-- The successful branch of `load_children`. -/
theorem loadChildren_ok (fs : FsTree) (cfg : Config) (σ : TState) (i : Nat)
    (listing : List FsTree) (hnl : (getN σ i).loaded = false)
    (hls : listChildren fs cfg (getN σ i).path = .ok listing) :
    loadChildren fs cfg σ i = .ok (loadCore σ i (sortByName listing)) := by
  rw [loadChildren, if_neg (by simp [hnl]), hls]

/-- Full characterization of the construction-and-linking step: the new
children occupy ids `σ.len, …, σ.len + n - 1` in listing order with the
sibling chain wired through them, the container's `_child_down` /
`last_child` / `_children` fields are set, and nothing else changes. -/
theorem loadCore_spec (σ : TState) (i : Nat) (specs : List FsTree)
    (hi : i < σ.len) :
    (loadCore σ i specs).len = σ.len + specs.length ∧
    (loadCore σ i specs).focus = σ.focus ∧
    (loadCore σ i specs).matchEvents = σ.matchEvents ∧
    (∀ j, j < σ.len → j ≠ i → getN (loadCore σ i specs) j = getN σ j) ∧
    (getN (loadCore σ i specs) i =
      { getN σ i with
        childDown := if specs.length = 0 then (getN σ i).childDown
                     else some σ.len
        lastChild := if specs.length = 0 then (getN σ i).lastChild
                     else some (σ.len + specs.length - 1)
        loaded := true }) ∧
    (∀ k c, specs[k]? = some c →
      getN (loadCore σ i specs) (σ.len + k) =
        { mkChild (getN σ i).path ((getN σ i).level + 1) i c with
          slUp := some (if k = 0 then i else σ.len + k - 1)
          slDown := if k + 1 = specs.length then (getN σ i).slDown
                    else some (σ.len + k + 1) }) := by
  have hkn : ∀ k c, specs[k]? = some c → k < specs.length := by
    intro k c hc
    by_contra hcon
    rw [List.getElem?_eq_none (by omega)] at hc
    exact Option.noConfusion hc
  set σ1 : TState :=
    { σ with nodes := σ.nodes ++
        specs.map (mkChild (getN σ i).path ((getN σ i).level + 1) i) } with hσ1
  set ids := (List.range specs.length).map (σ.len + ·) with hids
  set σ2 := linkGo σ1 i true ids with hσ2
  set σ3 :=
    (match ids.getLast? with
     | some c => setLastChild (setSlDown σ2 c (getN σ2 i).slDown) i (some c)
     | none => σ2) with hσ3
  have hcore : loadCore σ i specs = setLoaded σ3 i true := rfl
  rw [hcore]
  have hlen1 : σ1.len = σ.len + specs.length := by
    simp [hσ1, TState.len]
  have hg1old : ∀ j, j < σ.len → getN σ1 j = getN σ j := fun j hj =>
    getN_append_lt σ _ j hj
  have hg1new : ∀ k c, specs[k]? = some c →
      getN σ1 (σ.len + k) =
        mkChild (getN σ i).path ((getN σ i).level + 1) i c := by
    intro k c hc
    rw [hσ1, getN_append_block σ _ k (by simpa using hkn k c hc)]
    rw [List.getD_eq_getElem?_getD, List.getElem?_map, hc]
    rfl
  rcases Nat.eq_zero_or_pos specs.length with hn0 | hn0
  · -- no children: only the memo flag is set
    have hspecsnil : specs = [] := List.length_eq_zero.mp hn0
    subst hspecsnil
    have hidsnil : ids = [] := by rw [hids]; rfl
    have hσ3id : σ3 = σ1 := by rw [hσ3, hidsnil, hσ2, hidsnil]; rfl
    have hg1 : ∀ j, getN σ1 j = getN σ j := by
      intro j
      rw [hσ1]
      simp [getN_eq]
    have hl3 : σ3.len = σ.len := by
      rw [hσ3id, hlen1]; rfl
    refine ⟨?_, ?_, ?_, ?_, ?_, ?_⟩
    · simp [setLoaded, len_modify, hl3]
    · simp [setLoaded, focus_modify, hσ3id, hσ1]
    · simp [setLoaded, matchEvents_modify, hσ3id, hσ1]
    · intro j hj hji
      rw [setLoaded, getN_modify_ne _ _ _ _ (Ne.symm hji), hσ3id, hg1]
    · rw [setLoaded, getN_modify_self _ _ _ (by omega : i < σ3.len), hσ3id, hg1]
      simp
    · intro k c hc
      exact absurd hc (by simp)
  · -- at least one child
    obtain ⟨m, hm⟩ : ∃ m, specs.length = m + 1 := ⟨specs.length - 1, by omega⟩
    have hidscons : ids = σ.len :: blockIds σ.len m := by
      rw [hids, hm]
      exact rangeMap_eq_cons σ.len (m + 1) (by omega)
    have hσ2eq : σ2 =
        linkGo (setSlUp (setChildDown σ1 i (some σ.len)) σ.len (some i))
          σ.len false (blockIds σ.len m) := by
      rw [hσ2, hidscons]
      rfl
    set σ4 := setSlUp (setChildDown σ1 i (some σ.len)) σ.len (some i) with hσ4
    have hlen4 : σ4.len = σ.len + specs.length := by
      simp [hσ4, setSlUp, setChildDown, len_modify, hlen1]
    have hg4old : ∀ j, j < σ.len → j ≠ i → getN σ4 j = getN σ j := by
      intro j hj hji
      rw [hσ4, setSlUp, getN_modify_ne _ _ _ _ (by omega),
        setChildDown, getN_modify_ne _ _ _ _ (Ne.symm hji), hg1old j hj]
    have hg4i : getN σ4 i = { getN σ i with childDown := some σ.len } := by
      rw [hσ4, setSlUp, getN_modify_ne _ _ _ _ (by omega),
        setChildDown, getN_modify_self _ _ _ (by omega : i < σ1.len),
        hg1old i hi]
    have hg4base : ∀ c, specs[0]? = some c →
        getN σ4 σ.len =
          { mkChild (getN σ i).path ((getN σ i).level + 1) i c with
            slUp := some i } := by
      intro c hc
      have hlt : σ.len < (setChildDown σ1 i (some σ.len)).len := by
        simp [setChildDown, len_modify]; omega
      rw [hσ4, setSlUp, getN_modify_self _ _ _ hlt,
        setChildDown, getN_modify_ne _ _ _ _ (by omega)]
      have := hg1new 0 c hc
      rw [Nat.add_zero] at this
      rw [this]
    have hg4blk : ∀ k, 1 ≤ k → k ≤ m →
        getN σ4 (σ.len + k) = getN σ1 (σ.len + k) := by
      intro k h1 h2
      rw [hσ4, setSlUp, getN_modify_ne _ _ _ _ (by omega),
        setChildDown, getN_modify_ne _ _ _ _ (by omega)]
    obtain ⟨e1, e2⟩ := linkGo_false_spec m σ4 σ.len (by omega) (by omega)
    rw [← hσ2eq] at e1 e2
    have hlast : ids.getLast? = some (σ.len + m) := by
      rw [hidscons]
      rcases Nat.eq_zero_or_pos m with hm0 | hm0
      · subst hm0; rfl
      · rw [List.getLast?_cons, blockIds_getLast σ.len m hm0]
        rfl
    have hg2i : getN σ2 i = { getN σ i with childDown := some σ.len } := by
      rw [hσ2eq, linkGo_frame _ _ _ _ i (by rw [mem_blockIds]; omega) (by omega),
        hg4i]
    have hσ3eq : σ3 =
        setLastChild (setSlDown σ2 (σ.len + m) (getN σ2 i).slDown) i
          (some (σ.len + m)) := by
      rw [hσ3, hlast]
    have hlen2 : σ2.len = σ.len + specs.length := by
      rw [hσ2eq, linkGo_len]
      exact hlen4
    have hlen3 : σ3.len = σ.len + specs.length := by
      simp [hσ3eq, setLastChild, setSlDown, len_modify, hlen2]
    have hg3old : ∀ j, j < σ.len → j ≠ i → getN σ3 j = getN σ j := by
      intro j hj hji
      rw [hσ3eq, setLastChild, getN_modify_ne _ _ _ _ (Ne.symm hji),
        setSlDown, getN_modify_ne _ _ _ _ (by omega), hσ2eq,
        linkGo_frame _ _ _ _ j (by rw [mem_blockIds]; omega) (by omega),
        hg4old j hj hji]
    have hg3i : getN σ3 i =
        { getN σ i with
          childDown := some σ.len
          lastChild := some (σ.len + m) } := by
      rw [hσ3eq, setLastChild,
        getN_modify_self _ _ _
          (by simp [setSlDown, len_modify]; omega : i < (setSlDown σ2 (σ.len + m) (getN σ2 i).slDown).len),
        setSlDown, getN_modify_ne _ _ _ _ (by omega), hg2i]
    refine ⟨?_, ?_, ?_, ?_, ?_, ?_⟩
    · simp [setLoaded, len_modify, hlen3]
    · simp [setLoaded, focus_modify, hσ3eq, setLastChild, setSlDown, hσ2eq,
        linkGo_focus, hσ4, setSlUp, setChildDown, hσ1]
    · simp [setLoaded, matchEvents_modify, hσ3eq, setLastChild, setSlDown, hσ2eq,
        linkGo_matchEvents, hσ4, setSlUp, setChildDown, hσ1]
    · intro j hj hji
      rw [setLoaded, getN_modify_ne _ _ _ _ (Ne.symm hji), hg3old j hj hji]
    · rw [setLoaded, getN_modify_self _ _ _ (by omega : i < σ3.len), hg3i]
      rw [if_neg (by omega), if_neg (by omega)]
      have : σ.len + specs.length - 1 = σ.len + m := by omega
      rw [this]
    · intro k c hc
      have hk : k < specs.length := hkn k c hc
      have hne_i : σ.len + k ≠ i := by omega
      rw [setLoaded, getN_modify_ne _ _ _ _ (Ne.symm hne_i)]
      rcases Nat.lt_or_ge k m with hkm | hkm
      · -- strictly before the last child: untouched by the post-loop writes
        have hg3k : getN σ3 (σ.len + k) = getN σ2 (σ.len + k) := by
          rw [hσ3eq, setLastChild, getN_modify_ne _ _ _ _ (Ne.symm hne_i),
            setSlDown, getN_modify_ne _ _ _ _ (by omega)]
        rw [hg3k]
        rcases Nat.eq_zero_or_pos k with hk0 | hk0
        · subst hk0
          rw [Nat.add_zero]
          rw [e1 (by omega), hg4base c hc]
          rw [if_pos rfl, if_neg (by omega)]
        · have := e2 k hk0 (by omega)
          rw [this, if_pos hkm, hg4blk k hk0 (by omega), hg1new k c hc]
          rw [if_neg (by omega), if_neg (by omega)]
      · -- the last child: `slDown` is re-pointed at the container's resume pointer
        have hkm' : k = m := by omega
        subst hkm'
        have hg3k : getN σ3 (σ.len + k) =
            { getN σ2 (σ.len + k) with slDown := (getN σ i).slDown } := by
          have hlt : σ.len + k < (setSlDown σ2 (σ.len + k) (getN σ2 i).slDown).len := by
            simp [setSlDown, len_modify]; omega
          rw [hσ3eq, setLastChild, getN_modify_ne _ _ _ _ (Ne.symm hne_i),
            setSlDown, getN_modify_self _ _ _ (by rw [hlen2]; omega), hg2i]
        rw [hg3k]
        rcases Nat.eq_zero_or_pos k with hk0 | hk0
        · subst hk0
          have hσ2b : getN σ2 (σ.len + 0) =
              { mkChild (getN σ i).path ((getN σ i).level + 1) i c with
                slUp := some i } := by
            rw [Nat.add_zero, hσ2eq]
            rw [show blockIds σ.len 0 = [] from rfl]
            rw [show linkGo σ4 σ.len false [] = σ4 from rfl]
            exact hg4base c hc
          rw [hσ2b]
          rw [if_pos rfl, if_pos (by omega)]
        · have := e2 k hk0 (le_refl k)
          rw [this, if_neg (by omega : ¬ k < k), hg4blk k hk0 (le_refl k),
            hg1new k c hc]
          rw [if_neg (by omega : ¬ k = 0),
            if_pos (by omega : k + 1 = specs.length)]

/-! ### Frame lemmas for the small operations -/

/-- A projection untouched by a node update is untouched in the arena. -/
theorem getN_modify_proj (σ : TState) (i j : Nat) (f : NodeObj → NodeObj)
    {α : Type} (F : NodeObj → α) (hf : ∀ nd, F (f nd) = F nd) :
    F (getN (modifyN σ i f) j) = F (getN σ j) := by
  rw [getN_modify]
  by_cases h : j = i ∧ i < σ.len
  · rw [if_pos h, h.1, hf]
  · rw [if_neg h]

theorem enterOp_eq (fs : FsTree) (cfg : Config) (σ σ1 : TState) (i : Nat)
    (h : loadChildren fs cfg σ i = .ok σ1) :
    enterOp fs cfg σ i = .ok (setExpanded
      (match (getN σ1 i).slDown with
       | some f => setSlUp σ1 f (getN σ1 i).lastChild
       | none => σ1) i true) := by
  rw [enterOp, h]

theorem enterOp_err (fs : FsTree) (cfg : Config) (σ : TState) (i : Nat)
    (e : String) (h : loadChildren fs cfg σ i = .error e) :
    enterOp fs cfg σ i = .error e := by
  rw [enterOp, h]

theorem nodeExit_collapse (σ : TState) (i : Nat)
    (hdir : (getN σ i).isDir = true) (hexp : (getN σ i).expanded = true) :
    nodeExit σ i = setExpanded
      (match (getN σ i).slDown with
       | some f => setSlUp σ f (some i)
       | none => σ) i false := by
  simp only [nodeExit]
  rw [if_pos ⟨hdir, hexp⟩]

theorem nodeExit_bubble (σ : TState) (i : Nat)
    (h : ¬ ((getN σ i).isDir = true ∧ (getN σ i).expanded = true)) :
    nodeExit σ i = setFocusTo σ (getN σ i).parent := by
  simp only [nodeExit]
  rw [if_neg h]

theorem setFocusTo_len (σ : TState) (t : Option Nat) :
    (setFocusTo σ t).len = σ.len := by
  cases t with
  | none => rfl
  | some j => simp [setFocusTo, setFocusFlag, TState.len, modifyN]

theorem setFocusTo_proj (σ : TState) (t : Option Nat) (j : Nat)
    {α : Type} (F : NodeObj → α)
    (hf : ∀ nd v, F { nd with focussed := v } = F nd) :
    F (getN (setFocusTo σ t) j) = F (getN σ j) := by
  cases t with
  | none => rfl
  | some k =>
    show F (getN { setFocusFlag (setFocusFlag σ σ.focus false) k true
      with focus := k } j) = _
    have h1 : getN { setFocusFlag (setFocusFlag σ σ.focus false) k true
        with focus := k } j =
        getN (setFocusFlag (setFocusFlag σ σ.focus false) k true) j := rfl
    rw [h1, setFocusFlag, getN_modify_proj _ _ _ _ F (fun nd => hf nd true),
      setFocusFlag, getN_modify_proj _ _ _ _ F (fun nd => hf nd false)]

/-! ### The light invariant along `Reach` -/

theorem WfR.transport (σ σ' : TState) (h : WfR σ) (hlen : σ'.len = σ.len)
    (hcd : ∀ i, i < σ.len → (getN σ' i).childDown = (getN σ i).childDown)
    (hsd : ∀ i, i < σ.len → (getN σ' i).slDown = (getN σ i).slDown) :
    WfR σ' := by
  obtain ⟨r, hr⟩ := h.rank
  refine ⟨by have := h.len_pos; omega, ?_, ?_, r, ?_⟩
  · intro i hi j hj
    rw [hlen] at hi ⊢
    exact h.cd_lt i hi j (by rw [← hcd i hi]; exact hj)
  · intro i hi j hj
    rw [hlen] at hi ⊢
    exact h.sd_lt i hi j (by rw [← hsd i hi]; exact hj)
  · intro i hi
    rw [hlen] at hi
    refine ⟨fun j hj => (hr i hi).1 j (by rw [← hcd i hi]; exact hj),
      fun j hj => (hr i hi).2 j (by rw [← hsd i hi]; exact hj)⟩

theorem WfR_loadCore (σ : TState) (i : Nat) (specs : List FsTree)
    (h : WfR σ) (hi : i < σ.len) : WfR (loadCore σ i specs) := by
  obtain ⟨hlen, _, _, hold, hself, hkids⟩ := loadCore_spec σ i specs hi
  obtain ⟨r, hr⟩ := h.rank
  set n := specs.length with hn
  set M : Int := (n : Int) + 2 with hM
  set r' : Nat → Int := fun x =>
    if x < σ.len then M * r x else M * r i - ((x : Int) - (σ.len : Int) + 1)
    with hr'
  have hM0 : (0 : Int) < M := by rw [hM]; positivity
  have hscale : ∀ a b, r a < r b → M * r a < M * r b := by
    intro a b hab
    exact mul_lt_mul_of_pos_left hab hM0
  have hkid_get : ∀ k (hk : k < n),
      specs[k]? = some (specs.get ⟨k, hn ▸ hk⟩) := by
    intro k hk
    exact List.getElem?_eq_getElem (hn ▸ hk)
  constructor
  · have := h.len_pos
    omega
  · -- childDown targets in range
    intro x hx j hj
    rw [hlen] at hx ⊢
    rcases Nat.lt_or_ge x σ.len with hxo | hxn
    · by_cases hxi : x = i
      · subst hxi
        rw [hself] at hj
        by_cases hn0 : n = 0
        · rw [if_pos (by omega)] at hj
          have := h.cd_lt x hxo j hj
          omega
        · rw [if_neg (by simpa [hn] using hn0)] at hj
          simp only at hj
          cases hj
          omega
      · rw [hold x hxo hxi] at hj
        have := h.cd_lt x hxo j hj
        omega
    · obtain ⟨k, hk, rfl⟩ : ∃ k, k < n ∧ x = σ.len + k := ⟨x - σ.len, by omega, by omega⟩
      rw [hkids k _ (hkid_get k hk)] at hj
      exact absurd hj (by simp [mkChild])
  · -- slDown targets in range
    intro x hx j hj
    rw [hlen] at hx ⊢
    rcases Nat.lt_or_ge x σ.len with hxo | hxn
    · by_cases hxi : x = i
      · subst hxi
        rw [hself] at hj
        simp only at hj
        have := h.sd_lt x hxo j hj
        omega
      · rw [hold x hxo hxi] at hj
        have := h.sd_lt x hxo j hj
        omega
    · obtain ⟨k, hk, rfl⟩ : ∃ k, k < n ∧ x = σ.len + k := ⟨x - σ.len, by omega, by omega⟩
      rw [hkids k _ (hkid_get k hk)] at hj
      simp only [mkChild] at hj
      by_cases hlast : k + 1 = n
      · rw [if_pos (by simpa [hn] using hlast)] at hj
        have := h.sd_lt i hi j hj
        omega
      · rw [if_neg (by simpa [hn] using hlast)] at hj
        cases hj
        omega
  · -- the new ranking
    have hval_old : ∀ x, x < σ.len → r' x = M * r x := by
      intro x hx
      simp only [hr']
      rw [if_pos hx]
    have hval_new : ∀ k, r' (σ.len + k) = M * r i - ((k : Int) + 1) := by
      intro k
      simp only [hr']
      rw [if_neg (by omega : ¬ σ.len + k < σ.len)]
      push_cast
      ring
    refine ⟨r', ?_⟩
    intro x hx
    rw [hlen] at hx
    constructor
    · intro j hj
      rcases Nat.lt_or_ge x σ.len with hxo | hxn
      · by_cases hxi : x = i
        · subst hxi
          rw [hself] at hj
          by_cases hn0 : n = 0
          · rw [if_pos (by omega)] at hj
            have hlt := (hr x hxo).1 j hj
            have hjr := h.cd_lt x hxo j hj
            rw [hval_old x hxo, hval_old j hjr]
            exact hscale _ _ hlt
          · rw [if_neg (by simpa [hn] using hn0)] at hj
            simp only at hj
            cases hj
            have e1 := hval_new 0
            rw [Nat.add_zero] at e1
            rw [e1, hval_old x hxo]
            omega
        · rw [hold x hxo hxi] at hj
          have hlt := (hr x hxo).1 j hj
          have hjr := h.cd_lt x hxo j hj
          rw [hval_old x hxo, hval_old j hjr]
          exact hscale _ _ hlt
      · obtain ⟨k, hk, rfl⟩ : ∃ k, k < n ∧ x = σ.len + k :=
          ⟨x - σ.len, by omega, by omega⟩
        rw [hkids k _ (hkid_get k hk)] at hj
        exact absurd hj (by simp [mkChild])
    · intro j hj
      rcases Nat.lt_or_ge x σ.len with hxo | hxn
      · by_cases hxi : x = i
        · subst hxi
          rw [hself] at hj
          simp only at hj
          have hlt := (hr x hxo).2 j hj
          have hjr := h.sd_lt x hxo j hj
          rw [hval_old x hxo, hval_old j hjr]
          exact hscale _ _ hlt
        · rw [hold x hxo hxi] at hj
          have hlt := (hr x hxo).2 j hj
          have hjr := h.sd_lt x hxo j hj
          rw [hval_old x hxo, hval_old j hjr]
          exact hscale _ _ hlt
      · obtain ⟨k, hk, rfl⟩ : ∃ k, k < n ∧ x = σ.len + k :=
          ⟨x - σ.len, by omega, by omega⟩
        rw [hkids k _ (hkid_get k hk)] at hj
        simp only [mkChild] at hj
        by_cases hlast : k + 1 = n
        · rw [if_pos (by simpa [hn] using hlast)] at hj
          have hlt := (hr i hi).2 j hj
          have hjr := h.sd_lt i hi j hj
          rw [hval_new k, hval_old j hjr]
          have h1 : r j + 1 ≤ r i := by omega
          have h2 : M * (r j + 1) ≤ M * r i :=
            mul_le_mul_of_nonneg_left h1 (by positivity)
          have h3 : M * (r j + 1) = M * r j + M := by ring
          have hMn : M = (n : Int) + 2 := hM
          omega
        · rw [if_neg (by simpa [hn] using hlast)] at hj
          cases hj
          have e : σ.len + k + 1 = σ.len + (k + 1) := by omega
          rw [e, hval_new k, hval_new (k + 1)]
          push_cast
          omega

theorem WfR_modify_keep (σ : TState) (i : Nat) (f : NodeObj → NodeObj)
    (h : WfR σ) (hcd : ∀ nd, (f nd).childDown = nd.childDown)
    (hsd : ∀ nd, (f nd).slDown = nd.slDown) : WfR (modifyN σ i f) :=
  WfR.transport σ (modifyN σ i f) h (len_modify σ i f)
    (fun j _ => getN_modify_proj σ i j f NodeObj.childDown hcd)
    (fun j _ => getN_modify_proj σ i j f NodeObj.slDown hsd)

theorem WfR_setFocusTo (σ : TState) (t : Option Nat) (h : WfR σ) :
    WfR (setFocusTo σ t) :=
  WfR.transport σ (setFocusTo σ t) h (setFocusTo_len σ t)
    (fun j _ => setFocusTo_proj σ t j NodeObj.childDown (fun _ _ => rfl))
    (fun j _ => setFocusTo_proj σ t j NodeObj.slDown (fun _ _ => rfl))

theorem WfR_loadChildren (fs : FsTree) (cfg : Config) (σ σ' : TState) (i : Nat)
    (h : WfR σ) (hi : i < σ.len)
    (hok : loadChildren fs cfg σ i = .ok σ') : WfR σ' := by
  by_cases hl : (getN σ i).loaded = true
  · rw [loadChildren_loaded fs cfg σ i hl] at hok
    cases hok
    exact h
  · have hnl : (getN σ i).loaded = false := by
      simpa using hl
    cases hls : listChildren fs cfg (getN σ i).path with
    | error e =>
      rw [loadChildren_err fs cfg σ i e hnl hls] at hok
      exact absurd hok (by simp)
    | ok listing =>
      rw [loadChildren_ok fs cfg σ i listing hnl hls] at hok
      cases hok
      exact WfR_loadCore σ i (sortByName listing) h hi

theorem WfR_enterOp (fs : FsTree) (cfg : Config) (σ σ' : TState) (i : Nat)
    (h : WfR σ) (hi : i < σ.len)
    (hok : enterOp fs cfg σ i = .ok σ') : WfR σ' := by
  cases hld : loadChildren fs cfg σ i with
  | error e =>
    rw [enterOp_err fs cfg σ i e hld] at hok
    exact absurd hok (by simp)
  | ok σ1 =>
    rw [enterOp_eq fs cfg σ σ1 i hld] at hok
    cases hok
    have h1 : WfR σ1 := WfR_loadChildren fs cfg σ σ1 i h hi hld
    cases hsd : (getN σ1 i).slDown with
    | none =>
      exact WfR_modify_keep _ _ _ h1 (fun _ => rfl) (fun _ => rfl)
    | some f =>
      exact WfR_modify_keep _ _ _
        (WfR_modify_keep _ _ _ h1 (fun _ => rfl) (fun _ => rfl))
        (fun _ => rfl) (fun _ => rfl)

theorem WfR_nodeExit (σ : TState) (i : Nat) (h : WfR σ) :
    WfR (nodeExit σ i) := by
  by_cases hc : (getN σ i).isDir = true ∧ (getN σ i).expanded = true
  · rw [nodeExit_collapse σ i hc.1 hc.2]
    cases hsd : (getN σ i).slDown with
    | none =>
      exact WfR_modify_keep _ _ _ h (fun _ => rfl) (fun _ => rfl)
    | some f =>
      exact WfR_modify_keep _ _ _
        (WfR_modify_keep _ _ _ h (fun _ => rfl) (fun _ => rfl))
        (fun _ => rfl) (fun _ => rfl)
  · rw [nodeExit_bubble σ i hc]
    exact WfR_setFocusTo _ _ h

theorem WfR_moveOp (σ : TState) (d : Int) (h : WfR σ) : WfR (moveOp σ d) :=
  WfR_setFocusTo _ _ h

theorem WfR_buildInit (fs : FsTree) (cfg : Config) (σ : TState)
    (h : buildInit fs cfg = .ok σ) : WfR σ := by
  have h0 : WfR { nodes := [mkRoot fs], focus := 0, matchEvents := 0 } := by
    refine ⟨by simp [TState.len], ?_, ?_, ⟨fun _ => 0, ?_⟩⟩
    · intro i hi j hj
      have hi0 : i = 0 := by simp [TState.len] at hi; omega
      subst hi0
      simp [getN, mkRoot] at hj
    · intro i hi j hj
      have hi0 : i = 0 := by simp [TState.len] at hi; omega
      subst hi0
      simp [getN, mkRoot] at hj
    · intro i hi
      have hi0 : i = 0 := by simp [TState.len] at hi; omega
      subst hi0
      constructor <;> intro j hj <;> simp [getN, mkRoot] at hj
  exact WfR_enterOp fs cfg _ σ 0 h0 (by simp [TState.len]) h

theorem reach_WfR (fs : FsTree) (cfg : Config) (σ : TState)
    (h : Reach fs cfg σ) : WfR σ := by
  induction h with
  | init σ h0 => exact WfR_buildInit fs cfg σ h0
  | load σ σ' i _ hi _ hok ih => exact WfR_loadChildren fs cfg σ σ' i ih hi hok
  | enter σ σ' i _ hi _ hok ih => exact WfR_enterOp fs cfg σ σ' i ih hi hok
  | exi σ i _ _ ih => exact WfR_nodeExit σ i ih
  | move σ d _ ih => exact WfR_moveOp σ d ih

/-! ### The visible chain: termination, completeness, no duplicates -/

theorem downOf_lt (σ : TState) (h : WfR σ) (i j : Nat) (hi : i < σ.len)
    (hj : downOf σ i = some j) : j < σ.len := by
  simp only [downOf] at hj
  split at hj
  · split at hj
    · exact h.cd_lt i hi j hj
    · exact h.sd_lt i hi j hj
  · exact h.sd_lt i hi j hj

theorem downOf_rank (σ : TState) (r : Nat → Int)
    (hr : ∀ i, i < σ.len →
      (∀ j, (getN σ i).childDown = some j → r j < r i) ∧
      (∀ j, (getN σ i).slDown = some j → r j < r i))
    (i j : Nat) (hi : i < σ.len) (hj : downOf σ i = some j) : r j < r i := by
  simp only [downOf] at hj
  split at hj
  · split at hj
    · exact (hr i hi).1 j hj
    · exact (hr i hi).2 j hj
  · exact (hr i hi).2 j hj

theorem chainFrom_head (σ : TState) (fuel i : Nat) :
    (chainFrom σ fuel i).head? = some i := by
  cases fuel <;> simp [chainFrom]

theorem chainFrom_ne_nil (σ : TState) (fuel i : Nat) :
    chainFrom σ fuel i ≠ [] := by
  cases fuel <;> simp [chainFrom]

theorem chainFrom_chain' (σ : TState) (h : WfR σ) (fuel : Nat) :
    ∀ i, i < σ.len →
      List.Chain' (fun a b => downOf σ a = some b ∧ a < σ.len ∧ b < σ.len)
        (chainFrom σ fuel i) := by
  induction fuel with
  | zero => intro i _; simp [chainFrom]
  | succ fuel ih =>
    intro i hi
    simp only [chainFrom]
    cases hd : downOf σ i with
    | none => simp
    | some j =>
      have hjl : j < σ.len := downOf_lt σ h i j hi hd
      rw [List.chain'_cons']
      refine ⟨?_, ih j hjl⟩
      intro b hb
      rw [chainFrom_head] at hb
      cases hb
      exact ⟨hd, hi, hjl⟩

theorem chainFrom_mem_lt (σ : TState) (h : WfR σ) (fuel i : Nat)
    (hi : i < σ.len) : ∀ j ∈ chainFrom σ fuel i, j < σ.len := by
  induction fuel generalizing i with
  | zero =>
    intro j hj
    simp [chainFrom] at hj
    omega
  | succ fuel ih =>
    intro j hj
    simp only [chainFrom] at hj
    cases hd : downOf σ i with
    | none =>
      rw [hd] at hj
      simp at hj
      omega
    | some k =>
      rw [hd] at hj
      simp only [List.mem_cons] at hj
      rcases hj with rfl | hj
      · exact hi
      · exact ih k (downOf_lt σ h i k hi hd) j hj

theorem chainFrom_nodup (σ : TState) (h : WfR σ) (fuel i : Nat)
    (hi : i < σ.len) : (chainFrom σ fuel i).Nodup := by
  obtain ⟨r, hr⟩ := h.rank
  have hc := chainFrom_chain' σ h fuel i hi
  have hc2 : List.Chain' (fun a b => r b < r a) (chainFrom σ fuel i) :=
    List.Chain'.imp
      (fun a b hab => downOf_rank σ r hr a b hab.2.1 hab.1) hc
  haveI : IsTrans Nat (fun a b => r b < r a) :=
    ⟨fun _ _ _ h1 h2 => lt_trans h2 h1⟩
  have hp := List.chain'_iff_pairwise.mp hc2
  exact hp.imp (fun hab => by
    intro he
    subst he
    exact lt_irrefl _ hab)

theorem nodup_lt_length_le (l : List Nat) (n : Nat) (h : l.Nodup)
    (hm : ∀ x ∈ l, x < n) : l.length ≤ n := by
  have h1 : l.toFinset ⊆ Finset.range n := by
    intro x hx
    simp only [List.mem_toFinset] at hx
    simp [hm x hx]
  have h2 := Finset.card_le_card h1
  simpa [List.toFinset_card_of_nodup h, Finset.card_range] using h2

/-- If the chain runs out of fuel while the tail still has a `down`
successor, it has consumed all its fuel. -/
theorem chainFrom_incomplete (σ : TState) (fuel : Nat) :
    ∀ i, (∀ t, (chainFrom σ fuel i).getLast? = some t → downOf σ t ≠ none) →
      (chainFrom σ fuel i).length = fuel + 1 := by
  induction fuel with
  | zero => intro i _; simp [chainFrom]
  | succ fuel ih =>
    intro i hlast
    simp only [chainFrom]
    cases hd : downOf σ i with
    | none =>
      exfalso
      refine hlast i ?_ hd
      simp only [chainFrom, hd]
      rfl
    | some j =>
      simp only [List.length_cons]
      rw [ih j]
      intro t ht
      refine hlast t ?_
      simp only [chainFrom, hd]
      rw [List.getLast?_cons, ht]
      rfl

theorem chainFrom_complete (σ : TState) (h : WfR σ) (i : Nat)
    (hi : i < σ.len) :
    ∃ t, (chainFrom σ σ.len i).getLast? = some t ∧ downOf σ t = none := by
  by_contra hcon
  push_neg at hcon
  have hinc : (chainFrom σ σ.len i).length = σ.len + 1 := by
    apply chainFrom_incomplete
    intro t ht
    exact hcon t ht
  have hnd := chainFrom_nodup σ h σ.len i hi
  have hml := chainFrom_mem_lt σ h σ.len i hi
  have := nodup_lt_length_le _ σ.len hnd hml
  omega

/-- C3: in every tree state reachable by enter/exit/load operations,
repeatedly following the `down` pointer from the root (`full_tree`)
terminates after finitely many steps: with fuel equal to the arena size the
walk stops at an entry with no `down` successor (the root's last visible
descendant) rather than running out of fuel, the resulting sequence starts
at the root, and it visits every entry it contains exactly once (no cycle,
no duplicate); the visible sequence is by definition this chain. -/
theorem c3_full_tree_terminates (fs : FsTree) (cfg : Config) (σ : TState)
    (h : Reach fs cfg σ) :
    ∃ t, (visibleChain σ).getLast? = some t ∧ downOf σ t = none ∧
      (visibleChain σ).Nodup ∧ (visibleChain σ).head? = some 0 := by
  have hw := reach_WfR fs cfg σ h
  obtain ⟨t, h1, h2⟩ := chainFrom_complete σ hw 0 hw.len_pos
  exact ⟨t, h1, h2, chainFrom_nodup σ hw σ.len 0 hw.len_pos,
    chainFrom_head σ σ.len 0⟩

theorem c3_full_tree_terminates_witness :
    ∃ t, (visibleChain σC0).getLast? = some t ∧ downOf σC0 t = none ∧
      (visibleChain σC0).Nodup ∧ (visibleChain σC0).head? = some 0 :=
  c3_full_tree_terminates fsC cfgN σC0 (Reach.init σC0 (by rfl))

/-! ### Expand / collapse round-trip (C2) -/

/-- A successful `load_children` only writes `_child_down` / `last_child` /
`_children` on the container, grows the arena, and leaves every other
pre-existing node untouched. -/
theorem loadChildren_self (fs : FsTree) (cfg : Config) (σ σ' : TState)
    (i : Nat) (hi : i < σ.len) (hok : loadChildren fs cfg σ i = .ok σ') :
    ∃ cd lc ld, getN σ' i =
      { getN σ i with childDown := cd, lastChild := lc, loaded := ld } ∧
    σ.len ≤ σ'.len ∧ σ'.focus = σ.focus ∧ σ'.matchEvents = σ.matchEvents ∧
    (∀ j, j < σ.len → j ≠ i → getN σ' j = getN σ j) := by
  by_cases hl : (getN σ i).loaded = true
  · rw [loadChildren_loaded fs cfg σ i hl] at hok
    cases hok
    exact ⟨(getN σ i).childDown, (getN σ i).lastChild, (getN σ i).loaded,
      rfl, le_refl _, rfl, rfl, fun _ _ _ => rfl⟩
  · have hnl : (getN σ i).loaded = false := by simpa using hl
    cases hls : listChildren fs cfg (getN σ i).path with
    | error e =>
      rw [loadChildren_err fs cfg σ i e hnl hls] at hok
      exact absurd hok (by simp)
    | ok listing =>
      rw [loadChildren_ok fs cfg σ i listing hnl hls] at hok
      cases hok
      obtain ⟨hlen, hfoc, hme, hold, hself, _⟩ :=
        loadCore_spec σ i (sortByName listing) hi
      exact ⟨_, _, _, hself, by omega, hfoc, hme, hold⟩

/-- `enter` preserves the container's `_same_level_down` and kind, sets its
expansion flag, and can only grow the arena. -/
theorem enterOp_self (fs : FsTree) (cfg : Config) (σ σ' : TState)
    (i : Nat) (hi : i < σ.len) (hok : enterOp fs cfg σ i = .ok σ') :
    (getN σ' i).slDown = (getN σ i).slDown ∧
    (getN σ' i).isDir = (getN σ i).isDir ∧
    (getN σ' i).expanded = true ∧
    σ.len ≤ σ'.len := by
  cases hld : loadChildren fs cfg σ i with
  | error e =>
    rw [enterOp_err fs cfg σ i e hld] at hok
    exact absurd hok (by simp)
  | ok σ1 =>
    rw [enterOp_eq fs cfg σ σ1 i hld] at hok
    cases hok
    obtain ⟨cd, lc, ld, hself, hlen, _, _, _⟩ :=
      loadChildren_self fs cfg σ σ1 i hi hld
    have hsd1 : (getN σ1 i).slDown = (getN σ i).slDown := by rw [hself]
    have hdir1 : (getN σ1 i).isDir = (getN σ i).isDir := by rw [hself]
    cases hsd : (getN σ1 i).slDown with
    | none =>
      dsimp only
      have hil : i < σ1.len := by omega
      refine ⟨?_, ?_, ?_, ?_⟩
      · rw [setExpanded,
          getN_modify_proj σ1 i i (fun nd => { nd with expanded := true })
            NodeObj.slDown (fun _ => rfl), hsd1]
      · rw [setExpanded,
          getN_modify_proj σ1 i i (fun nd => { nd with expanded := true })
            NodeObj.isDir (fun _ => rfl), hdir1]
      · rw [setExpanded, getN_modify_self _ _ _ hil]
      · rw [setExpanded, len_modify]
        omega
    | some f =>
      dsimp only
      have hlm : (setSlUp σ1 f (getN σ1 i).lastChild).len = σ1.len := by
        rw [setSlUp, len_modify]
      have hil : i < (setSlUp σ1 f (getN σ1 i).lastChild).len := by omega
      refine ⟨?_, ?_, ?_, ?_⟩
      · rw [setExpanded,
          getN_modify_proj _ i i (fun nd => { nd with expanded := true })
            NodeObj.slDown (fun _ => rfl), setSlUp,
          getN_modify_proj σ1 f i
            (fun nd => { nd with slUp := (getN σ1 i).lastChild })
            NodeObj.slDown (fun _ => rfl), hsd1]
      · rw [setExpanded,
          getN_modify_proj _ i i (fun nd => { nd with expanded := true })
            NodeObj.isDir (fun _ => rfl), setSlUp,
          getN_modify_proj σ1 f i
            (fun nd => { nd with slUp := (getN σ1 i).lastChild })
            NodeObj.isDir (fun _ => rfl), hdir1]
      · rw [setExpanded, getN_modify_self _ _ _ hil]
      · rw [setExpanded, len_modify, hlm]
        omega

/-- C2: for a collapsed container `C`, a successful `enter()` followed by
`exit()` restores the value of `C`'s next-visible pointer — the entry
reached by moving `down` from `C` — to exactly what it was before the
`enter()`: collapsed `down` reads `_same_level_down`, which neither
operation rewrites on `C`. -/
theorem c2_enter_exit_roundtrip (fs : FsTree) (cfg : Config) (σ σ' : TState)
    (i : Nat) (hi : i < σ.len) (hdir : (getN σ i).isDir = true)
    (hexp : (getN σ i).expanded = false)
    (hok : enterOp fs cfg σ i = .ok σ') :
    downOf (nodeExit σ' i) i = downOf σ i := by
  obtain ⟨hsd, hdir', hexp', hlen⟩ := enterOp_self fs cfg σ σ' i hi hok
  rw [hdir] at hdir'
  rw [nodeExit_collapse σ' i hdir' hexp']
  have hil : i < σ'.len := by omega
  cases hs : (getN σ' i).slDown with
  | none =>
    dsimp only
    simp only [downOf]
    rw [setExpanded,
      getN_modify_self _ _ _ hil]
    simp only [hdir, hexp, hdir']
    rw [← hsd, hs]
    simp
  | some f =>
    dsimp only
    have hil2 : i < (setSlUp σ' f (some i)).len := by
      rw [setSlUp, len_modify]
      omega
    simp only [downOf]
    rw [setExpanded, getN_modify_self _ _ _ hil2]
    have hqd : (getN (setSlUp σ' f (some i)) i).slDown = (getN σ' i).slDown :=
      getN_modify_proj σ' f i (fun nd => { nd with slUp := some i })
        NodeObj.slDown (fun _ => rfl)
    have hqi : (getN (setSlUp σ' f (some i)) i).isDir = (getN σ' i).isDir :=
      getN_modify_proj σ' f i (fun nd => { nd with slUp := some i })
        NodeObj.isDir (fun _ => rfl)
    simp only [hqd, hqi, hdir', hsd, hdir, hexp]
    simp

/-- Effect of `enter` on nodes other than the container and its following
sibling, and on the pointer families, expressed against the pre-state. -/
theorem enterOp_frame (fs : FsTree) (cfg : Config) (σ σ' : TState) (i : Nat)
    (hi : i < σ.len) (hok : enterOp fs cfg σ i = .ok σ') :
    (∀ j, j < σ.len → (getN σ' j).slDown = (getN σ j).slDown) ∧
    (∀ j, j < σ.len → some j ≠ (getN σ i).slDown →
      (getN σ' j).slUp = (getN σ j).slUp) ∧
    (∀ j, j < σ.len → j ≠ i →
      (getN σ' j).expanded = (getN σ j).expanded ∧
      (getN σ' j).childDown = (getN σ j).childDown ∧
      (getN σ' j).lastChild = (getN σ j).lastChild ∧
      (getN σ' j).loaded = (getN σ j).loaded ∧
      (getN σ' j).path = (getN σ j).path ∧
      (getN σ' j).name = (getN σ j).name ∧
      (getN σ' j).isDir = (getN σ j).isDir ∧
      (getN σ' j).parent = (getN σ j).parent) := by
  cases hld : loadChildren fs cfg σ i with
  | error e =>
    rw [enterOp_err fs cfg σ i e hld] at hok
    exact absurd hok (by simp)
  | ok σ1 =>
    rw [enterOp_eq fs cfg σ σ1 i hld] at hok
    cases hok
    obtain ⟨cd, lc, ld, hself1, hlen1, _, _, hold1⟩ :=
      loadChildren_self fs cfg σ σ1 i hi hld
    have hsd1i : (getN σ1 i).slDown = (getN σ i).slDown := by rw [hself1]
    have h1 : ∀ j, j < σ.len → (getN σ1 j).slDown = (getN σ j).slDown := by
      intro j hj
      by_cases hji : j = i
      · subst hji; exact hsd1i
      · rw [hold1 j hj hji]
    have h1u : ∀ j, j < σ.len → (getN σ1 j).slUp = (getN σ j).slUp := by
      intro j hj
      by_cases hji : j = i
      · subst hji; rw [hself1]
      · rw [hold1 j hj hji]
    cases hs : (getN σ1 i).slDown with
    | none =>
      dsimp only
      refine ⟨?_, ?_, ?_⟩
      · intro j hj
        rw [setExpanded,
          getN_modify_proj σ1 i j (fun nd => { nd with expanded := true })
            NodeObj.slDown (fun _ => rfl), h1 j hj]
      · intro j hj _
        rw [setExpanded,
          getN_modify_proj σ1 i j (fun nd => { nd with expanded := true })
            NodeObj.slUp (fun _ => rfl), h1u j hj]
      · intro j hj hji
        rw [setExpanded, getN_modify_ne σ1 i j _ (Ne.symm hji), hold1 j hj hji]
        exact ⟨rfl, rfl, rfl, rfl, rfl, rfl, rfl, rfl⟩
    | some f =>
      dsimp only
      have hfs : (getN σ i).slDown = some f := by rw [← hsd1i, hs]
      refine ⟨?_, ?_, ?_⟩
      · intro j hj
        rw [setExpanded,
          getN_modify_proj _ i j (fun nd => { nd with expanded := true })
            NodeObj.slDown (fun _ => rfl), setSlUp,
          getN_modify_proj σ1 f j
            (fun nd => { nd with slUp := (getN σ1 i).lastChild })
            NodeObj.slDown (fun _ => rfl), h1 j hj]
      · intro j hj hjf
        rw [hfs] at hjf
        have hjf' : f ≠ j := by
          intro he
          subst he
          exact hjf rfl
        rw [setExpanded,
          getN_modify_proj _ i j (fun nd => { nd with expanded := true })
            NodeObj.slUp (fun _ => rfl), setSlUp,
          getN_modify_ne σ1 f j _ hjf', h1u j hj]
      · intro j hj hji
        rw [setExpanded, getN_modify_ne _ i j _ (Ne.symm hji)]
        by_cases hjf : f = j
        · subst hjf
          rw [setSlUp, getN_modify_self _ _ _ (by omega : f < σ1.len)]
          by_cases hfi : f = i
          · exact absurd rfl (hfi ▸ hji)
          · rw [hold1 f hj hji]
            exact ⟨rfl, rfl, rfl, rfl, rfl, rfl, rfl, rfl⟩
        · rw [setSlUp, getN_modify_ne σ1 f j _ hjf, hold1 j hj hji]
          exact ⟨rfl, rfl, rfl, rfl, rfl, rfl, rfl, rfl⟩

/-- Effect of `exit` on the pointer families, both branches. -/
theorem nodeExit_frame (σ : TState) (i : Nat) :
    (∀ j, (getN (nodeExit σ i) j).slDown = (getN σ j).slDown) ∧
    (∀ j, some j ≠ (getN σ i).slDown →
      (getN (nodeExit σ i) j).slUp = (getN σ j).slUp) ∧
    (∀ j, j ≠ i →
      (getN (nodeExit σ i) j).expanded = (getN σ j).expanded ∧
      (getN (nodeExit σ i) j).childDown = (getN σ j).childDown ∧
      (getN (nodeExit σ i) j).lastChild = (getN σ j).lastChild) := by
  by_cases hc : (getN σ i).isDir = true ∧ (getN σ i).expanded = true
  · rw [nodeExit_collapse σ i hc.1 hc.2]
    cases hs : (getN σ i).slDown with
    | none =>
      dsimp only
      refine ⟨?_, ?_, ?_⟩
      · intro j
        exact getN_modify_proj σ i j (fun nd => { nd with expanded := false })
          NodeObj.slDown (fun _ => rfl)
      · intro j _
        exact getN_modify_proj σ i j (fun nd => { nd with expanded := false })
          NodeObj.slUp (fun _ => rfl)
      · intro j hji
        rw [setExpanded, getN_modify_ne σ i j _ (Ne.symm hji)]
        exact ⟨rfl, rfl, rfl⟩
    | some f =>
      dsimp only
      refine ⟨?_, ?_, ?_⟩
      · intro j
        rw [setExpanded,
          getN_modify_proj _ i j (fun nd => { nd with expanded := false })
            NodeObj.slDown (fun _ => rfl), setSlUp,
          getN_modify_proj σ f j (fun nd => { nd with slUp := some i })
            NodeObj.slDown (fun _ => rfl)]
      · intro j hjf
        have hjf' : f ≠ j := fun he => hjf (by rw [he])
        rw [setExpanded,
          getN_modify_proj _ i j (fun nd => { nd with expanded := false })
            NodeObj.slUp (fun _ => rfl), setSlUp,
          getN_modify_ne σ f j _ hjf']
      · intro j hji
        rw [setExpanded, getN_modify_ne _ i j _ (Ne.symm hji)]
        refine ⟨?_, ?_, ?_⟩
        · rw [setSlUp,
            getN_modify_proj σ f j (fun nd => { nd with slUp := some i })
              NodeObj.expanded (fun _ => rfl)]
        · rw [setSlUp,
            getN_modify_proj σ f j (fun nd => { nd with slUp := some i })
              NodeObj.childDown (fun _ => rfl)]
        · rw [setSlUp,
            getN_modify_proj σ f j (fun nd => { nd with slUp := some i })
              NodeObj.lastChild (fun _ => rfl)]
  · rw [nodeExit_bubble σ i hc]
    refine ⟨?_, ?_, ?_⟩
    · intro j
      exact setFocusTo_proj σ _ j NodeObj.slDown (fun _ _ => rfl)
    · intro j _
      exact setFocusTo_proj σ _ j NodeObj.slUp (fun _ _ => rfl)
    · intro j _
      exact ⟨setFocusTo_proj σ _ j NodeObj.expanded (fun _ _ => rfl),
        setFocusTo_proj σ _ j NodeObj.childDown (fun _ _ => rfl),
        setFocusTo_proj σ _ j NodeObj.lastChild (fun _ _ => rfl)⟩

/-- C9: no operation ever rewrites an existing node's `_same_level_down`:
`load_children` writes sibling pointers only on the newly created children
(its only writes to pre-existing nodes are the container's `_child_down`,
`last_child` and memo fields), and `enter`/`exit` write only the
container's expansion flag and the following sibling's `_same_level_up`. -/
theorem c9_pointer_frame (fs : FsTree) (cfg : Config) :
    (∀ σ σ' i, i < σ.len → loadChildren fs cfg σ i = .ok σ' →
      (∀ j, j < σ.len →
        (getN σ' j).slDown = (getN σ j).slDown ∧
        (getN σ' j).slUp = (getN σ j).slUp ∧
        (getN σ' j).expanded = (getN σ j).expanded) ∧
      (∀ j, j < σ.len → j ≠ i → getN σ' j = getN σ j)) ∧
    (∀ σ σ' i, i < σ.len → enterOp fs cfg σ i = .ok σ' →
      (∀ j, j < σ.len → (getN σ' j).slDown = (getN σ j).slDown) ∧
      (∀ j, j < σ.len → some j ≠ (getN σ i).slDown →
        (getN σ' j).slUp = (getN σ j).slUp) ∧
      (∀ j, j < σ.len → j ≠ i →
        (getN σ' j).expanded = (getN σ j).expanded ∧
        (getN σ' j).childDown = (getN σ j).childDown)) ∧
    (∀ σ i,
      (∀ j, (getN (nodeExit σ i) j).slDown = (getN σ j).slDown) ∧
      (∀ j, some j ≠ (getN σ i).slDown →
        (getN (nodeExit σ i) j).slUp = (getN σ j).slUp) ∧
      (∀ j, j ≠ i →
        (getN (nodeExit σ i) j).expanded = (getN σ j).expanded ∧
        (getN (nodeExit σ i) j).childDown = (getN σ j).childDown)) := by
  refine ⟨?_, ?_, ?_⟩
  · intro σ σ' i hi hok
    obtain ⟨cd, lc, ld, hself, _, _, _, hold⟩ :=
      loadChildren_self fs cfg σ σ' i hi hok
    refine ⟨?_, hold⟩
    intro j hj
    by_cases hji : j = i
    · subst hji
      rw [hself]
      exact ⟨rfl, rfl, rfl⟩
    · rw [hold j hj hji]
      exact ⟨rfl, rfl, rfl⟩
  · intro σ σ' i hi hok
    obtain ⟨h1, h2, h3⟩ := enterOp_frame fs cfg σ σ' i hi hok
    exact ⟨h1, h2, fun j hj hji => ⟨(h3 j hj hji).1, (h3 j hj hji).2.1⟩⟩
  · intro σ i
    obtain ⟨h1, h2, h3⟩ := nodeExit_frame σ i
    exact ⟨h1, h2, fun j hji => ⟨(h3 j hji).1, (h3 j hji).2.1⟩⟩

theorem c9_pointer_frame_witness :
    (getN (nodeExit σE1 1) 2).slDown = (getN σE1 2).slDown ∧
    (getN (okD (enterOp fsE cfgN σE1 1)) 0).slDown = (getN σE1 0).slDown :=
  ⟨((c9_pointer_frame fsE cfgN).2.2 σE1 1).1 2,
    ((c9_pointer_frame fsE cfgN).2.1 σE1 (okD (enterOp fsE cfgN σE1 1)) 1
      (by decide) (by rfl)).1 0 (by decide)⟩

/-- C10: entering a container whose (filtered) enumeration yields zero
children, while it has a following sibling `f`, sets `f`'s
`_same_level_up` to `None` — the splice assigns it from `last_child`,
which was never set — so moving up from `f` afterwards reaches nothing
instead of the container. -/
theorem c10_empty_enter_breaks_up (fs : FsTree) (cfg : Config) (σ : TState)
    (i f : Nat) (hi : i < σ.len) (hf : f < σ.len) (hfi : f ≠ i)
    (hnl : (getN σ i).loaded = false)
    (hlc : (getN σ i).lastChild = none)
    (hsd : (getN σ i).slDown = some f)
    (hls : listChildren fs cfg (getN σ i).path = .ok []) :
    ∃ σ', enterOp fs cfg σ i = .ok σ' ∧ (getN σ' f).slUp = none ∧
      upOf σ' f = none := by
  have hld : loadChildren fs cfg σ i = .ok (loadCore σ i []) := by
    rw [loadChildren_ok fs cfg σ i [] hnl hls]
    rfl
  obtain ⟨hlen, _, _, hold, hself, _⟩ := loadCore_spec σ i [] hi
  have hsd1 : (getN (loadCore σ i []) i).slDown = some f := by
    rw [hself]
    exact hsd
  have hlc1 : (getN (loadCore σ i []) i).lastChild = none := by
    rw [hself]
    simpa using hlc
  rw [enterOp_eq fs cfg σ (loadCore σ i []) i hld]
  refine ⟨_, rfl, ?_⟩
  rw [hsd1]
  dsimp only
  rw [hlc1]
  have hfl : f < (loadCore σ i []).len := by omega
  have hup : (getN (setExpanded
      (setSlUp (loadCore σ i []) f none) i true) f).slUp = none := by
    rw [setExpanded,
      getN_modify_proj _ i f (fun nd => { nd with expanded := true })
        NodeObj.slUp (fun _ => rfl), setSlUp,
      getN_modify_self _ _ _ hfl]
  exact ⟨hup, by rw [upOf, hup]⟩

theorem c10_empty_enter_breaks_up_witness :
    ∃ σ', enterOp fsE cfgN σE1 1 = .ok σ' ∧ (getN σ' 2).slUp = none ∧
      upOf σ' 2 = none :=
  c10_empty_enter_breaks_up fsE cfgN σE1 1 2 (by decide) (by decide)
    (by decide) (by decide) (by decide) (by decide) (by rfl)

/-- C5 counterexample: on the concrete tree `r/{a, b}` where enumerating
`a` raises `PermissionError`, `load_children` (and hence `enter`) on `a`
returns the error instead of an empty loaded state, and `a` is not marked
loaded — refuting "the load step leaves the container in the loaded-empty
state (zero children) and does not propagate the error to the caller". -/
theorem c5_counterexample :
    loadChildren fsP cfgN σP0 1 = .error "PermissionError" ∧
    enterOp fsP cfgN σP0 1 = .error "PermissionError" ∧
    (getN σP0 1).loaded = false ∧ (getN σP0 1).name = "a" := by
  refine ⟨by rfl, by rfl, by decide, by decide⟩

/-- C5 amended: if enumerating an unloaded container fails, `load_children`
has no handler — the error propagates unchanged out of `load_children` and
`enter()` to the caller, and no loaded state is produced (the exception is
raised while the `sorted(...)` call consumes the enumeration generator,
before any attribute write). -/
theorem c5_amended_error_propagates (fs : FsTree) (cfg : Config)
    (σ : TState) (i : Nat) (e : String)
    (hnl : (getN σ i).loaded = false)
    (hls : listChildren fs cfg (getN σ i).path = .error e) :
    loadChildren fs cfg σ i = .error e ∧ enterOp fs cfg σ i = .error e := by
  have h1 := loadChildren_err fs cfg σ i e hnl hls
  exact ⟨h1, enterOp_err fs cfg σ i e h1⟩

theorem c5_amended_error_propagates_witness :
    loadChildren fsP cfgN σP0 1 = .error "PermissionError" ∧
    enterOp fsP cfgN σP0 1 = .error "PermissionError" :=
  c5_amended_error_propagates fsP cfgN σP0 1 "PermissionError" (by decide)
    (by rfl)

/-- C7 counterexample: a focused and matched node (`test_node`, span
`(3,7)`) renders its match segment with the bare match style
`class:node_find_match`; the segment is bit-for-bit the same as for the
unfocused node, so the focus style does not compose onto the match
segment, refuting "the focus style also applying to it when the entry is
both focused and matched". -/
theorem c7_counterexample :
    (getN σR 0).focussed = true ∧ (getN σR 0).matchFind = some (3, 7) ∧
    render σR 0 =
      [("", " "), ("", "📄"), ("class:node_focussed", "tes"),
       ("class:node_find_match", "t_no"), ("class:node_focussed", "de"),
       ("", "\n")] ∧
    render (setFocusFlag σR 0 false) 0 =
      [("", " "), ("", "📄"), ("", "tes"),
       ("class:node_find_match", "t_no"), ("", "de"), ("", "\n")] ∧
    (render σR 0)[3]? = (render (setFocusFlag σR 0 false) 0)[3]? := by
  refine ⟨by decide, by decide, by decide, by decide, by decide⟩

/-- C7 amended: for an entry with match span `(a, b)`, `render` yields the
indent, the icon, then up to three name segments — an optional pre-match
segment, the match segment, an optional post-match segment — followed by a
newline; the pre/post segments carry the focus style exactly when the
entry is focused, the match segment always carries exactly the
match-highlight style (the focus style does not compose onto it), and the
segment texts concatenate back to the display name. -/
theorem c7_amended_render_segments (σ : TState) (i : Nat) (a b : Nat)
    (hm : (getN σ i).matchFind = some (a, b)) (hab : a ≤ b)
    (hb : b ≤ (getN σ i).name.data.length) :
    ∃ pre post,
      render σ i =
        ("", String.mk (List.replicate (getN σ i).level ' ')) ::
        ("", if (getN σ i).isDir then "📂" else "📄") ::
        (pre ++
          [("class:node_find_match",
            String.mk (((getN σ i).name.data.drop a).take (b - a)))] ++
          post ++ [("", "\n")]) ∧
      (∀ s ∈ pre, Prod.fst s =
        (if (getN σ i).focussed then "class:node_focussed" else "")) ∧
      (∀ s ∈ post, Prod.fst s =
        (if (getN σ i).focussed then "class:node_focussed" else "")) ∧
      String.mk ((pre.map Prod.snd).foldr (fun s t => s.data ++ t) [] ++
        ((getN σ i).name.data.drop a).take (b - a) ++
        (post.map Prod.snd).foldr (fun s t => s.data ++ t) []) =
        (getN σ i).name := by
  refine ⟨if 0 < a then
      [((if (getN σ i).focussed then "class:node_focussed" else ""),
        String.mk ((getN σ i).name.data.take a))] else [],
    if b < (getN σ i).name.data.length then
      [((if (getN σ i).focussed then "class:node_focussed" else ""),
        String.mk ((getN σ i).name.data.drop b))] else [], ?_, ?_, ?_, ?_⟩
  · simp only [render, hm]
    by_cases ha : 0 < a <;> by_cases hbl : b < (getN σ i).name.data.length <;>
      simp [ha, hbl]
  · intro s hs
    by_cases ha : 0 < a
    · rw [if_pos ha] at hs
      simp only [List.mem_singleton] at hs
      rw [hs]
    · rw [if_neg ha] at hs
      exact absurd hs (by simp)
  · intro s hs
    by_cases hbl : b < (getN σ i).name.data.length
    · rw [if_pos hbl] at hs
      simp only [List.mem_singleton] at hs
      rw [hs]
    · rw [if_neg hbl] at hs
      exact absurd hs (by simp)
  · have hdd : ((getN σ i).name.data.drop a).take (b - a) ++
        (getN σ i).name.data.drop b = (getN σ i).name.data.drop a := by
      have h1 : (getN σ i).name.data.drop b =
          ((getN σ i).name.data.drop a).drop (b - a) := by
        rw [List.drop_drop]
        congr 1
        omega
      rw [h1, List.take_append_drop]
    have hmk : ∀ s : String, String.mk s.data = s := fun s => by cases s; rfl
    have hde : ¬ b < (getN σ i).name.data.length →
        (getN σ i).name.data.drop b = [] := by
      intro hbl
      have hbe : b = (getN σ i).name.data.length := by omega
      rw [hbe, List.drop_length]
    by_cases ha : 0 < a <;> by_cases hbl : b < (getN σ i).name.data.length
    · simp only [if_pos ha, if_pos hbl, List.map_cons, List.map_nil,
        List.foldr, List.append_nil]
      refine Eq.trans (congrArg String.mk ?_) (hmk (getN σ i).name)
      rw [List.append_assoc, hdd, List.take_append_drop]
    · simp only [if_pos ha, if_neg hbl, List.map_cons, List.map_nil,
        List.foldr, List.append_nil]
      refine Eq.trans (congrArg String.mk ?_) (hmk (getN σ i).name)
      have h2 := hdd
      rw [hde hbl, List.append_nil] at h2
      rw [h2, List.take_append_drop]
    · simp only [if_neg ha, if_pos hbl, List.map_cons, List.map_nil,
        List.foldr, List.nil_append, List.append_nil]
      refine Eq.trans (congrArg String.mk ?_) (hmk (getN σ i).name)
      rw [hdd]
      have hae : a = 0 := by omega
      rw [hae, List.drop_zero]
    · simp only [if_neg ha, if_neg hbl, List.map_nil, List.foldr,
        List.nil_append, List.append_nil]
      refine Eq.trans (congrArg String.mk ?_) (hmk (getN σ i).name)
      have h2 := hdd
      rw [hde hbl, List.append_nil] at h2
      rw [h2]
      have hae : a = 0 := by omega
      rw [hae, List.drop_zero]

theorem c7_amended_render_segments_witness :
    ∃ pre post,
      render σR 0 =
        ("", String.mk (List.replicate (getN σR 0).level ' ')) ::
        ("", if (getN σR 0).isDir then "📂" else "📄") ::
        (pre ++
          [("class:node_find_match",
            String.mk (((getN σR 0).name.data.drop 3).take (7 - 3)))] ++
          post ++ [("", "\n")]) ∧
      (∀ s ∈ pre, Prod.fst s =
        (if (getN σR 0).focussed then "class:node_focussed" else "")) ∧
      (∀ s ∈ post, Prod.fst s =
        (if (getN σR 0).focussed then "class:node_focussed" else "")) ∧
      String.mk ((pre.map Prod.snd).foldr (fun s t => s.data ++ t) [] ++
        ((getN σR 0).name.data.drop 3).take (7 - 3) ++
        (post.map Prod.snd).foldr (fun s t => s.data ++ t) []) =
        (getN σR 0).name :=
  c7_amended_render_segments σR 0 3 7 (by decide) (by decide) (by decide)

/-! ### Gitignore filtering (C8) -/

theorem mem_insertByName (x c : FsTree) (l : List FsTree) :
    x ∈ insertByName c l ↔ x = c ∨ x ∈ l := by
  induction l with
  | nil => simp [insertByName]
  | cons d ds ih =>
    simp only [insertByName]
    by_cases h : charListLe c.name.data d.name.data = true
    · rw [if_pos h]
      simp
    · rw [if_neg h]
      simp only [List.mem_cons, ih]
      tauto

theorem mem_sortByName (x : FsTree) (l : List FsTree) :
    x ∈ sortByName l ↔ x ∈ l := by
  induction l with
  | nil => simp [sortByName]
  | cons c cs ih =>
    simp only [sortByName, mem_insertByName, List.mem_cons, ih]

/-- All paths created by a successful `load_children` under an active
ignore oracle are reported not-ignored; existing nodes keep their paths. -/
theorem ginv_loadChildren (fs : FsTree) (orc : List String → Bool)
    (cfg : Config) (hrepo : cfg.repo = some orc) (hgit : cfg.useGit = true)
    (σ σ' : TState) (i : Nat) (hi : i < σ.len)
    (hok : loadChildren fs cfg σ i = .ok σ')
    (hg : ∀ j, j < σ.len → j ≠ 0 → orc (getN σ j).path = false) :
    ∀ j, j < σ'.len → j ≠ 0 → orc (getN σ' j).path = false := by
  by_cases hl : (getN σ i).loaded = true
  · rw [loadChildren_loaded fs cfg σ i hl] at hok
    cases hok
    exact hg
  · have hnl : (getN σ i).loaded = false := by simpa using hl
    cases hls : listChildren fs cfg (getN σ i).path with
    | error e =>
      rw [loadChildren_err fs cfg σ i e hnl hls] at hok
      exact absurd hok (by simp)
    | ok listing =>
      rw [loadChildren_ok fs cfg σ i listing hnl hls] at hok
      cases hok
      obtain ⟨hlen, _, _, hold, hself, hkids⟩ :=
        loadCore_spec σ i (sortByName listing) hi
      have hfl : ∃ cs, iterdirAt fs (getN σ i).path = .ok cs ∧
          listing = cs.filter (fun c => !orc ((getN σ i).path ++ [c.name])) := by
        rw [listChildren, hrepo, hgit] at hls
        cases hit : iterdirAt fs (getN σ i).path with
        | error e => rw [hit] at hls; exact absurd hls (by simp)
        | ok cs =>
          rw [hit] at hls
          simp only [Except.ok.injEq] at hls
          exact ⟨cs, rfl, hls.symm⟩
      obtain ⟨cs, hit, hlst⟩ := hfl
      intro j hj hj0
      rcases Nat.lt_or_ge j σ.len with hjo | hjn
      · by_cases hji : j = i
        · subst hji
          rw [hself]
          exact hg j hjo hj0
        · rw [hold j hjo hji]
          exact hg j hjo hj0
      · obtain ⟨k, hk, rfl⟩ :
            ∃ k, k < (sortByName listing).length ∧ j = σ.len + k :=
          ⟨j - σ.len, by omega, by omega⟩
        have hcget : (sortByName listing)[k]? =
            some ((sortByName listing).get ⟨k, hk⟩) :=
          List.getElem?_eq_getElem hk
        rw [hkids k _ hcget]
        set c := (sortByName listing).get ⟨k, hk⟩ with hc
        have hmem : c ∈ sortByName listing := List.get_mem _ _ hk
        rw [mem_sortByName, hlst, List.mem_filter] at hmem
        have := hmem.2
        simp only [Bool.not_eq_true', Bool.not_eq_false] at this
        simpa [mkChild] using this

theorem nodeExit_path (σ : TState) (i j : Nat) :
    (getN (nodeExit σ i) j).path = (getN σ j).path := by
  by_cases hc : (getN σ i).isDir = true ∧ (getN σ i).expanded = true
  · rw [nodeExit_collapse σ i hc.1 hc.2]
    cases hs : (getN σ i).slDown with
    | none =>
      exact getN_modify_proj σ i j (fun nd => { nd with expanded := false })
        NodeObj.path (fun _ => rfl)
    | some f =>
      dsimp only
      rw [setExpanded,
        getN_modify_proj _ i j (fun nd => { nd with expanded := false })
          NodeObj.path (fun _ => rfl), setSlUp,
        getN_modify_proj σ f j (fun nd => { nd with slUp := some i })
          NodeObj.path (fun _ => rfl)]
  · rw [nodeExit_bubble σ i hc]
    exact setFocusTo_proj σ _ j NodeObj.path (fun _ _ => rfl)

theorem ginv_enterOp (fs : FsTree) (orc : List String → Bool)
    (cfg : Config) (hrepo : cfg.repo = some orc) (hgit : cfg.useGit = true)
    (σ σ' : TState) (i : Nat) (hi : i < σ.len)
    (hok : enterOp fs cfg σ i = .ok σ')
    (hg : ∀ j, j < σ.len → j ≠ 0 → orc (getN σ j).path = false) :
    ∀ j, j < σ'.len → j ≠ 0 → orc (getN σ' j).path = false := by
  cases hld : loadChildren fs cfg σ i with
  | error e =>
    rw [enterOp_err fs cfg σ i e hld] at hok
    exact absurd hok (by simp)
  | ok σ1 =>
    rw [enterOp_eq fs cfg σ σ1 i hld] at hok
    cases hok
    have hg1 := ginv_loadChildren fs orc cfg hrepo hgit σ σ1 i hi hld hg
    cases hsd : (getN σ1 i).slDown with
    | none =>
      dsimp only
      intro j hj hj0
      rw [setExpanded, len_modify] at hj
      rw [setExpanded,
        getN_modify_proj σ1 i j (fun nd => { nd with expanded := true })
          NodeObj.path (fun _ => rfl)]
      exact hg1 j hj hj0
    | some f =>
      dsimp only
      intro j hj hj0
      rw [setExpanded, len_modify, setSlUp, len_modify] at hj
      rw [setExpanded,
        getN_modify_proj _ i j (fun nd => { nd with expanded := true })
          NodeObj.path (fun _ => rfl), setSlUp,
        getN_modify_proj σ1 f j
          (fun nd => { nd with slUp := (getN σ1 i).lastChild })
          NodeObj.path (fun _ => rfl)]
      exact hg1 j hj hj0

/-- The active-oracle invariant along `Reach`: every allocated non-root
node's path is reported not-ignored. -/
theorem reach_gitInv (fs : FsTree) (orc : List String → Bool) (cfg : Config)
    (hrepo : cfg.repo = some orc) (hgit : cfg.useGit = true) (σ : TState)
    (h : Reach fs cfg σ) :
    ∀ j, j < σ.len → j ≠ 0 → orc (getN σ j).path = false := by
  induction h with
  | init σ h0 =>
    refine ginv_enterOp fs orc cfg hrepo hgit _ σ 0 (by simp [TState.len]) h0
      ?_
    intro j hj hj0
    simp [TState.len] at hj
    omega
  | load σ σ' i _ hi _ hok ih =>
    exact ginv_loadChildren fs orc cfg hrepo hgit σ σ' i hi hok ih
  | enter σ σ' i _ hi _ hok ih =>
    exact ginv_enterOp fs orc cfg hrepo hgit σ σ' i hi hok ih
  | exi σ i _ _ ih =>
    intro j hj hj0
    have hlen : (nodeExit σ i).len = σ.len := by
      by_cases hc : (getN σ i).isDir = true ∧ (getN σ i).expanded = true
      · rw [nodeExit_collapse σ i hc.1 hc.2]
        cases hs : (getN σ i).slDown with
        | none => rw [setExpanded, len_modify]
        | some f =>
          dsimp only
          rw [setExpanded, len_modify, setSlUp, len_modify]
      · rw [nodeExit_bubble σ i hc, setFocusTo_len]
    rw [nodeExit_path]
    exact ih j (by omega) hj0
  | move σ d _ ih =>
    intro j hj hj0
    rw [moveOp] at hj ⊢
    rw [setFocusTo_len] at hj
    rw [setFocusTo_proj σ _ j NodeObj.path (fun _ _ => rfl)]
    exact ih j hj hj0

/-- C8: with ignore filtering enabled and a repository present, every path
the oracle reports as ignored is excluded at load time, so no entry of the
visible sequence (at any depth) has an ignored path; with filtering
disabled or no repository, `load_children` creates a child for every
enumerated entry, ignored or not. -/
theorem c8_gitignore_filtering (fs : FsTree) (cfg : Config) :
    (∀ orc σ, cfg.repo = some orc → cfg.useGit = true → Reach fs cfg σ →
      ∀ j ∈ visibleChain σ, j ≠ 0 → orc (getN σ j).path = false) ∧
    (∀ σ σ' i cs, cfg.useGit = false ∨ cfg.repo = none →
      i < σ.len → (getN σ i).loaded = false →
      iterdirAt fs (getN σ i).path = .ok cs →
      loadChildren fs cfg σ i = .ok σ' →
      ∀ c ∈ cs, ∃ j, σ.len ≤ j ∧ j < σ'.len ∧
        (getN σ' j).path = (getN σ i).path ++ [c.name]) := by
  constructor
  · intro orc σ hrepo hgit hreach j hj hj0
    have hw := reach_WfR fs cfg σ hreach
    have hjl : j < σ.len :=
      chainFrom_mem_lt σ hw σ.len 0 hw.len_pos j hj
    exact reach_gitInv fs orc cfg hrepo hgit σ hreach j hjl hj0
  · intro σ σ' i cs hdis hi hnl hit hok c hc
    have hls : listChildren fs cfg (getN σ i).path = .ok cs := by
      rw [listChildren, hit]
      rcases hdis with hgit | hrepo
      · cases hr : cfg.repo with
        | none => rfl
        | some orc => rw [hgit]
      · rw [hrepo]
    rw [loadChildren_ok fs cfg σ i cs hnl hls] at hok
    cases hok
    obtain ⟨hlen, _, _, _, _, hkids⟩ := loadCore_spec σ i (sortByName cs) hi
    have hmem : c ∈ sortByName cs := (mem_sortByName c cs).mpr hc
    obtain ⟨k, hck⟩ := List.getElem?_of_mem hmem
    have hk : k < (sortByName cs).length := by
      by_contra hcon
      rw [List.getElem?_eq_none (by omega)] at hck
      exact Option.noConfusion hck
    refine ⟨σ.len + k, by omega, by omega, ?_⟩
    rw [hkids k c hck]
    rfl

theorem c8_gitignore_filtering_witness :
    (decide ((getN σG0 1).path = ["b"]) = false) ∧
    (∃ j, σC0.len ≤ j ∧ j < (okD (loadChildren fsC cfgN σC0 1)).len ∧
      (getN (okD (loadChildren fsC cfgN σC0 1)) j).path =
        (getN σC0 1).path ++ ["c"]) :=
  ⟨(c8_gitignore_filtering fsC cfgG).1 (fun p => decide (p = ["b"])) σG0
      rfl rfl (Reach.init σG0 (by rfl)) 1 (by decide) (by decide),
    (c8_gitignore_filtering fsC cfgN).2 σC0
      (okD (loadChildren fsC cfgN σC0 1)) 1
      [.dir "c" (.ok [.file "d"])] (Or.inr rfl) (by decide) (by decide)
      (by rfl) (by rfl) (.dir "c" (.ok [.file "d"])) (by simp)⟩

/-! ### Search: bubbling, node find, the depth-first fold (C4, C6) -/

theorem Anc_congr (σ σ' : TState)
    (hpar : ∀ j, (getN σ' j).parent = (getN σ j).parent) (d j : Nat) :
    Anc σ' d j ↔ Anc σ d j := by
  constructor
  · intro h
    induction h with
    | parent a hp => exact Anc.parent d a (by rw [← hpar]; exact hp)
    | step p a hp _ ih => exact Anc.step d p a (by rw [← hpar]; exact hp) ih
  · intro h
    induction h with
    | parent a hp => exact Anc.parent d a (by rw [hpar]; exact hp)
    | step p a hp _ ih => exact Anc.step d p a (by rw [hpar]; exact hp) ih

theorem Anc_iff (σ : TState) (d j : Nat) :
    Anc σ d j ↔ ∃ q, (getN σ j).parent = some q ∧ (d = q ∨ Anc σ d q) := by
  constructor
  · intro h
    cases h with
    | parent a hp => exact ⟨d, hp, Or.inl rfl⟩
    | step p a hp ha => exact ⟨p, hp, Or.inr ha⟩
  · rintro ⟨q, hq, hdq | hdq⟩
    · subst hdq
      exact Anc.parent _ _ hq
    · exact Anc.step _ q _ hq hdq

/-- Full characterization of `MATCH_FOUND` bubbling started at `some p`:
with enough fuel along a decreasing parent chain it marks exactly the
ancestors-or-self of `p` expanded, counts one event at the viewer, and
changes nothing else. -/
theorem bubbleMatch_spec (fuel : Nat) : ∀ (σ : TState) (p : Nat),
    ParentWF σ → p < σ.len → p < fuel →
    ((bubbleMatch σ fuel (some p)).len = σ.len ∧
     (bubbleMatch σ fuel (some p)).focus = σ.focus ∧
     (bubbleMatch σ fuel (some p)).matchEvents = σ.matchEvents + 1) ∧
    (∀ d, ((getN (bubbleMatch σ fuel (some p)) d).expanded = true ↔
      ((getN σ d).expanded = true ∨ d = p ∨ Anc σ d p))) ∧
    (∀ d, (getN (bubbleMatch σ fuel (some p)) d).parent = (getN σ d).parent ∧
      (getN (bubbleMatch σ fuel (some p)) d).name = (getN σ d).name ∧
      (getN (bubbleMatch σ fuel (some p)) d).matchFind =
        (getN σ d).matchFind) := by
  induction fuel with
  | zero =>
    intro σ p _ _ hf
    omega
  | succ fuel ih =>
    intro σ p hP hp hf
    simp only [bubbleMatch]
    set σ1 := setExpanded σ p true with hσ1
    have hlen1 : σ1.len = σ.len := by rw [hσ1, setExpanded, len_modify]
    have hpar1 : ∀ j, (getN σ1 j).parent = (getN σ j).parent := fun j =>
      getN_modify_proj σ p j (fun nd => { nd with expanded := true })
        NodeObj.parent (fun _ => rfl)
    have hname1 : ∀ j, (getN σ1 j).name = (getN σ j).name := fun j =>
      getN_modify_proj σ p j (fun nd => { nd with expanded := true })
        NodeObj.name (fun _ => rfl)
    have hmf1 : ∀ j, (getN σ1 j).matchFind = (getN σ j).matchFind := fun j =>
      getN_modify_proj σ p j (fun nd => { nd with expanded := true })
        NodeObj.matchFind (fun _ => rfl)
    have hexp1 : ∀ d, (getN σ1 d).expanded = true ↔
        ((getN σ d).expanded = true ∨ d = p) := by
      intro d
      rw [hσ1, setExpanded, getN_modify]
      by_cases hdp : d = p ∧ p < σ.len
      · rw [if_pos hdp]
        simp [hdp.1]
      · rw [if_neg hdp]
        have : ¬ d = p := fun he => hdp ⟨he, hp⟩
        simp [this]
    have hP1 : ParentWF σ1 := by
      intro j hj q hq
      rw [hlen1] at hj
      rw [hpar1 j] at hq
      exact hP j hj q hq
    have hparp : (getN σ1 p).parent = (getN σ p).parent := hpar1 p
    cases hpp : (getN σ p).parent with
    | none =>
      simp only [bubbleMatch]
      refine ⟨⟨by simpa using hlen1, by simp [hσ1, setExpanded, focus_modify],
        by simp [hσ1, setExpanded, matchEvents_modify]⟩, ?_, ?_⟩
      · intro d
        have hnoanc : ¬ Anc σ d p := by
          intro ha
          rw [Anc_iff] at ha
          obtain ⟨q, hq, _⟩ := ha
          rw [hpp] at hq
          exact Option.noConfusion hq
        simp only [getN_eq] at *
        rw [hexp1 d]
        tauto
      · intro d
        exact ⟨hpar1 d, hname1 d, hmf1 d⟩
    | some q =>
      have hqp : q < p := hP p hp q hpp
      have hq : q < σ.len := by omega
      obtain ⟨⟨hl2, hfo2, hme2⟩, hexp2, hpres2⟩ :=
        ih σ1 q hP1 (by omega) (by omega)
      refine ⟨⟨by rw [hl2, hlen1], by rw [hfo2]; simp [hσ1, setExpanded, focus_modify],
        by rw [hme2]; simp [hσ1, setExpanded, matchEvents_modify]⟩, ?_, ?_⟩
      · intro d
        rw [hexp2 d, hexp1 d]
        have hanc1 : Anc σ1 d q ↔ Anc σ d q := Anc_congr σ σ1 hpar1 d q
        rw [hanc1]
        have hancp : Anc σ d p ↔ (d = q ∨ Anc σ d q) := by
          rw [Anc_iff]
          constructor
          · rintro ⟨q', hq', hd⟩
            rw [hpp] at hq'
            cases hq'
            exact hd
          · intro hd
            exact ⟨q, hpp, hd⟩
        rw [hancp]
        tauto
      · intro d
        obtain ⟨hp2, hn2, hm2⟩ := hpres2 d
        exact ⟨by rw [hp2, hpar1 d], by rw [hn2, hname1 d],
          by rw [hm2, hmf1 d]⟩

theorem parentWF_of_b (σ : TState) (h : parentWFb σ = true) : ParentWF σ := by
  intro j hj p hp
  have hmem : j ∈ List.range σ.len := List.mem_range.mpr hj
  have h2 := List.all_eq_true.mp h j hmem
  rw [hp] at h2
  exact of_decide_eq_true h2

/-- Python's `"x".find("")` is `0`: the empty term is a prefix of every
string at index 0. -/
theorem pyFind_empty (s : String) : pyFind s "" = some 0 := by
  cases s with
  | mk l => cases l <;> rfl

/-- Full characterization of a single `BaseNode.find` call: the node's span
is set from the Python `find` result, a hit bubbles exactly one
`MATCH_FOUND` (expanding exactly the strict ancestors), and nothing else
changes. -/
theorem nodeFind_spec (σ : TState) (i : Nat) (term : String)
    (hP : ParentWF σ) (hi : i < σ.len) :
    ((nodeFind σ i term).len = σ.len ∧
     (nodeFind σ i term).focus = σ.focus ∧
     (nodeFind σ i term).matchEvents = σ.matchEvents +
       (if (pyFind (getN σ i).name term).isSome then 1 else 0)) ∧
    (∀ d, (getN (nodeFind σ i term) d).parent = (getN σ d).parent ∧
          (getN (nodeFind σ i term) d).name = (getN σ d).name) ∧
    (∀ d, (getN (nodeFind σ i term) d).expanded = true ↔
      ((getN σ d).expanded = true ∨
       ((pyFind (getN σ i).name term).isSome = true ∧ Anc σ d i))) ∧
    (∀ d, d ≠ i → (getN (nodeFind σ i term) d).matchFind = (getN σ d).matchFind) ∧
    ((getN (nodeFind σ i term) i).matchFind =
      match pyFind (getN σ i).name term with
      | some idx => some (idx, idx + term.length)
      | none => none) := by
  cases hpf : pyFind (getN σ i).name term with
  | none =>
    simp only [nodeFind, hpf]
    refine ⟨⟨?_, ?_, ?_⟩, ?_, ?_, ?_, ?_⟩
    · exact len_modify σ i _
    · exact focus_modify σ i _
    · simp [setMatchFind, matchEvents_modify]
    · intro d
      exact ⟨getN_modify_proj σ i d (fun nd => { nd with matchFind := none })
          NodeObj.parent (fun _ => rfl),
        getN_modify_proj σ i d (fun nd => { nd with matchFind := none })
          NodeObj.name (fun _ => rfl)⟩
    · intro d
      rw [setMatchFind,
        getN_modify_proj σ i d (fun nd => { nd with matchFind := none })
          NodeObj.expanded (fun _ => rfl)]
      simp
    · intro d hd
      exact congrArg NodeObj.matchFind (getN_modify_ne σ i d
        (fun nd => { nd with matchFind := none }) (Ne.symm hd))
    · rw [setMatchFind, getN_modify_self σ i _ hi]
  | some idx =>
    simp only [nodeFind, hpf]
    set σ1 := setMatchFind σ i (some (idx, idx + term.length)) with hσ1
    have hlen1 : σ1.len = σ.len := len_modify σ i _
    have hpar1 : ∀ j, (getN σ1 j).parent = (getN σ j).parent := fun j =>
      getN_modify_proj σ i j
        (fun nd => { nd with matchFind := some (idx, idx + term.length) })
        NodeObj.parent (fun _ => rfl)
    have hname1 : ∀ j, (getN σ1 j).name = (getN σ j).name := fun j =>
      getN_modify_proj σ i j
        (fun nd => { nd with matchFind := some (idx, idx + term.length) })
        NodeObj.name (fun _ => rfl)
    have hexp1 : ∀ j, (getN σ1 j).expanded = (getN σ j).expanded := fun j =>
      getN_modify_proj σ i j
        (fun nd => { nd with matchFind := some (idx, idx + term.length) })
        NodeObj.expanded (fun _ => rfl)
    have hP1 : ParentWF σ1 := by
      intro j hj p hp
      rw [hlen1] at hj
      rw [hpar1 j] at hp
      exact hP j hj p hp
    have hmf1ne : ∀ d, d ≠ i → (getN σ1 d).matchFind = (getN σ d).matchFind :=
      fun d hd => congrArg NodeObj.matchFind (getN_modify_ne σ i d
        (fun nd => { nd with matchFind := some (idx, idx + term.length) })
        (Ne.symm hd))
    have hmf1i : (getN σ1 i).matchFind = some (idx, idx + term.length) := by
      rw [hσ1, setMatchFind, getN_modify_self σ i _ hi]
    rw [hpar1 i]
    cases hpp : (getN σ i).parent with
    | none =>
      have hnoanc : ∀ d, ¬ Anc σ d i := by
        intro d ha
        rw [Anc_iff] at ha
        obtain ⟨q, hq, _⟩ := ha
        rw [hpp] at hq
        exact Option.noConfusion hq
      simp only [bubbleMatch]
      refine ⟨⟨?_, ?_, ?_⟩, ?_, ?_, ?_, ?_⟩
      · exact hlen1
      · exact focus_modify σ i _
      · simp [hσ1, setMatchFind, matchEvents_modify]
      · intro d
        exact ⟨hpar1 d, hname1 d⟩
      · intro d
        rw [show getN { σ1 with matchEvents := σ1.matchEvents + 1 } d =
          getN σ1 d from rfl, hexp1 d]
        simp [hnoanc d]
      · intro d hd
        rw [show getN { σ1 with matchEvents := σ1.matchEvents + 1 } d =
          getN σ1 d from rfl]
        exact hmf1ne d hd
      · rw [show getN { σ1 with matchEvents := σ1.matchEvents + 1 } i =
          getN σ1 i from rfl]
        exact hmf1i
    | some p =>
      have hpi : p < i := hP i hi p hpp
      obtain ⟨⟨hl2, hf2, hm2⟩, hexp2, hpres2⟩ :=
        bubbleMatch_spec σ1.len σ1 p hP1 (by omega) (by omega)
      have hanc : ∀ d, (d = p ∨ Anc σ1 d p) ↔ Anc σ d i := by
        intro d
        rw [Anc_congr σ σ1 hpar1 d p, Anc_iff σ d i]
        constructor
        · intro hd
          exact ⟨p, hpp, hd⟩
        · rintro ⟨q, hq, hd⟩
          rw [hpp] at hq
          cases hq
          exact hd
      refine ⟨⟨?_, ?_, ?_⟩, ?_, ?_, ?_, ?_⟩
      · rw [hl2, hlen1]
      · rw [hf2]
        exact focus_modify σ i _
      · rw [hm2]
        simp [hσ1, setMatchFind, matchEvents_modify]
      · intro d
        obtain ⟨hpd, hnd, _⟩ := hpres2 d
        exact ⟨by rw [hpd, hpar1 d], by rw [hnd, hname1 d]⟩
      · intro d
        rw [hexp2 d, hexp1 d]
        constructor
        · rintro (he | hd2)
          · exact Or.inl he
          · exact Or.inr ⟨rfl, (hanc d).mp hd2⟩
        · rintro (he | ⟨_, ha⟩)
          · exact Or.inl he
          · exact Or.inr ((hanc d).mpr ha)
      · intro d hd
        obtain ⟨_, _, hmd⟩ := hpres2 d
        rw [hmd]
        exact hmf1ne d hd
      · obtain ⟨_, _, hmi⟩ := hpres2 i
        rw [hmi]
        exact hmf1i

/-- The depth-first fold of `find` over a list of node ids: one event per
hit, spans rewritten at every visited node, and the expansion of `d` grows
by exactly the ancestors of hit nodes. -/
theorem walkFind_spec (term : String) (l : List Nat) : ∀ σ : TState,
    ParentWF σ → (∀ i ∈ l, i < σ.len) →
    ((l.foldl (fun σ i => nodeFind σ i term) σ).len = σ.len ∧
     ParentWF (l.foldl (fun σ i => nodeFind σ i term) σ)) ∧
    (∀ d, (getN (l.foldl (fun σ i => nodeFind σ i term) σ) d).parent =
            (getN σ d).parent ∧
          (getN (l.foldl (fun σ i => nodeFind σ i term) σ) d).name =
            (getN σ d).name) ∧
    (∀ d, (getN (l.foldl (fun σ i => nodeFind σ i term) σ) d).expanded = true ↔
      ((getN σ d).expanded = true ∨
       ∃ i ∈ l, (pyFind (getN σ i).name term).isSome = true ∧ Anc σ d i)) := by
  induction l with
  | nil =>
    intro σ hP _
    refine ⟨⟨rfl, hP⟩, fun d => ⟨rfl, rfl⟩, fun d => ?_⟩
    simp
  | cons i l ih =>
    intro σ hP hb
    have hi : i < σ.len := hb i (List.mem_cons_self i l)
    obtain ⟨⟨hlen, _, _⟩, hpn, hexp, _, _⟩ := nodeFind_spec σ i term hP hi
    have hP' : ParentWF (nodeFind σ i term) := by
      intro j hj p hp
      rw [hlen] at hj
      rw [(hpn j).1] at hp
      exact hP j hj p hp
    have hb' : ∀ k ∈ l, k < (nodeFind σ i term).len := by
      intro k hk
      rw [hlen]
      exact hb k (List.mem_cons_of_mem i hk)
    obtain ⟨⟨hlen2, hP2⟩, hpn2, hexp2⟩ := ih (nodeFind σ i term) hP' hb'
    rw [List.foldl_cons]
    refine ⟨⟨hlen2.trans hlen, hP2⟩, ?_, ?_⟩
    · intro d
      exact ⟨(hpn2 d).1.trans (hpn d).1, (hpn2 d).2.trans (hpn d).2⟩
    · intro d
      rw [hexp2 d, hexp d]
      have hEx : (∃ k ∈ l, (pyFind (getN (nodeFind σ i term) k).name term).isSome
            = true ∧ Anc (nodeFind σ i term) d k) ↔
          (∃ k ∈ l, (pyFind (getN σ k).name term).isSome = true ∧ Anc σ d k) := by
        constructor
        · rintro ⟨k, hk, hs, ha⟩
          refine ⟨k, hk, ?_, ?_⟩
          · rw [(hpn k).2] at hs
            exact hs
          · exact (Anc_congr σ (nodeFind σ i term)
              (fun j => (hpn j).1) d k).mp ha
        · rintro ⟨k, hk, hs, ha⟩
          refine ⟨k, hk, ?_, ?_⟩
          · rw [(hpn k).2]
            exact hs
          · exact (Anc_congr σ (nodeFind σ i term)
              (fun j => (hpn j).1) d k).mpr ha
      rw [hEx]
      constructor
      · rintro ((he | ⟨hs, ha⟩) | ⟨k, hk, hs, ha⟩)
        · exact Or.inl he
        · exact Or.inr ⟨i, List.mem_cons_self i l, hs, ha⟩
        · exact Or.inr ⟨k, List.mem_cons_of_mem i hk, hs, ha⟩
      · rintro (he | ⟨k, hk, hs, ha⟩)
        · exact Or.inl (Or.inl he)
        · rcases List.mem_cons.mp hk with hki | hkl
          · subst hki
            exact Or.inl (Or.inr ⟨hs, ha⟩)
          · exact Or.inr ⟨k, hkl, hs, ha⟩

/-- A successful `load_children` never touches the expansion flag of any
pre-existing node (the fresh children start collapsed, the container only
gains its child pointers and memo bit). -/
theorem loadChildren_expanded (fs : FsTree) (cfg : Config) (σ σ1 : TState)
    (i : Nat) (hi : i < σ.len) (h : loadChildren fs cfg σ i = .ok σ1) :
    σ.len ≤ σ1.len ∧
    ∀ d, d < σ.len → (getN σ1 d).expanded = (getN σ d).expanded := by
  by_cases hl : (getN σ i).loaded = true
  · rw [loadChildren_loaded fs cfg σ i hl] at h
    cases h
    exact ⟨Nat.le_refl _, fun d _ => rfl⟩
  · have hnl : (getN σ i).loaded = false := by
      cases hv : (getN σ i).loaded
      · rfl
      · exact absurd hv hl
    cases hls : listChildren fs cfg (getN σ i).path with
    | error e =>
      rw [loadChildren_err fs cfg σ i e hnl hls] at h
      exact Except.noConfusion h
    | ok listing =>
      rw [loadChildren_ok fs cfg σ i listing hnl hls] at h
      cases h
      obtain ⟨hlen, _, _, hframe, hself, _⟩ :=
        loadCore_spec σ i (sortByName listing) hi
      refine ⟨by omega, ?_⟩
      intro d hd
      by_cases hdi : d = i
      · subst hdi
        rw [hself]
      · rw [hframe d hd hdi]

/-- The eager pre-load of the search: expansion flags of all pre-existing
nodes survive, and the arena only grows. -/
theorem loadAll_expanded (fs : FsTree) (cfg : Config) : ∀ (fuel : Nat)
    (σ : TState) (i : Nat) (ρ : TState), loadAll fs cfg fuel σ i = .ok ρ →
    σ.len ≤ ρ.len ∧
    ∀ d, d < σ.len → (getN ρ d).expanded = (getN σ d).expanded := by
  intro fuel
  induction fuel with
  | zero =>
    intro σ i ρ h
    simp only [loadAll] at h
    cases h
    exact ⟨Nat.le_refl _, fun d _ => rfl⟩
  | succ fuel ih =>
    intro σ i ρ h
    simp only [loadAll] at h
    by_cases hib : i < σ.len
    · rw [if_pos hib] at h
      by_cases hdir : (getN σ i).isDir = true
      · rw [if_pos hdir] at h
        cases hlc : loadChildren fs cfg σ i with
        | error e =>
          rw [hlc] at h
          dsimp only at h
          exact Except.noConfusion h
        | ok σm =>
          rw [hlc] at h
          dsimp only at h
          obtain ⟨hle1, hexp1⟩ := loadChildren_expanded fs cfg σ σm i hib hlc
          cases hcd : (getN σm i).childDown with
          | some c =>
            rw [hcd] at h
            obtain ⟨hle2, hexp2⟩ := ih σm c ρ h
            refine ⟨by omega, fun d hd => ?_⟩
            rw [hexp2 d (by omega), hexp1 d hd]
          | none =>
            rw [hcd] at h
            cases hsd : (getN σm i).slDown with
            | some jn =>
              rw [hsd] at h
              obtain ⟨hle2, hexp2⟩ := ih σm jn ρ h
              refine ⟨by omega, fun d hd => ?_⟩
              rw [hexp2 d (by omega), hexp1 d hd]
            | none =>
              rw [hsd] at h
              cases h
              exact ⟨hle1, hexp1⟩
      · rw [if_neg hdir] at h
        dsimp only at h
        cases hcd : (getN σ i).childDown with
        | some c =>
          rw [hcd] at h
          exact ih σ c ρ h
        | none =>
          rw [hcd] at h
          cases hsd : (getN σ i).slDown with
          | some jn =>
            rw [hsd] at h
            exact ih σ jn ρ h
          | none =>
            rw [hsd] at h
            cases h
            exact ⟨Nat.le_refl _, fun d _ => rfl⟩
    · rw [if_neg hib] at h
      cases h
      exact ⟨Nat.le_refl _, fun d _ => rfl⟩

/-- C6 counterexample: running the viewer search with the empty term on the
freshly built `r/{a/{c/{d}},b}` tree does not clear spans or leave the tree
alone - every entry gets the span `(0, 0)`, five match events reach the
viewer, and the previously collapsed container `a` ends up expanded. -/
theorem c6_counterexample :
    (treeFind fsC cfgN 32 σC0 "").toOption.isSome = true ∧
    (getN (okD (treeFind fsC cfgN 32 σC0 "")) 1).name = "a" ∧
    (getN (okD (treeFind fsC cfgN 32 σC0 "")) 1).matchFind = some (0, 0) ∧
    (getN (okD (treeFind fsC cfgN 32 σC0 "")) 4).matchFind = some (0, 0) ∧
    σC0.matchEvents = 0 ∧
    (okD (treeFind fsC cfgN 32 σC0 "")).matchEvents = 5 ∧
    (getN σC0 1).expanded = false ∧
    (getN (okD (treeFind fsC cfgN 32 σC0 "")) 1).expanded = true := by
  decide

/-- C6: `find("")` is not a zero-match search: Python's `str.find` returns
`0` for the empty needle, so every entry matches - its span is set to
`(0, 0)`, one `MATCH_FOUND` event per entry reaches the viewer, and every
strict ancestor of the entry becomes expanded (all other expansion state is
unchanged). -/
theorem c6_empty_find_matches_everywhere (σ : TState) (i : Nat)
    (hb : parentWFb σ = true) (hi : i < σ.len) :
    (getN (nodeFind σ i "") i).matchFind = some (0, 0) ∧
    (nodeFind σ i "").matchEvents = σ.matchEvents + 1 ∧
    (∀ d, (getN (nodeFind σ i "") d).expanded = true ↔
      ((getN σ d).expanded = true ∨ Anc σ d i)) := by
  have hP := parentWF_of_b σ hb
  obtain ⟨⟨_, _, hev⟩, _, hexp, _, hmfi⟩ := nodeFind_spec σ i "" hP hi
  refine ⟨?_, ?_, ?_⟩
  · rw [hmfi, pyFind_empty]
    rfl
  · rw [hev, pyFind_empty]
    rfl
  · intro d
    rw [hexp d, pyFind_empty]
    simp

theorem c6_empty_find_matches_everywhere_witness :
    parentWFb σR = true ∧ 0 < σR.len ∧
    (getN (nodeFind σR 0 "") 0).matchFind = some (0, 0) :=
  ⟨by decide, by decide,
    (c6_empty_find_matches_everywhere σR 0 (by decide) (by decide)).1⟩

/-- C4: a whole-tree `find(term)` whose depth-first walk hits exactly one
entry `j` expands precisely the strict ancestors of `j`: every ancestor
container of `j` is expanded afterwards, every non-ancestor keeps the
expansion state it had after the pre-load, and every pre-existing
non-ancestor keeps the expansion state it had before the search. -/
theorem c4_single_match_expands_ancestors (fs : FsTree) (cfg : Config)
    (fuel : Nat) (σ σ1 ρ : TState) (term : String) (j : Nat)
    (hload : loadAll fs cfg fuel σ 0 = .ok σ1)
    (hb : parentWFb σ1 = true)
    (hbound : ∀ i ∈ allNodesFrom σ1 σ1.len 0, i < σ1.len)
    (huniq : (allNodesFrom σ1 σ1.len 0).filter
        (fun i => (pyFind (getN σ1 i).name term).isSome) = [j])
    (hρ : treeFind fs cfg fuel σ term = .ok ρ) :
    (∀ d, Anc σ1 d j → (getN ρ d).expanded = true) ∧
    (∀ d, ¬ Anc σ1 d j → (getN ρ d).expanded = (getN σ1 d).expanded) ∧
    (∀ d, d < σ.len → ¬ Anc σ1 d j →
      (getN ρ d).expanded = (getN σ d).expanded) := by
  have hP := parentWF_of_b σ1 hb
  unfold treeFind at hρ
  rw [hload] at hρ
  dsimp only at hρ
  have hρ' : (allNodesFrom σ1 σ1.len 0).foldl
      (fun σ i => nodeFind σ i term) σ1 = ρ := by
    cases hρ
    rfl
  obtain ⟨_, _, hexp⟩ :=
    walkFind_spec term (allNodesFrom σ1 σ1.len 0) σ1 hP hbound
  rw [hρ'] at hexp
  have hjmem : j ∈ (allNodesFrom σ1 σ1.len 0).filter
      (fun i => (pyFind (getN σ1 i).name term).isSome) := by
    rw [huniq]
    exact List.mem_cons_self j []
  have hjl : j ∈ allNodesFrom σ1 σ1.len 0 := (List.mem_filter.mp hjmem).1
  have hjs : (pyFind (getN σ1 j).name term).isSome = true := by
    have := (List.mem_filter.mp hjmem).2
    simpa using this
  have hEx : ∀ d, (∃ i ∈ allNodesFrom σ1 σ1.len 0,
      (pyFind (getN σ1 i).name term).isSome = true ∧ Anc σ1 d i) ↔
      Anc σ1 d j := by
    intro d
    constructor
    · rintro ⟨k, hk, hs, ha⟩
      have hkf : k ∈ (allNodesFrom σ1 σ1.len 0).filter
          (fun i => (pyFind (getN σ1 i).name term).isSome) :=
        List.mem_filter.mpr ⟨hk, by simpa using hs⟩
      rw [huniq] at hkf
      have hkj : k = j := by
        cases List.mem_cons.mp hkf with
        | inl he => exact he
        | inr he => exact absurd he (List.not_mem_nil k)
      rw [← hkj]
      exact ha
    · intro ha
      exact ⟨j, hjl, hjs, ha⟩
  obtain ⟨_, hexpσ⟩ := loadAll_expanded fs cfg fuel σ 0 σ1 hload
  refine ⟨?_, ?_, ?_⟩
  · intro d hd
    exact (hexp d).mpr (Or.inr ((hEx d).mpr hd))
  · intro d hd
    have h1 : (getN ρ d).expanded = true ↔ (getN σ1 d).expanded = true := by
      rw [hexp d, hEx d]
      simp [hd]
    cases hv : (getN σ1 d).expanded
    · cases hw : (getN ρ d).expanded
      · rfl
      · rw [hv] at h1
        exact absurd (h1.mp hw) (by simp)
    · exact h1.mpr hv
  · intro d hdσ hd
    have h1 : (getN ρ d).expanded = true ↔ (getN σ1 d).expanded = true := by
      rw [hexp d, hEx d]
      simp [hd]
    rw [hexpσ d hdσ] at h1
    cases hv : (getN σ d).expanded
    · cases hw : (getN ρ d).expanded
      · rfl
      · rw [hv] at h1
        exact absurd (h1.mp hw) (by simp)
    · exact h1.mpr hv

theorem c4_single_match_expands_ancestors_witness :
    (getN (okD (treeFind fsC cfgN 32 σC0 "d")) 1).expanded = true :=
  (c4_single_match_expands_ancestors fsC cfgN 32 σC0
      (okD (loadAll fsC cfgN 32 σC0 0)) (okD (treeFind fsC cfgN 32 σC0 "d"))
      "d" 4 (by rfl) (by decide) (by decide) (by decide) (by rfl)).1
    1 (Anc.step 1 3 4 (by decide) (Anc.parent 1 3 (by decide)))

theorem c2_enter_exit_roundtrip_witness :
    (getN σE1 1).isDir = true ∧ (getN σE1 1).expanded = false ∧
    downOf (nodeExit (okD (enterOp fsE cfgN σE1 1)) 1) 1 = downOf σE1 1 :=
  ⟨by decide, by decide,
    c2_enter_exit_roundtrip fsE cfgN σE1 (okD (enterOp fsE cfgN σE1 1)) 1
      (by decide) (by decide) (by decide) (by rfl)⟩

/-! ### The full invariant: auxiliary lemmas -/

theorem Inv.toWfR (σ : TState) (h : Inv σ) : WfR σ :=
  ⟨h.len_pos, fun i hi j hj => (h.cd_range i hi j hj).2, h.sd_lt, h.rank⟩

theorem anc_lt (σ : TState) (hP : ParentWF σ) (a j : Nat) (h : Anc σ a j) :
    j < σ.len → a < j := by
  induction h with
  | parent b hp =>
    intro hb
    exact hP b hb a hp
  | step p b hp _ ih =>
    intro hb
    have hpb : p < b := hP b hb p hp
    exact lt_trans (ih (by omega)) hpb

theorem anc_trans (σ : TState) (a t j : Nat) (h1 : Anc σ a t)
    (h2 : Anc σ t j) : Anc σ a j := by
  induction h2 with
  | parent b hp => exact Anc.step a t b hp h1
  | step p b hp _ ih => exact Anc.step a p b hp ih

theorem anc_iff_of_parent_eq (σ : TState) (x y : Nat)
    (hp : (getN σ x).parent = (getN σ y).parent) (a : Nat) :
    Anc σ a x ↔ Anc σ a y := by
  rw [Anc_iff, Anc_iff, hp]

theorem chainFrom_self_mem (σ : TState) (fuel x : Nat) :
    x ∈ chainFrom σ fuel x := by
  cases fuel <;> simp [chainFrom]

theorem downOf_congr (σ σ' : TState) (q : Nat)
    (h1 : (getN σ' q).isDir = (getN σ q).isDir)
    (h2 : (getN σ' q).expanded = (getN σ q).expanded)
    (h3 : (getN σ' q).childDown = (getN σ q).childDown)
    (h4 : (getN σ' q).slDown = (getN σ q).slDown) :
    downOf σ' q = downOf σ q := by
  simp only [downOf]
  rw [h1, h2, h3, h4]

theorem chainFrom_congr (σ σ' : TState) (h : ∀ q, downOf σ' q = downOf σ q) :
    ∀ fuel r, chainFrom σ' fuel r = chainFrom σ fuel r := by
  intro fuel
  induction fuel with
  | zero => intro r; rfl
  | succ fuel ih =>
    intro r
    simp only [chainFrom, h r]
    cases hd : downOf σ r with
    | none => simp only [hd]
    | some j =>
      simp only [hd]
      rw [ih j]

theorem chainFrom_mem_mono (σ : TState) : ∀ fuel fuel' r x, fuel ≤ fuel' →
    x ∈ chainFrom σ fuel r → x ∈ chainFrom σ fuel' r := by
  intro fuel
  induction fuel with
  | zero =>
    intro fuel' r x _ hx
    simp [chainFrom] at hx
    subst hx
    exact chainFrom_self_mem σ fuel' x
  | succ fuel ih =>
    intro fuel' r x hle hx
    cases fuel' with
    | zero => omega
    | succ fuel2 =>
      simp only [chainFrom] at hx ⊢
      cases hd : downOf σ r with
      | none =>
        simp only [hd] at hx ⊢
        exact hx
      | some j =>
        simp only [hd, List.mem_cons] at hx ⊢
        rcases hx with rfl | hx
        · exact Or.inl rfl
        · exact Or.inr (ih fuel2 j x (by omega) hx)

theorem chainFrom_mem_stable (σ σ' : TState) : ∀ fuel r x,
    x ∈ chainFrom σ fuel r →
    (∀ y, y ∈ chainFrom σ fuel r → y ≠ x → downOf σ' y = downOf σ y) →
    x ∈ chainFrom σ' fuel r := by
  intro fuel
  induction fuel with
  | zero =>
    intro r x hx _
    simp [chainFrom] at hx ⊢
    exact hx
  | succ fuel ih =>
    intro r x hx hagree
    simp only [chainFrom] at hx
    by_cases hxr : x = r
    · subst hxr
      exact chainFrom_self_mem σ' (fuel + 1) x
    · cases hd : downOf σ r with
      | none =>
        simp only [hd] at hx
        simp at hx
        exact absurd hx hxr
      | some j =>
        simp only [hd, List.mem_cons] at hx
        rcases hx with rfl | hx
        · exact absurd rfl hxr
        · have hmr : r ∈ chainFrom σ (fuel + 1) r := chainFrom_self_mem σ _ r
          have hdr : downOf σ' r = some j := by
            rw [hagree r hmr (fun he => hxr he.symm), hd]
          simp only [chainFrom, hdr, List.mem_cons]
          refine Or.inr (ih j x hx ?_)
          intro y hy hyx
          refine hagree y ?_ hyx
          simp only [chainFrom, hd, List.mem_cons]
          exact Or.inr hy

theorem chainFrom_pred (σ : TState) : ∀ fuel r x, x ∈ chainFrom σ fuel r →
    x ≠ r → ∃ w, w ∈ chainFrom σ fuel r ∧ downOf σ w = some x := by
  intro fuel
  induction fuel with
  | zero =>
    intro r x hx hxr
    simp [chainFrom] at hx
    exact absurd hx hxr
  | succ fuel ih =>
    intro r x hx hxr
    simp only [chainFrom] at hx
    cases hd : downOf σ r with
    | none =>
      simp only [hd] at hx
      simp at hx
      exact absurd hx hxr
    | some j =>
      simp only [hd, List.mem_cons] at hx
      rcases hx with rfl | hx
      · exact absurd rfl hxr
      · by_cases hxj : x = j
        · subst hxj
          exact ⟨r, chainFrom_self_mem σ _ r, hd⟩
        · obtain ⟨w, hw, hdw⟩ := ih j x hx hxj
          refine ⟨w, ?_, hdw⟩
          simp only [chainFrom, hd, List.mem_cons]
          exact Or.inr hw

theorem chainFrom_down_mem (σ : TState) : ∀ fuel r x j,
    x ∈ chainFrom σ fuel r → downOf σ x = some j →
    j ∈ chainFrom σ fuel r ∨ (chainFrom σ fuel r).getLast? = some x := by
  intro fuel
  induction fuel with
  | zero =>
    intro r x j hx _
    simp [chainFrom] at hx
    subst hx
    right
    simp [chainFrom]
  | succ fuel ih =>
    intro r x j hx hdx
    simp only [chainFrom] at hx ⊢
    cases hd : downOf σ r with
    | none =>
      simp only [hd] at hx
      simp at hx
      subst hx
      rw [hdx] at hd
      exact Option.noConfusion hd
    | some z =>
      simp only [hd, List.mem_cons] at hx ⊢
      rcases hx with rfl | hx
      · have hzj : z = j := by
          rw [hd] at hdx
          exact Option.some.inj hdx
        subst hzj
        left
        exact Or.inr (chainFrom_self_mem σ fuel z)
      · rcases ih z x j hx hdx with hj | hlast
        · left
          exact Or.inr hj
        · right
          rw [List.getLast?_cons, hlast]
          rfl

theorem dtQ_fuel (σ : TState)
    (hlc : ∀ q, q < σ.len → ∀ u, (getN σ q).lastChild = some u →
      q < u ∧ u < σ.len) :
    ∀ g b, b < σ.len → σ.len ≤ g + b → ∀ g', σ.len ≤ g' + b →
      dtQ σ g b = dtQ σ g' b := by
  intro g
  induction g with
  | zero =>
    intro b hb hg
    omega
  | succ g ih =>
    intro b hb hg g' hg'
    cases g' with
    | zero => omega
    | succ g2 =>
      simp only [dtQ]
      by_cases hcond : (getN σ b).isDir = true ∧ (getN σ b).expanded = true
      · rw [if_pos hcond, if_pos hcond]
        cases hu : (getN σ b).lastChild with
        | none => rfl
        | some u =>
          obtain ⟨hbu, hul⟩ := hlc b hb u hu
          exact ih u hul (by omega) g2 (by omega)
      · rw [if_neg hcond, if_neg hcond]

theorem dtQ_stop (σ : TState) (b : Nat) (hb : b < σ.len)
    (h : ¬ ((getN σ b).isDir = true ∧ (getN σ b).expanded = true)) :
    dtQ σ σ.len b = some b := by
  obtain ⟨g, hg⟩ : ∃ g, σ.len = g + 1 := ⟨σ.len - 1, by omega⟩
  rw [hg]
  simp only [dtQ]
  rw [if_neg h]

theorem dtQ_congr (σ σ' : TState) (n : Nat)
    (hagree : ∀ q, q < n → (getN σ' q).isDir = (getN σ q).isDir ∧
      (getN σ' q).expanded = (getN σ q).expanded ∧
      ((getN σ q).expanded = true →
        (getN σ' q).lastChild = (getN σ q).lastChild))
    (hlc : ∀ q, q < n → ∀ u, (getN σ q).lastChild = some u → u < n) :
    ∀ f t, t < n → dtQ σ' f t = dtQ σ f t := by
  intro f
  induction f with
  | zero => intro t _; rfl
  | succ f ih =>
    intro t ht
    obtain ⟨h1, h2, h3⟩ := hagree t ht
    simp only [dtQ]
    rw [h1, h2]
    by_cases hcond : (getN σ t).isDir = true ∧ (getN σ t).expanded = true
    · rw [if_pos hcond, if_pos hcond, h3 hcond.2]
      cases hu : (getN σ t).lastChild with
      | none => rfl
      | some u => exact ih u (hlc t ht u hu)
    · rw [if_neg hcond, if_neg hcond]

/-- Flipping the expansion flag of a single node `E` changes a
deepest-tail walk only if the walk's subtree ends where `E`'s does: the
walks from any start whose resume pointer differs from `E`'s agree. -/
theorem dtQ_flip (σ σ' : TState) (E : Nat)
    (hF : ∀ q, (getN σ' q).isDir = (getN σ q).isDir ∧
      (getN σ' q).lastChild = (getN σ q).lastChild ∧
      (getN σ' q).slDown = (getN σ q).slDown)
    (hE : ∀ q, q ≠ E → (getN σ' q).expanded = (getN σ q).expanded)
    (hlc : ∀ q, q < σ.len → ∀ u, (getN σ q).lastChild = some u →
      u < σ.len ∧ (getN σ u).slDown = (getN σ q).slDown) :
    ∀ f t, t < σ.len → dtQ σ' f t = dtQ σ f t ∨
      (getN σ t).slDown = (getN σ E).slDown := by
  intro f
  induction f with
  | zero => intro t _; exact Or.inl rfl
  | succ f ih =>
    intro t ht
    by_cases htE : t = E
    · subst htE
      exact Or.inr rfl
    · obtain ⟨h1, h2, h3⟩ := hF t
      have h4 := hE t htE
      simp only [dtQ]
      rw [h1, h4, h2]
      by_cases hcond : (getN σ t).isDir = true ∧ (getN σ t).expanded = true
      · rw [if_pos hcond, if_pos hcond]
        cases hu : (getN σ t).lastChild with
        | none => exact Or.inl rfl
        | some u =>
          obtain ⟨hul, hsd⟩ := hlc t ht u hu
          rcases ih u hul with heq | hsdE
          · exact Or.inl heq
          · exact Or.inr (hsd ▸ hsdE)
      · rw [if_neg hcond, if_neg hcond]
        exact Or.inl rfl

theorem upTop_le (σ : TState) (hP : ParentWF σ) : ∀ f b, b < σ.len →
    upTop σ f b ≤ b ∧ upTop σ f b < σ.len := by
  intro f
  induction f with
  | zero =>
    intro b hb
    exact ⟨Nat.le_refl b, hb⟩
  | succ f ih =>
    intro b hb
    simp only [upTop]
    cases hp : (getN σ b).parent with
    | none => exact ⟨Nat.le_refl b, hb⟩
    | some p =>
      dsimp only
      have hpb : p < b := hP b hb p hp
      by_cases hl : (getN σ p).lastChild = some b
      · rw [if_pos hl]
        obtain ⟨h1, h2⟩ := ih p (by omega)
        exact ⟨by omega, h2⟩
      · rw [if_neg hl]
        exact ⟨Nat.le_refl b, hb⟩

theorem upTop_sd (σ : TState) (hP : ParentWF σ)
    (hlcsd : ∀ i j, i < σ.len → (getN σ i).lastChild = some j →
      (getN σ j).slDown = (getN σ i).slDown) :
    ∀ f b, b < σ.len →
      (getN σ (upTop σ f b)).slDown = (getN σ b).slDown := by
  intro f
  induction f with
  | zero => intro b _; rfl
  | succ f ih =>
    intro b hb
    simp only [upTop]
    cases hp : (getN σ b).parent with
    | none => rfl
    | some p =>
      dsimp only
      have hpb : p < b := hP b hb p hp
      by_cases hl : (getN σ p).lastChild = some b
      · rw [if_pos hl, ih p (by omega), hlcsd p b (by omega) hl]
      · rw [if_neg hl]

theorem upTop_top (σ : TState) (hP : ParentWF σ)
    (hlcp : ∀ i j, i < σ.len → (getN σ i).lastChild = some j →
      (getN σ j).parent = some i) :
    ∀ f b, b < σ.len → b < f → ¬ isLastChildN σ (upTop σ f b) := by
  intro f
  induction f with
  | zero =>
    intro b _ hf
    omega
  | succ f ih =>
    intro b hb hf
    simp only [upTop]
    cases hp : (getN σ b).parent with
    | none =>
      rintro ⟨k, hk, hlc⟩
      rw [hlcp k b hk hlc] at hp
      exact Option.noConfusion hp
    | some p =>
      dsimp only
      have hpb : p < b := hP b hb p hp
      by_cases hl : (getN σ p).lastChild = some b
      · rw [if_pos hl]
        exact ih p (by omega) (by omega)
      · rw [if_neg hl]
        rintro ⟨k, hk, hlc⟩
        have := hlcp k b hk hlc
        rw [hp] at this
        have hkp : p = k := Option.some.inj this
        subst hkp
        exact hl hlc

theorem upTop_anc (σ : TState) : ∀ f b,
    upTop σ f b = b ∨ Anc σ (upTop σ f b) b := by
  intro f
  induction f with
  | zero => intro b; exact Or.inl rfl
  | succ f ih =>
    intro b
    simp only [upTop]
    cases hp : (getN σ b).parent with
    | none => exact Or.inl rfl
    | some p =>
      dsimp only
      by_cases hl : (getN σ p).lastChild = some b
      · rw [if_pos hl]
        rcases ih p with heq | hanc
        · rw [heq]
          exact Or.inr (Anc.parent p b hp)
        · exact Or.inr (anc_trans σ _ p b hanc (Anc.parent p b hp))
      · rw [if_neg hl]
        exact Or.inl rfl

theorem upTop_congr (σ σ' : TState)
    (h : ∀ q, (getN σ' q).parent = (getN σ q).parent ∧
      (getN σ' q).lastChild = (getN σ q).lastChild) :
    ∀ f b, upTop σ' f b = upTop σ f b := by
  intro f
  induction f with
  | zero => intro b; rfl
  | succ f ih =>
    intro b
    simp only [upTop]
    rw [(h b).1]
    cases hp : (getN σ b).parent with
    | none => rfl
    | some p =>
      dsimp only
      rw [(h p).2]
      by_cases hl : (getN σ p).lastChild = some b
      · rw [if_pos hl, if_pos hl, ih p]
      · rw [if_neg hl, if_neg hl]

/-- Descending the deepest-tail walk from the top of `b`'s subtree-end
chain ends exactly where the walk from `b` itself ends, provided every
strict ancestor of `b` is expanded. -/
theorem dtQ_upTop_eq (σ : TState) (hP : ParentWF σ)
    (hlc : ∀ q, q < σ.len → ∀ u, (getN σ q).lastChild = some u →
      q < u ∧ u < σ.len)
    (hleaf : ∀ q, q < σ.len → (getN σ q).expanded = true →
      (getN σ q).isDir = true) :
    ∀ f b, b < σ.len → b < f →
      (∀ a, Anc σ a b → (getN σ a).expanded = true) →
      dtQ σ σ.len (upTop σ f b) = dtQ σ σ.len b := by
  intro f
  induction f with
  | zero =>
    intro b _ hf
    omega
  | succ f ih =>
    intro b hb hf hanc
    simp only [upTop]
    cases hp : (getN σ b).parent with
    | none => rfl
    | some p =>
      dsimp only
      have hpb : p < b := hP b hb p hp
      by_cases hl : (getN σ p).lastChild = some b
      · rw [if_pos hl]
        have hanc_p : ∀ a, Anc σ a p → (getN σ a).expanded = true := by
          intro a ha
          exact hanc a (anc_trans σ a p b ha (Anc.parent p b hp))
        rw [ih p (by omega) (by omega) hanc_p]
        have hpexp : (getN σ p).expanded = true :=
          hanc p (Anc.parent p b hp)
        have hpdir : (getN σ p).isDir = true := hleaf p (by omega) hpexp
        obtain ⟨g, hg⟩ : ∃ g, σ.len = g + 1 := ⟨σ.len - 1, by omega⟩
        have hstep : dtQ σ σ.len p = dtQ σ g b := by
          rw [hg]
          simp only [dtQ]
          rw [if_pos ⟨hpdir, hpexp⟩, hl]
        rw [hstep]
        exact dtQ_fuel σ hlc g b hb (by omega) σ.len (by omega)
      · rw [if_neg hl]

theorem vis_down_closed (σ : TState) (h : WfR σ) (x j : Nat)
    (hx : x ∈ visibleChain σ) (hd : downOf σ x = some j) :
    j ∈ visibleChain σ := by
  rcases chainFrom_down_mem σ σ.len 0 x j hx hd with hj | hlast
  · exact hj
  · exfalso
    obtain ⟨t, ht, hdt⟩ := chainFrom_complete σ h 0 h.len_pos
    rw [hlast] at ht
    have hxt : x = t := Option.some.inj ht
    subst hxt
    rw [hd] at hdt
    exact Option.noConfusion hdt

theorem downOf_eq_cases (σ : TState) (r j : Nat) (hd : downOf σ r = some j) :
    ((getN σ r).isDir = true ∧ (getN σ r).expanded = true ∧
      (getN σ r).childDown = some j) ∨
    (¬ ((getN σ r).isDir = true ∧ (getN σ r).expanded = true) ∧
      (getN σ r).slDown = some j) := by
  simp only [downOf] at hd
  by_cases h1 : (getN σ r).isDir = true
  · rw [if_pos h1] at hd
    by_cases h2 : (getN σ r).expanded = true
    · rw [if_pos h2] at hd
      exact Or.inl ⟨h1, h2, hd⟩
    · rw [if_neg h2] at hd
      exact Or.inr ⟨fun hc => h2 hc.2, hd⟩
  · rw [if_neg h1] at hd
    exact Or.inr ⟨fun hc => h1 hc.1, hd⟩

theorem Inv.exp_dir (σ : TState) (hI : Inv σ) (q : Nat) (hq : q < σ.len)
    (h : (getN σ q).expanded = true) : (getN σ q).isDir = true := by
  cases hv : (getN σ q).isDir
  · have hb := (hI.leaf_blank q hq hv).2.2.1
    rw [h] at hb
    exact Bool.noConfusion hb
  · rfl

/-- Every strict ancestor of a node on the visible chain is itself on the
visible chain and expanded. -/
theorem chain_anc_aux (σ : TState) (hI : Inv σ) : ∀ fuel r, r < σ.len →
    r ∈ visibleChain σ →
    (∀ a, Anc σ a r → a ∈ visibleChain σ ∧ (getN σ a).expanded = true) →
    ∀ w, w ∈ chainFrom σ fuel r →
    ∀ a, Anc σ a w → a ∈ visibleChain σ ∧ (getN σ a).expanded = true := by
  intro fuel
  induction fuel with
  | zero =>
    intro r hr hrv hra w hw
    simp [chainFrom] at hw
    subst hw
    exact hra
  | succ fuel ih =>
    intro r hr hrv hra w hw
    simp only [chainFrom] at hw
    cases hd : downOf σ r with
    | none =>
      simp only [hd] at hw
      simp at hw
      subst hw
      exact hra
    | some j =>
      simp only [hd, List.mem_cons] at hw
      rcases hw with rfl | hw
      · exact hra
      · have hjl : j < σ.len := downOf_lt σ hI.toWfR r j hr hd
        have hjv : j ∈ visibleChain σ := vis_down_closed σ hI.toWfR r j hrv hd
        have hja : ∀ a, Anc σ a j →
            a ∈ visibleChain σ ∧ (getN σ a).expanded = true := by
          rcases downOf_eq_cases σ r j hd with ⟨hdir, hexp, hcd⟩ | ⟨_, hsd⟩
          · have hpj : (getN σ j).parent = some r := hI.cd_parent r j hr hcd
            intro a ha
            rw [Anc_iff] at ha
            obtain ⟨q, hq, hcase⟩ := ha
            rw [hpj] at hq
            have hqr : r = q := Option.some.inj hq
            subst hqr
            rcases hcase with rfl | hanc
            · exact ⟨hrv, hexp⟩
            · exact hra a hanc
          · have hP := hI.parent_lt
            set t := upTop σ σ.len r with hteq
            have htle := upTop_le σ hP σ.len r hr
            have htsd : (getN σ t).slDown = some j := by
              rw [hteq, upTop_sd σ hP hI.lc_sd σ.len r hr, hsd]
            have htop : ¬ isLastChildN σ t :=
              upTop_top σ hP hI.lc_parent σ.len r hr hr
            have hsib : (getN σ j).parent = (getN σ t).parent :=
              hI.top_sibling t j htle.2 ⟨htsd, htop⟩
            intro a ha
            have hat : Anc σ a t := by
              rw [Anc_iff] at ha
              obtain ⟨q, hq, hcase⟩ := ha
              rw [hsib] at hq
              rcases hcase with rfl | hanc
              · exact Anc.parent a t hq
              · exact Anc.step a q t hq hanc
            rcases upTop_anc σ σ.len r with heq | htr
            · rw [hteq, heq] at hat
              exact hra a hat
            · rw [← hteq] at htr
              exact hra a (anc_trans σ a t r hat htr)
        exact ih j hjl hjv hja w hw

theorem chain_anc (σ : TState) (hI : Inv σ) (w : Nat)
    (hw : w ∈ visibleChain σ) :
    ∀ a, Anc σ a w → a ∈ visibleChain σ ∧ (getN σ a).expanded = true := by
  refine chain_anc_aux σ hI σ.len 0 hI.len_pos (chainFrom_self_mem σ _ 0)
    ?_ w hw
  intro a ha
  rw [Anc_iff] at ha
  obtain ⟨q, hq, _⟩ := ha
  rw [hI.root_parent] at hq
  exact Option.noConfusion hq

/-- The splice invariant, read off the full invariant: moving down from a
node whose ancestors are all expanded lands on an entry whose
`_same_level_up` points straight back. -/
theorem down_up (σ : TState) (hI : Inv σ) (E F : Nat) (hE : E < σ.len)
    (hanc : ∀ a, Anc σ a E → (getN σ a).expanded = true)
    (hd : downOf σ E = some F) : (getN σ F).slUp = some E := by
  rcases downOf_eq_cases σ E F hd with ⟨_, _, hcd⟩ | ⟨hnot, hsd⟩
  · exact hI.cd_up E F hE hcd
  · have hP := hI.parent_lt
    set t := upTop σ σ.len E with hteq
    have htle := upTop_le σ hP σ.len E hE
    have htsd : (getN σ t).slDown = some F := by
      rw [hteq, upTop_sd σ hP hI.lc_sd σ.len E hE, hsd]
    have htop : ¬ isLastChildN σ t :=
      upTop_top σ hP hI.lc_parent σ.len E hE hE
    have hup := hI.top_up t F htle.2 ⟨htsd, htop⟩
    rw [hup, hteq]
    have hlc2 : ∀ q, q < σ.len → ∀ u, (getN σ q).lastChild = some u →
        q < u ∧ u < σ.len := fun q hq u hu => hI.lc_range q hq u hu
    have hleaf2 : ∀ q, q < σ.len → (getN σ q).expanded = true →
        (getN σ q).isDir = true := fun q hq h => Inv.exp_dir σ hI q hq h
    rw [dtQ_upTop_eq σ hP hlc2 hleaf2 σ.len E hE hE hanc]
    exact dtQ_stop σ E hE hnot

theorem isLastChildN_congr (σ σ' : TState) (hlen : σ'.len = σ.len)
    (hlc : ∀ q, (getN σ' q).lastChild = (getN σ q).lastChild) (i : Nat) :
    isLastChildN σ' i ↔ isLastChildN σ i := by
  constructor
  · rintro ⟨k, hk, h⟩
    exact ⟨k, by omega, by rw [← hlc k]; exact h⟩
  · rintro ⟨k, hk, h⟩
    exact ⟨k, by omega, by rw [hlc k]; exact h⟩

theorem topLink_congr (σ σ' : TState) (hlen : σ'.len = σ.len)
    (hlc : ∀ q, (getN σ' q).lastChild = (getN σ q).lastChild)
    (hsd : ∀ q, (getN σ' q).slDown = (getN σ q).slDown) (i j : Nat) :
    topLink σ' i j ↔ topLink σ i j := by
  unfold topLink
  rw [hsd i, isLastChildN_congr σ σ' hlen hlc i]

theorem dtQ_lt (σ : TState)
    (hlc : ∀ q, q < σ.len → ∀ u, (getN σ q).lastChild = some u →
      q < u ∧ u < σ.len) :
    ∀ f t x, t < σ.len → dtQ σ f t = some x → x < σ.len := by
  intro f
  induction f with
  | zero =>
    intro t x _ h
    exact Option.noConfusion h
  | succ f ih =>
    intro t x ht h
    simp only [dtQ] at h
    by_cases hcond : (getN σ t).isDir = true ∧ (getN σ t).expanded = true
    · rw [if_pos hcond] at h
      cases hu : (getN σ t).lastChild with
      | none =>
        rw [hu] at h
        exact Option.noConfusion h
      | some u =>
        rw [hu] at h
        exact ih u x (hlc t ht u hu).2 h
    · rw [if_neg hcond] at h
      have := Option.some.inj h
      omega

/-- Transporting the invariant across a change of focus flags only. -/
theorem Inv_refocus (σ σ' : TState) (hI : Inv σ) (hlen : σ'.len = σ.len)
    (hpar : ∀ q, (getN σ' q).parent = (getN σ q).parent)
    (hdir : ∀ q, (getN σ' q).isDir = (getN σ q).isDir)
    (hcd : ∀ q, (getN σ' q).childDown = (getN σ q).childDown)
    (hlc : ∀ q, (getN σ' q).lastChild = (getN σ q).lastChild)
    (hsd : ∀ q, (getN σ' q).slDown = (getN σ q).slDown)
    (hsu : ∀ q, (getN σ' q).slUp = (getN σ q).slUp)
    (hexp : ∀ q, (getN σ' q).expanded = (getN σ q).expanded)
    (hld : ∀ q, (getN σ' q).loaded = (getN σ q).loaded ∨
      ((getN σ' q).loaded = true ∧ (getN σ q).isDir = true))
    (hfoc_lt : σ'.focus < σ'.len)
    (hfoc_vis : σ'.focus ∈ visibleChain σ) : Inv σ' := by
  have hdown : ∀ q, downOf σ' q = downOf σ q := fun q =>
    downOf_congr σ σ' q (hdir q) (hexp q) (hcd q) (hsd q)
  have hchain : ∀ fuel r, chainFrom σ' fuel r = chainFrom σ fuel r :=
    chainFrom_congr σ σ' hdown
  have htl : ∀ i j, topLink σ' i j ↔ topLink σ i j :=
    topLink_congr σ σ' hlen hlc hsd
  have hdtq : ∀ f t, t < σ.len → dtQ σ' f t = dtQ σ f t := by
    refine dtQ_congr σ σ' σ.len ?_ ?_
    · intro q _
      exact ⟨hdir q, hexp q, fun _ => hlc q⟩
    · intro q hq u hu
      exact (hI.lc_range q hq u hu).2
  refine ⟨by omega, hfoc_lt, ?_, ?_, ?_, ?_, ?_, ?_, ?_, ?_, ?_, ?_, ?_, ?_,
    ?_, ?_, ?_, ?_, ?_, ?_, ?_, ?_, ?_, ?_⟩
  · intro j hj p hp
    rw [hlen] at hj
    rw [hpar j] at hp
    exact hI.parent_lt j hj p hp
  · intro i hi hp
    rw [hlen] at hi
    rw [hpar i] at hp
    exact hI.parent_none_root i hi hp
  · rw [hpar 0]
    exact hI.root_parent
  · rw [hsd 0]
    exact hI.root_sd
  · rw [hsu 0]
    exact hI.root_su
  · intro i hi
    rw [hlen] at hi
    rw [hsd i]
    exact hI.sd_ne_root i hi
  · intro i hi j hj
    rw [hlen] at hi
    rw [hcd i] at hj
    have := hI.cd_range i hi j hj
    omega
  · intro i hi j hj
    rw [hlen] at hi
    rw [hlc i] at hj
    have := hI.lc_range i hi j hj
    omega
  · intro i hi j hj
    rw [hlen] at hi
    rw [hsd i] at hj
    have := hI.sd_lt i hi j hj
    omega
  · intro i hi j hj
    rw [hlen] at hi
    rw [hsu i] at hj
    have := hI.su_lt i hi j hj
    omega
  · intro i j hi hj
    rw [hlen] at hi
    rw [hcd i] at hj
    rw [hpar j]
    exact hI.cd_parent i j hi hj
  · intro i j hi hj
    rw [hlen] at hi
    rw [hlc i] at hj
    rw [hpar j]
    exact hI.lc_parent i j hi hj
  · intro i j hi hj
    rw [hlen] at hi
    rw [hlc i] at hj
    rw [hsd j, hsd i]
    exact hI.lc_sd i j hi hj
  · intro i j hi hj
    rw [hlen] at hi
    rw [htl i j] at hj
    rw [hpar j, hpar i]
    exact hI.top_sibling i j hi hj
  · intro i hi hl
    rw [hlen] at hi
    have hl0 : (getN σ i).loaded = false := by
      rcases hld i with he | ⟨ht, _⟩
      · rw [← he]; exact hl
      · rw [ht] at hl; exact Bool.noConfusion hl
    obtain ⟨h1, h2, h3⟩ := hI.unloaded_blank i hi hl0
    exact ⟨by rw [hcd i]; exact h1, by rw [hlc i]; exact h2,
      by rw [hexp i]; exact h3⟩
  · intro i hi hd
    rw [hlen] at hi
    rw [hdir i] at hd
    obtain ⟨h1, h2, h3, h4⟩ := hI.leaf_blank i hi hd
    refine ⟨by rw [hcd i]; exact h1, by rw [hlc i]; exact h2,
      by rw [hexp i]; exact h3, ?_⟩
    rcases hld i with he | ⟨_, hdi⟩
    · rw [he]; exact h4
    · rw [hdi] at hd; exact Bool.noConfusion hd
  · intro p t j hp ht hcdp
    rw [hlen] at hp ht
    rw [hcd p] at hcdp
    rw [hsd t]
    exact hI.cd_sd_excl p t j hp ht hcdp
  · intro i i' j hi hi' h1 h2
    rw [hlen] at hi hi'
    rw [htl i j] at h1
    rw [htl i' j] at h2
    exact hI.top_inj i i' j hi hi' h1 h2
  · intro i j hi hj
    rw [hlen] at hi
    rw [hcd i] at hj
    rw [hsu j]
    exact hI.cd_up i j hi hj
  · intro i j hi hj
    rw [hlen] at hi
    rw [htl i j] at hj
    rw [hsu j, hlen, hdtq σ.len i hi]
    exact hI.top_up i j hi hj
  · obtain ⟨r, hr⟩ := hI.rank
    refine ⟨r, ?_⟩
    intro i hi
    rw [hlen] at hi
    refine ⟨fun j hj => (hr i hi).1 j (by rw [← hcd i]; exact hj),
      fun j hj => (hr i hi).2 j (by rw [← hsd i]; exact hj)⟩
  · show σ'.focus ∈ chainFrom σ' σ'.len 0
    rw [hlen, hchain σ.len 0]
    exact hfoc_vis

/-- Transporting the invariant across a collapse/expand splice at the
focused container `E`: the expansion flag flips at `E` only, and the only
`_same_level_up` write is at `E`'s resume target, which receives exactly
the new deepest visible tail of `E`'s subtree-end chain. -/
theorem Inv_splice (σ σ' : TState) (hI : Inv σ) (E : Nat)
    (hEfoc : E = σ.focus) (hlen : σ'.len = σ.len) (hfocus : σ'.focus = σ.focus)
    (hpar : ∀ q, (getN σ' q).parent = (getN σ q).parent)
    (hdir : ∀ q, (getN σ' q).isDir = (getN σ q).isDir)
    (hcd : ∀ q, (getN σ' q).childDown = (getN σ q).childDown)
    (hlc : ∀ q, (getN σ' q).lastChild = (getN σ q).lastChild)
    (hsd : ∀ q, (getN σ' q).slDown = (getN σ q).slDown)
    (hld : ∀ q, (getN σ' q).loaded = (getN σ q).loaded)
    (hexp : ∀ q, q ≠ E → (getN σ' q).expanded = (getN σ q).expanded)
    (hEdir : (getN σ E).isDir = true)
    (hEunl : (getN σ' E).loaded = false → (getN σ' E).expanded = false)
    (hsu : ∀ q, (getN σ E).slDown ≠ some q →
      (getN σ' q).slUp = (getN σ q).slUp)
    (hsuR : ∀ R, (getN σ E).slDown = some R →
      (getN σ' R).slUp = dtQ σ' σ'.len (upTop σ' σ'.len E)) : Inv σ' := by
  have hE : E < σ.len := hEfoc ▸ hI.focus_lt
  have htl : ∀ i j, topLink σ' i j ↔ topLink σ i j :=
    topLink_congr σ σ' hlen hlc hsd
  have hlcb : ∀ q, q < σ.len → ∀ u, (getN σ q).lastChild = some u →
      q < u ∧ u < σ.len := fun q hq u hu => hI.lc_range q hq u hu
  have hlcb' : ∀ q, q < σ'.len → ∀ u, (getN σ' q).lastChild = some u →
      q < u ∧ u < σ'.len := by
    intro q hq u hu
    rw [hlc q] at hu
    have := hlcb q (by omega) u hu
    omega
  have hP' : ParentWF σ' := by
    intro j hj p hp
    rw [hlen] at hj
    rw [hpar j] at hp
    exact hI.parent_lt j hj p hp
  have hflip : ∀ f t, t < σ.len → dtQ σ' f t = dtQ σ f t ∨
      (getN σ t).slDown = (getN σ E).slDown := by
    refine dtQ_flip σ σ' E (fun q => ⟨hdir q, hlc q, hsd q⟩) hexp ?_
    intro q hq u hu
    exact ⟨(hlcb q hq u hu).2, hI.lc_sd q u hq hu⟩
  have hanc_exp : ∀ a, Anc σ a E → (getN σ a).expanded = true := by
    intro a ha
    exact (chain_anc σ hI E (hEfoc ▸ hI.focus_vis) a ha).2
  refine ⟨by omega, by rw [hfocus, hlen]; exact hI.focus_lt, hP', ?_, ?_, ?_,
    ?_, ?_, ?_, ?_, ?_, ?_, ?_, ?_, ?_, ?_, ?_, ?_, ?_, ?_, ?_, ?_, ?_, ?_⟩
  · intro i hi hp
    rw [hlen] at hi
    rw [hpar i] at hp
    exact hI.parent_none_root i hi hp
  · rw [hpar 0]
    exact hI.root_parent
  · rw [hsd 0]
    exact hI.root_sd
  · rw [hsu 0 (hI.sd_ne_root E hE)]
    exact hI.root_su
  · intro i hi
    rw [hlen] at hi
    rw [hsd i]
    exact hI.sd_ne_root i hi
  · intro i hi j hj
    rw [hlen] at hi
    rw [hcd i] at hj
    have := hI.cd_range i hi j hj
    omega
  · intro i hi j hj
    rw [hlen] at hi
    rw [hlc i] at hj
    have := hI.lc_range i hi j hj
    omega
  · intro i hi j hj
    rw [hlen] at hi
    rw [hsd i] at hj
    have := hI.sd_lt i hi j hj
    omega
  · intro i hi j hj
    rw [hlen] at hi
    by_cases hiR : (getN σ E).slDown = some i
    · have := hsuR i hiR
      rw [this] at hj
      have hut := upTop_le σ' hP' σ'.len E (by omega)
      have := dtQ_lt σ' hlcb' σ'.len (upTop σ' σ'.len E) j hut.2 hj
      omega
    · rw [hsu i hiR] at hj
      have := hI.su_lt i hi j hj
      omega
  · intro i j hi hj
    rw [hlen] at hi
    rw [hcd i] at hj
    rw [hpar j]
    exact hI.cd_parent i j hi hj
  · intro i j hi hj
    rw [hlen] at hi
    rw [hlc i] at hj
    rw [hpar j]
    exact hI.lc_parent i j hi hj
  · intro i j hi hj
    rw [hlen] at hi
    rw [hlc i] at hj
    rw [hsd j, hsd i]
    exact hI.lc_sd i j hi hj
  · intro i j hi hj
    rw [hlen] at hi
    rw [htl i j] at hj
    rw [hpar j, hpar i]
    exact hI.top_sibling i j hi hj
  · intro i hi hl
    rw [hlen] at hi
    by_cases hiE : i = E
    · subst hiE
      have hl0 : (getN σ i).loaded = false := by rw [← hld i]; exact hl
      obtain ⟨h1, h2, _⟩ := hI.unloaded_blank i hi hl0
      exact ⟨by rw [hcd i]; exact h1, by rw [hlc i]; exact h2, hEunl hl⟩
    · have hl0 : (getN σ i).loaded = false := by rw [← hld i]; exact hl
      obtain ⟨h1, h2, h3⟩ := hI.unloaded_blank i hi hl0
      exact ⟨by rw [hcd i]; exact h1, by rw [hlc i]; exact h2,
        by rw [hexp i hiE]; exact h3⟩
  · intro i hi hd
    rw [hlen] at hi
    rw [hdir i] at hd
    by_cases hiE : i = E
    · subst hiE
      rw [hEdir] at hd
      exact Bool.noConfusion hd
    · obtain ⟨h1, h2, h3, h4⟩ := hI.leaf_blank i hi hd
      exact ⟨by rw [hcd i]; exact h1, by rw [hlc i]; exact h2,
        by rw [hexp i hiE]; exact h3, by rw [hld i]; exact h4⟩
  · intro p t j hp ht hcdp
    rw [hlen] at hp ht
    rw [hcd p] at hcdp
    rw [hsd t]
    exact hI.cd_sd_excl p t j hp ht hcdp
  · intro i i' j hi hi' h1 h2
    rw [hlen] at hi hi'
    rw [htl i j] at h1
    rw [htl i' j] at h2
    exact hI.top_inj i i' j hi hi' h1 h2
  · intro i j hi hj
    rw [hlen] at hi
    rw [hcd i] at hj
    have hjne : (getN σ E).slDown ≠ some j :=
      hI.cd_sd_excl i E j hi hE hj
    rw [hsu j hjne]
    exact hI.cd_up i j hi hj
  · intro t j ht htlj
    rw [hlen] at ht
    rw [htl t j] at htlj
    by_cases hjR : (getN σ E).slDown = some j
    · have htopE : topLink σ (upTop σ σ.len E) j := by
        refine ⟨?_, upTop_top σ hI.parent_lt hI.lc_parent σ.len E hE hE⟩
        rw [upTop_sd σ hI.parent_lt hI.lc_sd σ.len E hE]
        exact hjR
      have htE : t = upTop σ σ.len E :=
        hI.top_inj t (upTop σ σ.len E) j ht
          (upTop_le σ hI.parent_lt σ.len E hE).2 htlj htopE
      have hu' : upTop σ' σ'.len E = upTop σ σ'.len E :=
        upTop_congr σ σ' (fun q => ⟨hpar q, hlc q⟩) σ'.len E
      have hu'' : upTop σ σ'.len E = upTop σ σ.len E := by rw [hlen]
      rw [hsuR j hjR, hu', hu'', ← htE]
    · rw [hsu j hjR]
      rcases hflip σ'.len t ht with heq | hsdE
      · rw [heq, hlen]
        exact hI.top_up t j ht htlj
      · exfalso
        rw [htlj.1] at hsdE
        exact hjR hsdE.symm
  · obtain ⟨r, hr⟩ := hI.rank
    refine ⟨r, ?_⟩
    intro i hi
    rw [hlen] at hi
    refine ⟨fun j hj => (hr i hi).1 j (by rw [← hcd i]; exact hj),
      fun j hj => (hr i hi).2 j (by rw [← hsd i]; exact hj)⟩
  · show σ'.focus ∈ chainFrom σ' σ'.len 0
    rw [hlen, hfocus, ← hEfoc]
    refine chainFrom_mem_stable σ σ' σ.len 0 E (hEfoc ▸ hI.focus_vis) ?_
    intro y _ hyE
    exact downOf_congr σ σ' y (hdir y) (hexp y hyE) (hcd y) (hsd y)

theorem Inv_moveOp (σ : TState) (hI : Inv σ) (d : Int) : Inv (moveOp σ d) := by
  have href : ∀ F : Nat, F < σ.len → F ∈ visibleChain σ →
      Inv (setFocusTo σ (some F)) := by
    intro F hFl hFv
    refine Inv_refocus σ _ hI (setFocusTo_len σ _)
      (fun q => setFocusTo_proj σ _ q NodeObj.parent (fun _ _ => rfl))
      (fun q => setFocusTo_proj σ _ q NodeObj.isDir (fun _ _ => rfl))
      (fun q => setFocusTo_proj σ _ q NodeObj.childDown (fun _ _ => rfl))
      (fun q => setFocusTo_proj σ _ q NodeObj.lastChild (fun _ _ => rfl))
      (fun q => setFocusTo_proj σ _ q NodeObj.slDown (fun _ _ => rfl))
      (fun q => setFocusTo_proj σ _ q NodeObj.slUp (fun _ _ => rfl))
      (fun q => setFocusTo_proj σ _ q NodeObj.expanded (fun _ _ => rfl))
      (fun q => Or.inl (setFocusTo_proj σ _ q NodeObj.loaded (fun _ _ => rfl)))
      ?_ ?_
    · rw [setFocusTo_len σ _]
      exact hFl
    · exact hFv
  simp only [moveOp]
  by_cases hd1 : d = -1
  · rw [if_pos hd1]
    cases hu : upOf σ σ.focus with
    | none => exact hI
    | some F =>
      by_cases hf0 : σ.focus = 0
      · exfalso
        rw [hf0] at hu
        unfold upOf at hu
        rw [hI.root_su] at hu
        exact Option.noConfusion hu
      · obtain ⟨w, hw, hdw⟩ :=
          chainFrom_pred σ σ.len 0 σ.focus hI.focus_vis hf0
        have hwlen : w < σ.len :=
          chainFrom_mem_lt σ hI.toWfR σ.len 0 hI.len_pos w hw
        have hanc_w : ∀ a, Anc σ a w → (getN σ a).expanded = true :=
          fun a ha => (chain_anc σ hI w hw a ha).2
        have hback := down_up σ hI w σ.focus hwlen hanc_w hdw
        have hFw : F = w := by
          unfold upOf at hu
          rw [hback] at hu
          exact (Option.some.inj hu).symm
        subst hFw
        exact href F hwlen hw
  · rw [if_neg hd1]
    cases hdn : downOf σ σ.focus with
    | none => exact hI
    | some F =>
      exact href F (downOf_lt σ hI.toWfR σ.focus F hI.focus_lt hdn)
        (vis_down_closed σ hI.toWfR σ.focus F hI.focus_vis hdn)

theorem Inv_nodeExit (σ : TState) (hI : Inv σ) : Inv (nodeExit σ σ.focus) := by
  have hE : σ.focus < σ.len := hI.focus_lt
  by_cases hcond : (getN σ σ.focus).isDir = true ∧
      (getN σ σ.focus).expanded = true
  · rw [nodeExit_collapse σ σ.focus hcond.1 hcond.2]
    cases hsdE : (getN σ σ.focus).slDown with
    | none =>
      dsimp only
      refine Inv_splice σ _ hI σ.focus rfl (len_modify σ _ _)
        (focus_modify σ _ _)
        (fun q => getN_modify_proj σ _ q
          (fun nd => { nd with expanded := false }) NodeObj.parent
          (fun _ => rfl))
        (fun q => getN_modify_proj σ _ q
          (fun nd => { nd with expanded := false }) NodeObj.isDir
          (fun _ => rfl))
        (fun q => getN_modify_proj σ _ q
          (fun nd => { nd with expanded := false }) NodeObj.childDown
          (fun _ => rfl))
        (fun q => getN_modify_proj σ _ q
          (fun nd => { nd with expanded := false }) NodeObj.lastChild
          (fun _ => rfl))
        (fun q => getN_modify_proj σ _ q
          (fun nd => { nd with expanded := false }) NodeObj.slDown
          (fun _ => rfl))
        (fun q => getN_modify_proj σ _ q
          (fun nd => { nd with expanded := false }) NodeObj.loaded
          (fun _ => rfl))
        ?_ hcond.1 ?_ ?_ ?_
      · intro q hq
        exact congrArg NodeObj.expanded (getN_modify_ne σ σ.focus q
          (fun nd => { nd with expanded := false }) (Ne.symm hq))
      · intro _
        rw [setExpanded, getN_modify_self σ σ.focus _ hE]
      · intro q _
        exact getN_modify_proj σ _ q
          (fun nd => { nd with expanded := false }) NodeObj.slUp
          (fun _ => rfl)
      · intro R hR
        rw [hsdE] at hR
        exact Option.noConfusion hR
    | some R =>
      dsimp only
      have hRlt : R < σ.len := hI.sd_lt σ.focus hE R hsdE
      set σ1 := setSlUp σ R (some σ.focus) with hσ1
      set σ' := setExpanded σ1 σ.focus false with hσ'
      have hA : ∀ {α : Type} (F : NodeObj → α),
          (∀ nd (v : Bool), F { nd with expanded := v } = F nd) →
          (∀ nd (v : Option Nat), F { nd with slUp := v } = F nd) →
          ∀ q, F (getN σ' q) = F (getN σ q) := by
        intro α F h1 h2 q
        rw [hσ', setExpanded,
          getN_modify_proj σ1 _ q (fun nd => { nd with expanded := false })
            F (fun nd => h1 nd false),
          hσ1, setSlUp,
          getN_modify_proj σ _ q (fun nd => { nd with slUp := some σ.focus })
            F (fun nd => h2 nd (some σ.focus))]
      have hpar := hA NodeObj.parent (fun _ _ => rfl) (fun _ _ => rfl)
      have hlc := hA NodeObj.lastChild (fun _ _ => rfl) (fun _ _ => rfl)
      have hexpE : (getN σ' σ.focus).expanded = false := by
        rw [hσ', setExpanded, getN_modify_self σ1 σ.focus _
          (by rw [hσ1, setSlUp, len_modify]; exact hE)]
      have hexp_ne : ∀ q, q ≠ σ.focus →
          (getN σ' q).expanded = (getN σ q).expanded := by
        intro q hq
        rw [hσ', setExpanded]
        rw [congrArg NodeObj.expanded (getN_modify_ne σ1 σ.focus q
          (fun nd => { nd with expanded := false }) (Ne.symm hq))]
        rw [hσ1, setSlUp]
        exact getN_modify_proj σ _ q
          (fun nd => { nd with slUp := some σ.focus }) NodeObj.expanded
          (fun _ => rfl)
      have hlen' : σ'.len = σ.len := by
        rw [hσ', setExpanded, len_modify, hσ1, setSlUp, len_modify]
      have hP' : ParentWF σ' := by
        intro j hj p hp
        rw [hlen'] at hj
        rw [hpar j] at hp
        exact hI.parent_lt j hj p hp
      refine Inv_splice σ σ' hI σ.focus rfl hlen' ?_ hpar
        (hA NodeObj.isDir (fun _ _ => rfl) (fun _ _ => rfl))
        (hA NodeObj.childDown (fun _ _ => rfl) (fun _ _ => rfl))
        hlc
        (hA NodeObj.slDown (fun _ _ => rfl) (fun _ _ => rfl))
        (hA NodeObj.loaded (fun _ _ => rfl) (fun _ _ => rfl))
        hexp_ne hcond.1 (fun _ => hexpE) ?_ ?_
      · rw [hσ', setExpanded, focus_modify, hσ1, setSlUp, focus_modify]
      · intro q hq
        have hqR : q ≠ R := by
          intro he
          rw [he] at hq
          exact hq hsdE
        rw [hσ', setExpanded,
          getN_modify_proj σ1 σ.focus q (fun nd => { nd with expanded := false })
            NodeObj.slUp (fun _ => rfl),
          hσ1, setSlUp]
        exact congrArg NodeObj.slUp (getN_modify_ne σ R q
          (fun nd => { nd with slUp := some σ.focus }) (Ne.symm hqR))
      · intro R' hR'
        have hRR : R' = R := by
          rw [hsdE] at hR'
          exact (Option.some.inj hR').symm
        subst hRR
        have hsuRv : (getN σ' R').slUp = some σ.focus := by
          rw [hσ', setExpanded,
            getN_modify_proj σ1 σ.focus R'
              (fun nd => { nd with expanded := false })
              NodeObj.slUp (fun _ => rfl),
            hσ1, setSlUp, getN_modify_self σ R' _ hRlt]
        rw [hsuRv]
        have hlcb' : ∀ q, q < σ'.len → ∀ u, (getN σ' q).lastChild = some u →
            q < u ∧ u < σ'.len := by
          intro q hq u hu
          rw [hlc q] at hu
          rw [hlen'] at hq ⊢
          exact hI.lc_range q hq u hu
        have hleaf' : ∀ q, q < σ'.len → (getN σ' q).expanded = true →
            (getN σ' q).isDir = true := by
          intro q hq hexp
          by_cases hqE : q = σ.focus
          · subst hqE
            rw [hexpE] at hexp
            exact Bool.noConfusion hexp
          · rw [hexp_ne q hqE] at hexp
            rw [hA NodeObj.isDir (fun _ _ => rfl) (fun _ _ => rfl) q]
            rw [hlen'] at hq
            exact Inv.exp_dir σ hI q hq hexp
        have hanc' : ∀ a, Anc σ' a σ.focus →
            (getN σ' a).expanded = true := by
          intro a ha
          have haσ : Anc σ a σ.focus := (Anc_congr σ σ' hpar a σ.focus).mp ha
          have haE : a < σ.focus := anc_lt σ hI.parent_lt a σ.focus haσ hE
          rw [hexp_ne a (by omega)]
          exact (chain_anc σ hI σ.focus hI.focus_vis a haσ).2
        rw [dtQ_upTop_eq σ' hP' hlcb' hleaf' σ'.len σ.focus
          (by rw [hlen']; exact hE) (by rw [hlen']; exact hE) hanc']
        exact (dtQ_stop σ' σ.focus (by rw [hlen']; exact hE)
          (fun hc => by rw [hexpE] at hc; exact Bool.noConfusion hc.2)).symm
  · rw [nodeExit_bubble σ σ.focus hcond]
    cases hp : (getN σ σ.focus).parent with
    | none => exact hI
    | some p =>
      have hpE : p < σ.focus := hI.parent_lt σ.focus hE p hp
      have hpv := chain_anc σ hI σ.focus hI.focus_vis p
        (Anc.parent p σ.focus hp)
      refine Inv_refocus σ _ hI (setFocusTo_len σ _)
        (fun q => setFocusTo_proj σ _ q NodeObj.parent (fun _ _ => rfl))
        (fun q => setFocusTo_proj σ _ q NodeObj.isDir (fun _ _ => rfl))
        (fun q => setFocusTo_proj σ _ q NodeObj.childDown (fun _ _ => rfl))
        (fun q => setFocusTo_proj σ _ q NodeObj.lastChild (fun _ _ => rfl))
        (fun q => setFocusTo_proj σ _ q NodeObj.slDown (fun _ _ => rfl))
        (fun q => setFocusTo_proj σ _ q NodeObj.slUp (fun _ _ => rfl))
        (fun q => setFocusTo_proj σ _ q NodeObj.expanded (fun _ _ => rfl))
        (fun q => Or.inl (setFocusTo_proj σ _ q NodeObj.loaded (fun _ _ => rfl)))
        ?_ ?_
      · rw [setFocusTo_len σ _]
        show p < σ.len
        omega
      · exact hpv.1

theorem Inv_setLoaded (σ : TState) (hI : Inv σ) (i : Nat) (hi : i < σ.len)
    (hdir : (getN σ i).isDir = true) : Inv (setLoaded σ i true) := by
  refine Inv_refocus σ _ hI (len_modify σ _ _)
    (fun q => getN_modify_proj σ _ q (fun nd => { nd with loaded := true })
      NodeObj.parent (fun _ => rfl))
    (fun q => getN_modify_proj σ _ q (fun nd => { nd with loaded := true })
      NodeObj.isDir (fun _ => rfl))
    (fun q => getN_modify_proj σ _ q (fun nd => { nd with loaded := true })
      NodeObj.childDown (fun _ => rfl))
    (fun q => getN_modify_proj σ _ q (fun nd => { nd with loaded := true })
      NodeObj.lastChild (fun _ => rfl))
    (fun q => getN_modify_proj σ _ q (fun nd => { nd with loaded := true })
      NodeObj.slDown (fun _ => rfl))
    (fun q => getN_modify_proj σ _ q (fun nd => { nd with loaded := true })
      NodeObj.slUp (fun _ => rfl))
    (fun q => getN_modify_proj σ _ q (fun nd => { nd with loaded := true })
      NodeObj.expanded (fun _ => rfl))
    ?_ ?_ ?_
  · intro q
    by_cases hqi : q = i
    · subst hqi
      refine Or.inr ⟨?_, hdir⟩
      rw [setLoaded, getN_modify_self σ q _ hi]
    · exact Or.inl (congrArg NodeObj.loaded
        (getN_modify_ne σ i q (fun nd => { nd with loaded := true })
          (Ne.symm hqi)))
  · rw [setLoaded, len_modify, focus_modify]
    exact hI.focus_lt
  · rw [setLoaded, focus_modify]
    exact hI.focus_vis

/-- Full invariant preservation across the construction-and-linking step of
`load_children` on a not-yet-loaded container. -/
theorem Inv_loadCore (σ : TState) (hI : Inv σ) (i : Nat) (hi : i < σ.len)
    (hdir : (getN σ i).isDir = true) (hnl : (getN σ i).loaded = false)
    (specs : List FsTree) : Inv (loadCore σ i specs) := by
  obtain ⟨hcdN, hlcN, hexpN⟩ := hI.unloaded_blank i hi hnl
  rcases hsp : specs with _ | ⟨c0, rest⟩
  · have h0 : loadCore σ i [] = setLoaded σ i true := by
      show setLoaded { σ with nodes := σ.nodes ++ List.map (mkChild (getN σ i).path ((getN σ i).level + 1) i) [] } i true = setLoaded σ i true
      rw [List.map_nil, List.append_nil]
    rw [h0]
    exact Inv_setLoaded σ hI i hi hdir
  · rw [← hsp]
    have hn0 : specs.length ≠ 0 := by rw [hsp]; simp
    obtain ⟨hlen, hfoc, hme, hframe, hself, hkids⟩ := loadCore_spec σ i specs hi
    set σ' := loadCore σ i specs with hσ'
    set n := specs.length with hn
    have hn1 : 1 ≤ n := by omega
    have hselfR : getN σ' i = { getN σ i with
        childDown := some σ.len
        lastChild := some (σ.len + n - 1)
        loaded := true } := by
      rw [hself, if_neg hn0, if_neg hn0]
    have hkid : ∀ k, k < n → ∃ c : FsTree, getN σ' (σ.len + k) =
        { mkChild (getN σ i).path ((getN σ i).level + 1) i c with
          slUp := some (if k = 0 then i else σ.len + k - 1)
          slDown := if k + 1 = n then (getN σ i).slDown
                    else some (σ.len + k + 1) } := by
      intro k hk
      exact ⟨specs.get ⟨k, hk⟩, hkids k _ (List.getElem?_eq_getElem hk)⟩
    have hfresh : ∀ q, σ.len ≤ q → q < σ.len + n →
        (getN σ' q).parent = some i ∧
        (getN σ' q).childDown = none ∧
        (getN σ' q).lastChild = none ∧
        (getN σ' q).expanded = false ∧
        (getN σ' q).loaded = false ∧
        (getN σ' q).slUp = some (if q = σ.len then i else q - 1) ∧
        (q + 1 = σ.len + n → (getN σ' q).slDown = (getN σ i).slDown) ∧
        (q + 1 < σ.len + n → (getN σ' q).slDown = some (q + 1)) := by
      intro q h1 h2
      obtain ⟨c, hc⟩ := hkid (q - σ.len) (by omega)
      have hq : σ.len + (q - σ.len) = q := by omega
      rw [hq] at hc
      rw [hc]
      refine ⟨rfl, rfl, rfl, rfl, rfl, ?_, ?_, ?_⟩
      · show some (if q - σ.len = 0 then i else q - 1) =
          some (if q = σ.len then i else q - 1)
        by_cases hq0 : q = σ.len
        · rw [if_pos (by omega : q - σ.len = 0), if_pos hq0]
        · rw [if_neg (by omega : ¬ q - σ.len = 0), if_neg hq0]
      · intro hqe
        show (if q - σ.len + 1 = n then (getN σ i).slDown
          else some (q + 1)) = (getN σ i).slDown
        rw [if_pos (by omega : q - σ.len + 1 = n)]
      · intro hlt
        show (if q - σ.len + 1 = n then (getN σ i).slDown
          else some (q + 1)) = some (q + 1)
        rw [if_neg (by omega : ¬ q - σ.len + 1 = n)]
    have hold : ∀ q, q < σ.len → q ≠ i → getN σ' q = getN σ q := hframe
    have holdpar : ∀ q, q < σ.len → (getN σ' q).parent = (getN σ q).parent := by
      intro q hq
      by_cases hqi : q = i
      · subst hqi
        rw [hselfR]
      · rw [hold q hq hqi]
    have holdsd : ∀ q, q < σ.len → (getN σ' q).slDown = (getN σ q).slDown := by
      intro q hq
      by_cases hqi : q = i
      · subst hqi
        rw [hselfR]
      · rw [hold q hq hqi]
    have holdsu : ∀ q, q < σ.len → (getN σ' q).slUp = (getN σ q).slUp := by
      intro q hq
      by_cases hqi : q = i
      · subst hqi
        rw [hselfR]
      · rw [hold q hq hqi]
    have holddir : ∀ q, q < σ.len → (getN σ' q).isDir = (getN σ q).isDir := by
      intro q hq
      by_cases hqi : q = i
      · subst hqi
        rw [hselfR]
      · rw [hold q hq hqi]
    have holdexp : ∀ q, q < σ.len →
        (getN σ' q).expanded = (getN σ q).expanded := by
      intro q hq
      by_cases hqi : q = i
      · subst hqi
        rw [hselfR]
      · rw [hold q hq hqi]
    have hcd' : ∀ x, ∀ y, (getN σ' x).childDown = some y →
        x < σ.len + n →
        (x = i ∧ y = σ.len) ∨
        (x < σ.len ∧ x ≠ i ∧ (getN σ x).childDown = some y) := by
      intro x y hy hx
      by_cases hxo : x < σ.len
      · by_cases hxi : x = i
        · subst hxi
          rw [hselfR] at hy
          exact Or.inl ⟨rfl, (Option.some.inj hy).symm⟩
        · exact Or.inr ⟨hxo, hxi, by rw [← hold x hxo hxi]; exact hy⟩
      · exfalso
        rw [(hfresh x (by omega) hx).2.1] at hy
        exact Option.noConfusion hy
    have hlc' : ∀ x, ∀ y, (getN σ' x).lastChild = some y →
        x < σ.len + n →
        (x = i ∧ y = σ.len + n - 1) ∨
        (x < σ.len ∧ x ≠ i ∧ (getN σ x).lastChild = some y) := by
      intro x y hy hx
      by_cases hxo : x < σ.len
      · by_cases hxi : x = i
        · subst hxi
          rw [hselfR] at hy
          exact Or.inl ⟨rfl, (Option.some.inj hy).symm⟩
        · exact Or.inr ⟨hxo, hxi, by rw [← hold x hxo hxi]; exact hy⟩
      · exfalso
        rw [(hfresh x (by omega) hx).2.2.1] at hy
        exact Option.noConfusion hy
    have hIsLC : ∀ t, isLastChildN σ' t →
        (t = σ.len + n - 1 ∨ isLastChildN σ t) := by
      rintro t ⟨x, hx, hxl⟩
      rw [hlen] at hx
      rcases hlc' x t hxl hx with ⟨_, hy⟩ | ⟨hxo, hxi, hlcx⟩
      · exact Or.inl hy
      · exact Or.inr ⟨x, hxo, hlcx⟩
    have hIsLC2 : ∀ t, isLastChildN σ t → isLastChildN σ' t := by
      rintro t ⟨x, hx, hxl⟩
      have hxi : x ≠ i := by
        intro he
        rw [he, hlcN] at hxl
        exact Option.noConfusion hxl
      refine ⟨x, by rw [hlen]; omega, ?_⟩
      rw [hold x hx hxi]
      exact hxl
    have hIsLCn : isLastChildN σ' (σ.len + n - 1) :=
      ⟨i, by rw [hlen]; omega, by rw [hselfR]⟩
    have hsd2 : ∀ t, t < σ.len + n → ∀ j, (getN σ' t).slDown = some j →
        (t < σ.len ∧ (getN σ t).slDown = some j) ∨
        (σ.len ≤ t ∧ t + 1 < σ.len + n ∧ j = t + 1) ∨
        (t = σ.len + n - 1 ∧ (getN σ i).slDown = some j) := by
      intro t ht j hj
      by_cases hto : t < σ.len
      · left
        rw [← holdsd t hto]
        exact ⟨hto, hj⟩
      · right
        by_cases hte : t + 1 = σ.len + n
        · right
          refine ⟨by omega, ?_⟩
          rw [← (hfresh t (by omega) ht).2.2.2.2.2.2.1 hte]
          exact hj
        · left
          refine ⟨by omega, by omega, ?_⟩
          rw [(hfresh t (by omega) ht).2.2.2.2.2.2.2 (by omega)] at hj
          exact (Option.some.inj hj).symm
    have htl' : ∀ t j, t < σ.len + n → topLink σ' t j →
        (t < σ.len ∧ topLink σ t j ∧ j < σ.len) ∨
        (σ.len ≤ t ∧ t + 1 < σ.len + n ∧ j = t + 1) := by
      intro t j ht htl
      obtain ⟨hsdt, hnlc⟩ := htl
      rcases hsd2 t ht j hsdt with ⟨hto, hsdo⟩ | ⟨h1, h2, h3⟩ | ⟨hte, hsdi⟩
      · left
        refine ⟨hto, ⟨hsdo, fun hc => hnlc (hIsLC2 t hc)⟩,
          hI.sd_lt t hto j hsdo⟩
      · exact Or.inr ⟨h1, h2, h3⟩
      · exfalso
        rw [hte] at hnlc
        exact hnlc hIsLCn
    have hagree : ∀ q, q < σ.len → (getN σ' q).isDir = (getN σ q).isDir ∧
        (getN σ' q).expanded = (getN σ q).expanded ∧
        ((getN σ q).expanded = true →
          (getN σ' q).lastChild = (getN σ q).lastChild) := by
      intro q hq
      refine ⟨holddir q hq, holdexp q hq, ?_⟩
      intro hexp
      have hqi : q ≠ i := by
        intro he
        rw [he, hexpN] at hexp
        exact Bool.noConfusion hexp
      rw [hold q hq hqi]
    have hdtq_eq : ∀ t, t < σ.len → dtQ σ' σ'.len t = dtQ σ σ.len t := by
      intro t ht
      have h1 : dtQ σ' σ'.len t = dtQ σ σ'.len t :=
        dtQ_congr σ σ' σ.len hagree
          (fun q hq u hu => (hI.lc_range q hq u hu).2) σ'.len t ht
      rw [h1]
      exact dtQ_fuel σ (fun q hq u hu => hI.lc_range q hq u hu) σ'.len t ht
        (by rw [hlen]; omega) σ.len (by omega)
    have hdown_old : ∀ y, y < σ.len → downOf σ' y = downOf σ y := by
      intro y hy
      by_cases hyi : y = i
      · rw [hyi] at hy ⊢
        simp only [downOf]
        rw [holddir i hy, holdexp i hy, holdsd i hy, hexpN]
        simp
      · have h := hold y hy hyi
        exact downOf_congr σ σ' y (by rw [h]) (by rw [h]) (by rw [h])
          (by rw [h])
    refine ⟨by omega, by rw [hfoc, hlen]; have := hI.focus_lt; omega,
      ?_, ?_, ?_, ?_, ?_, ?_, ?_, ?_, ?_, ?_, ?_, ?_, ?_, ?_, ?_, ?_, ?_,
      ?_, ?_, ?_, ?_, ?_⟩
    · intro j hj p hp
      rw [hlen] at hj
      by_cases hjo : j < σ.len
      · rw [holdpar j hjo] at hp
        exact hI.parent_lt j hjo p hp
      · rw [(hfresh j (by omega) hj).1] at hp
        have := Option.some.inj hp
        omega
    · intro q hq hp
      rw [hlen] at hq
      by_cases hqo : q < σ.len
      · rw [holdpar q hqo] at hp
        exact hI.parent_none_root q hqo hp
      · rw [(hfresh q (by omega) hq).1] at hp
        exact Option.noConfusion hp
    · rw [holdpar 0 hI.len_pos]
      exact hI.root_parent
    · rw [holdsd 0 hI.len_pos]
      exact hI.root_sd
    · rw [holdsu 0 hI.len_pos]
      exact hI.root_su
    · intro q hq
      rw [hlen] at hq
      by_cases hqo : q < σ.len
      · rw [holdsd q hqo]
        exact hI.sd_ne_root q hqo
      · intro hc
        rcases hsd2 q (by omega) 0 hc with ⟨h1, h2⟩ | ⟨_, _, h3⟩ | ⟨_, h2⟩
        · exact hI.sd_ne_root q h1 h2
        · omega
        · exact hI.sd_ne_root i hi h2
    · intro q hq j hj
      rw [hlen] at hq ⊢
      rcases hcd' q j hj hq with ⟨hqi, hje⟩ | ⟨hqo, hqi, hcdq⟩
      · subst hqi
        subst hje
        omega
      · have := hI.cd_range q hqo j hcdq
        omega
    · intro q hq j hj
      rw [hlen] at hq ⊢
      rcases hlc' q j hj hq with ⟨hqi, hje⟩ | ⟨hqo, hqi, hlcq⟩
      · subst hqi
        subst hje
        omega
      · have := hI.lc_range q hqo j hlcq
        omega
    · intro q hq j hj
      rw [hlen] at hq ⊢
      rcases hsd2 q hq j hj with ⟨h1, h2⟩ | ⟨_, _, h3⟩ | ⟨_, h2⟩
      · have := hI.sd_lt q h1 j h2
        omega
      · omega
      · have := hI.sd_lt i hi j h2
        omega
    · intro q hq j hj
      rw [hlen] at hq ⊢
      by_cases hqo : q < σ.len
      · rw [holdsu q hqo] at hj
        have := hI.su_lt q hqo j hj
        omega
      · rw [(hfresh q (by omega) hq).2.2.2.2.2.1] at hj
        have hje := Option.some.inj hj
        by_cases hqe : q = σ.len
        · rw [if_pos hqe] at hje
          omega
        · rw [if_neg hqe] at hje
          omega
    · intro q j hq hj
      rw [hlen] at hq
      rcases hcd' q j hj hq with ⟨hqi, hje⟩ | ⟨hqo, hqi, hcdq⟩
      · subst hqi
        subst hje
        exact (hfresh σ.len (by omega) (by omega)).1
      · have hjo : j < σ.len := (hI.cd_range q hqo j hcdq).2
        rw [holdpar j hjo]
        exact hI.cd_parent q j hqo hcdq
    · intro q j hq hj
      rw [hlen] at hq
      rcases hlc' q j hj hq with ⟨hqi, hje⟩ | ⟨hqo, hqi, hlcq⟩
      · subst hqi
        subst hje
        exact (hfresh (σ.len + n - 1) (by omega) (by omega)).1
      · have hjo : j < σ.len := (hI.lc_range q hqo j hlcq).2
        rw [holdpar j hjo]
        exact hI.lc_parent q j hqo hlcq
    · intro q j hq hj
      rw [hlen] at hq
      rcases hlc' q j hj hq with ⟨hqi, hje⟩ | ⟨hqo, hqi, hlcq⟩
      · subst hje
        rw [hqi, holdsd i hi]
        exact (hfresh (σ.len + n - 1) (by omega) (by omega)).2.2.2.2.2.2.1
          (by omega)
      · have hjo : j < σ.len := (hI.lc_range q hqo j hlcq).2
        rw [holdsd j hjo, holdsd q hqo]
        exact hI.lc_sd q j hqo hlcq
    · intro t j ht htl
      rw [hlen] at ht
      rcases htl' t j ht htl with ⟨hto, htlo, hjo⟩ | ⟨h1, h2, h3⟩
      · rw [holdpar j hjo, holdpar t hto]
        exact hI.top_sibling t j hto htlo
      · subst h3
        rw [(hfresh t (by omega) (by omega)).1,
          (hfresh (t + 1) (by omega) (by omega)).1]
    · intro q hq hl
      rw [hlen] at hq
      by_cases hqo : q < σ.len
      · by_cases hqi : q = i
        · subst hqi
          rw [hselfR] at hl
          exact Bool.noConfusion hl
        · rw [hold q hqo hqi] at hl ⊢
          exact hI.unloaded_blank q hqo hl
      · obtain ⟨_, h2, h3, h4, _, _⟩ := hfresh q (by omega) hq
        exact ⟨h2, h3, h4⟩
    · intro q hq hd
      rw [hlen] at hq
      by_cases hqo : q < σ.len
      · by_cases hqi : q = i
        · subst hqi
          rw [holddir q hqo, hdir] at hd
          exact Bool.noConfusion hd
        · rw [hold q hqo hqi] at hd ⊢
          exact hI.leaf_blank q hqo hd
      · obtain ⟨_, h2, h3, h4, h5, _⟩ := hfresh q (by omega) hq
        exact ⟨h2, h3, h4, h5⟩
    · intro p t j hp ht hcdp hsdt
      rw [hlen] at hp ht
      rcases hcd' p j hcdp hp with ⟨hpi, hje⟩ | ⟨hpo, hpi, hcdo⟩
      · subst hje
        rcases hsd2 t ht σ.len hsdt with ⟨h1, h2⟩ | ⟨_, _, h3⟩ | ⟨_, h2⟩
        · have := hI.sd_lt t h1 σ.len h2
          omega
        · omega
        · have := hI.sd_lt i hi σ.len h2
          omega
      · have hjo : j < σ.len := (hI.cd_range p hpo j hcdo).2
        rcases hsd2 t ht j hsdt with ⟨h1, h2⟩ | ⟨_, _, h3⟩ | ⟨_, h2⟩
        · exact hI.cd_sd_excl p t j hpo h1 hcdo h2
        · omega
        · exact hI.cd_sd_excl p i j hpo hi hcdo h2
    · intro t t' j ht ht' h1 h2
      rw [hlen] at ht ht'
      rcases htl' t j ht h1 with ⟨hto, htlo, hjo⟩ | ⟨ha1, ha2, ha3⟩
      · rcases htl' t' j ht' h2 with ⟨hto', htlo', _⟩ | ⟨hb1, hb2, hb3⟩
        · exact hI.top_inj t t' j hto hto' htlo htlo'
        · omega
      · rcases htl' t' j ht' h2 with ⟨hto', htlo', hjo'⟩ | ⟨hb1, hb2, hb3⟩
        · omega
        · omega
    · intro q j hq hj
      rw [hlen] at hq
      rcases hcd' q j hj hq with ⟨hqi, hje⟩ | ⟨hqo, hqi, hcdq⟩
      · subst hqi
        subst hje
        rw [(hfresh σ.len (by omega) (by omega)).2.2.2.2.2.1]
        rw [if_pos rfl]
      · have hjo : j < σ.len := (hI.cd_range q hqo j hcdq).2
        rw [holdsu j hjo]
        exact hI.cd_up q j hqo hcdq
    · intro t j ht htl
      rw [hlen] at ht
      rcases htl' t j ht htl with ⟨hto, htlo, hjo⟩ | ⟨h1, h2, h3⟩
      · rw [holdsu j hjo, hdtq_eq t hto]
        exact hI.top_up t j hto htlo
      · subst h3
        rw [(hfresh (t + 1) (by omega) (by omega)).2.2.2.2.2.1,
          if_neg (by omega : ¬ t + 1 = σ.len)]
        have hstop := dtQ_stop σ' t (by rw [hlen]; omega) ?_
        · rw [hstop]
          simp
        · intro hc
          rw [(hfresh t (by omega) (by omega)).2.2.2.1] at hc
          exact Bool.noConfusion hc.2
    · exact (WfR_loadCore σ i specs hI.toWfR hi).rank
    · show σ'.focus ∈ chainFrom σ' σ'.len 0
      rw [hfoc]
      have hmem : σ.focus ∈ chainFrom σ' σ.len 0 := by
        refine chainFrom_mem_stable σ σ' σ.len 0 σ.focus hI.focus_vis ?_
        intro y hy _
        exact hdown_old y
          (chainFrom_mem_lt σ hI.toWfR σ.len 0 hI.len_pos y hy)
      exact chainFrom_mem_mono σ' σ.len σ'.len 0 σ.focus
        (by rw [hlen]; omega) hmem

theorem Inv_loadChildren (fs : FsTree) (cfg : Config) (σ σ' : TState)
    (i : Nat) (hI : Inv σ) (hi : i < σ.len) (hdir : (getN σ i).isDir = true)
    (h : loadChildren fs cfg σ i = .ok σ') : Inv σ' := by
  by_cases hl : (getN σ i).loaded = true
  · rw [loadChildren_loaded fs cfg σ i hl] at h
    cases h
    exact hI
  · have hnl : (getN σ i).loaded = false := by
      cases hv : (getN σ i).loaded
      · rfl
      · exact absurd hv hl
    cases hls : listChildren fs cfg (getN σ i).path with
    | error e =>
      rw [loadChildren_err fs cfg σ i e hnl hls] at h
      exact Except.noConfusion h
    | ok listing =>
      rw [loadChildren_ok fs cfg σ i listing hnl hls] at h
      cases h
      exact Inv_loadCore σ hI i hi hdir hnl (sortByName listing)

theorem loadChildren_loadedAfter (fs : FsTree) (cfg : Config) (σ σ' : TState)
    (i : Nat) (hi : i < σ.len) (hok : loadChildren fs cfg σ i = .ok σ') :
    (getN σ' i).loaded = true := by
  by_cases hl : (getN σ i).loaded = true
  · rw [loadChildren_loaded fs cfg σ i hl] at hok
    cases hok
    exact hl
  · have hnl : (getN σ i).loaded = false := by
      cases hv : (getN σ i).loaded
      · rfl
      · exact absurd hv hl
    cases hls : listChildren fs cfg (getN σ i).path with
    | error e =>
      rw [loadChildren_err fs cfg σ i e hnl hls] at hok
      exact Except.noConfusion hok
    | ok listing =>
      rw [loadChildren_ok fs cfg σ i listing hnl hls] at hok
      cases hok
      obtain ⟨_, _, _, _, hself, _⟩ :=
        loadCore_spec σ i (sortByName listing) hi
      rw [hself]

/-- A successful load cannot manufacture an expanded last child: the
freshly created children all start collapsed. -/
theorem loadChildren_safe (fs : FsTree) (cfg : Config) (σ σ' : TState)
    (i : Nat) (hI : Inv σ) (hi : i < σ.len) (hsafe : safeEnter σ i)
    (hok : loadChildren fs cfg σ i = .ok σ') : safeEnter σ' i := by
  by_cases hl : (getN σ i).loaded = true
  · rw [loadChildren_loaded fs cfg σ i hl] at hok
    cases hok
    exact hsafe
  · have hnl : (getN σ i).loaded = false := by
      cases hv : (getN σ i).loaded
      · rfl
      · exact absurd hv hl
    obtain ⟨hcdN, hlcN, _⟩ := hI.unloaded_blank i hi hnl
    cases hls : listChildren fs cfg (getN σ i).path with
    | error e =>
      rw [loadChildren_err fs cfg σ i e hnl hls] at hok
      exact Except.noConfusion hok
    | ok listing =>
      rw [loadChildren_ok fs cfg σ i listing hnl hls] at hok
      cases hok
      obtain ⟨hlen, _, _, hold, hself, hkids⟩ :=
        loadCore_spec σ i (sortByName listing) hi
      intro L hL
      rw [hself] at hL
      dsimp only at hL
      by_cases hn0 : (sortByName listing).length = 0
      · rw [if_pos hn0, hlcN] at hL
        exact Option.noConfusion hL
      · rw [if_neg hn0] at hL
        have hLe : L = σ.len + (sortByName listing).length - 1 :=
          (Option.some.inj hL).symm
        obtain ⟨c, hc⟩ : ∃ c, (sortByName listing)[(sortByName listing).length - 1]? = some c :=
          ⟨_, List.getElem?_eq_getElem (by omega)⟩
        have hrec := hkids ((sortByName listing).length - 1) c hc
        have hidx : σ.len + ((sortByName listing).length - 1) =
            σ.len + (sortByName listing).length - 1 := by omega
        rw [hidx] at hrec
        rw [hLe, hrec]
        rfl

theorem Inv_enterOp (fs : FsTree) (cfg : Config) (σ σ' : TState)
    (hI : Inv σ) (hdir : (getN σ σ.focus).isDir = true)
    (hsafe : safeEnter σ σ.focus)
    (h : enterOp fs cfg σ σ.focus = .ok σ') : Inv σ' := by
  cases hlc : loadChildren fs cfg σ σ.focus with
  | error e =>
    rw [enterOp_err fs cfg σ σ.focus e hlc] at h
    exact Except.noConfusion h
  | ok σ1 =>
    rw [enterOp_eq fs cfg σ σ1 σ.focus hlc] at h
    have hI1 : Inv σ1 :=
      Inv_loadChildren fs cfg σ σ1 σ.focus hI hI.focus_lt hdir hlc
    obtain ⟨cd1, lc1, ld1, hself1, hlen1, hfoc1, _, _⟩ :=
      loadChildren_self fs cfg σ σ1 σ.focus hI.focus_lt hlc
    have hdir1 : (getN σ1 σ.focus).isDir = true := by
      rw [hself1]
      exact hdir
    have hsafe1 : safeEnter σ1 σ.focus :=
      loadChildren_safe fs cfg σ σ1 σ.focus hI hI.focus_lt hsafe hlc
    have hfE : σ.focus = σ1.focus := hfoc1.symm
    have hE1 : σ.focus < σ1.len := by
      have := hI.focus_lt
      omega
    have hld1 : (getN σ1 σ.focus).loaded = true :=
      loadChildren_loadedAfter fs cfg σ σ1 σ.focus hI.focus_lt hlc
    cases h
    cases hsdE : (getN σ1 σ.focus).slDown with
    | none =>
      dsimp only
      refine Inv_splice σ1 _ hI1 σ.focus hfE (len_modify σ1 _ _)
        (focus_modify σ1 _ _)
        (fun q => getN_modify_proj σ1 _ q
          (fun nd => { nd with expanded := true }) NodeObj.parent
          (fun _ => rfl))
        (fun q => getN_modify_proj σ1 _ q
          (fun nd => { nd with expanded := true }) NodeObj.isDir
          (fun _ => rfl))
        (fun q => getN_modify_proj σ1 _ q
          (fun nd => { nd with expanded := true }) NodeObj.childDown
          (fun _ => rfl))
        (fun q => getN_modify_proj σ1 _ q
          (fun nd => { nd with expanded := true }) NodeObj.lastChild
          (fun _ => rfl))
        (fun q => getN_modify_proj σ1 _ q
          (fun nd => { nd with expanded := true }) NodeObj.slDown
          (fun _ => rfl))
        (fun q => getN_modify_proj σ1 _ q
          (fun nd => { nd with expanded := true }) NodeObj.loaded
          (fun _ => rfl))
        ?_ hdir1 ?_ ?_ ?_
      · intro q hq
        exact congrArg NodeObj.expanded (getN_modify_ne σ1 σ.focus q
          (fun nd => { nd with expanded := true }) (Ne.symm hq))
      · intro hldf
        exfalso
        rw [setExpanded, getN_modify_proj σ1 _ σ.focus
          (fun nd => { nd with expanded := true }) NodeObj.loaded
          (fun _ => rfl), hld1] at hldf
        exact Bool.noConfusion hldf
      · intro q _
        exact getN_modify_proj σ1 _ q
          (fun nd => { nd with expanded := true }) NodeObj.slUp
          (fun _ => rfl)
      · intro R hR
        rw [hsdE] at hR
        exact Option.noConfusion hR
    | some R =>
      dsimp only
      have hRlt : R < σ1.len := hI1.sd_lt σ.focus hE1 R hsdE
      set σ2 := setSlUp σ1 R (getN σ1 σ.focus).lastChild with hσ2
      set σ'' := setExpanded σ2 σ.focus true with hσ''
      have hA : ∀ {α : Type} (F : NodeObj → α),
          (∀ nd (v : Bool), F { nd with expanded := v } = F nd) →
          (∀ nd (v : Option Nat), F { nd with slUp := v } = F nd) →
          ∀ q, F (getN σ'' q) = F (getN σ1 q) := by
        intro α F h1 h2 q
        rw [hσ'', setExpanded,
          getN_modify_proj σ2 _ q (fun nd => { nd with expanded := true })
            F (fun nd => h1 nd true),
          hσ2, setSlUp,
          getN_modify_proj σ1 _ q
            (fun nd => { nd with slUp := (getN σ1 σ.focus).lastChild })
            F (fun nd => h2 nd _)]
      have hpar := hA NodeObj.parent (fun _ _ => rfl) (fun _ _ => rfl)
      have hlcA := hA NodeObj.lastChild (fun _ _ => rfl) (fun _ _ => rfl)
      have hlen2 : σ''.len = σ1.len := by
        rw [hσ'', setExpanded, len_modify, hσ2, setSlUp, len_modify]
      have hexpE : (getN σ'' σ.focus).expanded = true := by
        rw [hσ'', setExpanded, getN_modify_self σ2 σ.focus _
          (by rw [hσ2, setSlUp, len_modify]; exact hE1)]
      have hexp_ne : ∀ q, q ≠ σ.focus →
          (getN σ'' q).expanded = (getN σ1 q).expanded := by
        intro q hq
        rw [hσ'', setExpanded]
        rw [congrArg NodeObj.expanded (getN_modify_ne σ2 σ.focus q
          (fun nd => { nd with expanded := true }) (Ne.symm hq))]
        rw [hσ2, setSlUp]
        exact getN_modify_proj σ1 _ q
          (fun nd => { nd with slUp := (getN σ1 σ.focus).lastChild })
          NodeObj.expanded (fun _ => rfl)
      have hP'' : ParentWF σ'' := by
        intro j hj p hp
        rw [hlen2] at hj
        rw [hpar j] at hp
        exact hI1.parent_lt j hj p hp
      refine Inv_splice σ1 σ'' hI1 σ.focus hfE hlen2 ?_ hpar
        (hA NodeObj.isDir (fun _ _ => rfl) (fun _ _ => rfl))
        (hA NodeObj.childDown (fun _ _ => rfl) (fun _ _ => rfl))
        hlcA
        (hA NodeObj.slDown (fun _ _ => rfl) (fun _ _ => rfl))
        (hA NodeObj.loaded (fun _ _ => rfl) (fun _ _ => rfl))
        hexp_ne hdir1 ?_ ?_ ?_
      · rw [hσ'', setExpanded, focus_modify, hσ2, setSlUp, focus_modify]
      · intro hldf
        exfalso
        rw [hA NodeObj.loaded (fun _ _ => rfl) (fun _ _ => rfl) σ.focus,
          hld1] at hldf
        exact Bool.noConfusion hldf
      · intro q hq
        have hqR : q ≠ R := by
          intro he
          rw [he] at hq
          exact hq hsdE
        rw [hσ'', setExpanded,
          getN_modify_proj σ2 σ.focus q (fun nd => { nd with expanded := true })
            NodeObj.slUp (fun _ => rfl),
          hσ2, setSlUp]
        exact congrArg NodeObj.slUp (getN_modify_ne σ1 R q
          (fun nd => { nd with slUp := (getN σ1 σ.focus).lastChild })
          (Ne.symm hqR))
      · intro R' hR'
        have hRR : R' = R := by
          rw [hsdE] at hR'
          exact (Option.some.inj hR').symm
        subst hRR
        have hsuRv : (getN σ'' R').slUp = (getN σ1 σ.focus).lastChild := by
          rw [hσ'', setExpanded,
            getN_modify_proj σ2 σ.focus R'
              (fun nd => { nd with expanded := true })
              NodeObj.slUp (fun _ => rfl),
            hσ2, setSlUp, getN_modify_self σ1 R' _ hRlt]
        rw [hsuRv]
        have hlcb'' : ∀ q, q < σ''.len → ∀ u, (getN σ'' q).lastChild = some u →
            q < u ∧ u < σ''.len := by
          intro q hq u hu
          rw [hlcA q] at hu
          rw [hlen2] at hq ⊢
          exact hI1.lc_range q hq u hu
        have hleaf'' : ∀ q, q < σ''.len → (getN σ'' q).expanded = true →
            (getN σ'' q).isDir = true := by
          intro q hq hexp
          by_cases hqE : q = σ.focus
          · subst hqE
            rw [hA NodeObj.isDir (fun _ _ => rfl) (fun _ _ => rfl) σ.focus]
            exact hdir1
          · rw [hexp_ne q hqE] at hexp
            rw [hA NodeObj.isDir (fun _ _ => rfl) (fun _ _ => rfl) q]
            rw [hlen2] at hq
            exact Inv.exp_dir σ1 hI1 q hq hexp
        have hanc'' : ∀ a, Anc σ'' a σ.focus →
            (getN σ'' a).expanded = true := by
          intro a ha
          have haσ : Anc σ1 a σ.focus :=
            (Anc_congr σ1 σ'' hpar a σ.focus).mp ha
          have haE : a < σ.focus :=
            anc_lt σ1 hI1.parent_lt a σ.focus haσ hE1
          rw [hexp_ne a (by omega)]
          exact (chain_anc σ1 hI1 σ.focus (hfE ▸ hI1.focus_vis) a haσ).2
        rw [dtQ_upTop_eq σ'' hP'' hlcb'' hleaf'' σ''.len σ.focus
          (by rw [hlen2]; exact hE1) (by rw [hlen2]; exact hE1) hanc'']
        have hstep : dtQ σ'' σ''.len σ.focus =
            match (getN σ1 σ.focus).lastChild with
            | some L => dtQ σ'' (σ''.len - 1) L
            | none => none := by
          obtain ⟨g, hg⟩ : ∃ g, σ''.len = g + 1 :=
            ⟨σ''.len - 1, by rw [hlen2]; omega⟩
          rw [hg]
          simp only [dtQ]
          rw [if_pos ⟨by rw [hA NodeObj.isDir (fun _ _ => rfl)
              (fun _ _ => rfl) σ.focus]; exact hdir1, hexpE⟩]
          rw [hlcA σ.focus]
          rfl
        rw [hstep]
        cases hLc : (getN σ1 σ.focus).lastChild with
        | none => rfl
        | some L =>
          dsimp only
          have hLrange := hI1.lc_range σ.focus hE1 L hLc
          have hLexp : (getN σ'' L).expanded = false := by
            rw [hexp_ne L (by omega)]
            exact hsafe1 L hLc
          have hf1 : dtQ σ'' (σ''.len - 1) L = dtQ σ'' σ''.len L := by
            refine dtQ_fuel σ'' hlcb'' (σ''.len - 1) L ?_ ?_ σ''.len ?_
            · rw [hlen2]
              omega
            · rw [hlen2]
              omega
            · omega
          rw [hf1, dtQ_stop σ'' L (by rw [hlen2]; omega)
            (fun hc => by rw [hLexp] at hc; exact Bool.noConfusion hc.2)]

theorem Inv_buildInit (fs : FsTree) (cfg : Config) (σ : TState)
    (h : buildInit fs cfg = .ok σ) : Inv σ := by
  have hIB : Inv { nodes := [mkRoot fs], focus := 0, matchEvents := 0 } := by
    refine ⟨Nat.one_pos, Nat.one_pos, ?_, ?_, rfl, rfl, rfl, ?_, ?_, ?_, ?_,
      ?_, ?_, ?_, ?_, ?_, ?_, ?_, ?_, ?_, ?_, ?_, ?_, ?_⟩
    · intro j hj p hp
      have hj0 : j = 0 := by
        have : j < 1 := hj
        omega
      subst hj0
      exact Option.noConfusion hp
    · intro i hi _
      have : i < 1 := hi
      omega
    · intro i hi hc
      have hi0 : i = 0 := by
        have : i < 1 := hi
        omega
      subst hi0
      exact Option.noConfusion hc
    · intro i hi j hj
      have hi0 : i = 0 := by
        have : i < 1 := hi
        omega
      subst hi0
      exact Option.noConfusion hj
    · intro i hi j hj
      have hi0 : i = 0 := by
        have : i < 1 := hi
        omega
      subst hi0
      exact Option.noConfusion hj
    · intro i hi j hj
      have hi0 : i = 0 := by
        have : i < 1 := hi
        omega
      subst hi0
      exact Option.noConfusion hj
    · intro i hi j hj
      have hi0 : i = 0 := by
        have : i < 1 := hi
        omega
      subst hi0
      exact Option.noConfusion hj
    · intro i j hi hj
      have hi0 : i = 0 := by
        have : i < 1 := hi
        omega
      subst hi0
      exact Option.noConfusion hj
    · intro i j hi hj
      have hi0 : i = 0 := by
        have : i < 1 := hi
        omega
      subst hi0
      exact Option.noConfusion hj
    · intro i j hi hj
      have hi0 : i = 0 := by
        have : i < 1 := hi
        omega
      subst hi0
      exact Option.noConfusion hj
    · intro i j hi hj
      have hi0 : i = 0 := by
        have : i < 1 := hi
        omega
      subst hi0
      exact Option.noConfusion hj.1
    · intro i hi _
      have hi0 : i = 0 := by
        have : i < 1 := hi
        omega
      subst hi0
      exact ⟨rfl, rfl, rfl⟩
    · intro i hi hd
      have hi0 : i = 0 := by
        have : i < 1 := hi
        omega
      subst hi0
      exact Bool.noConfusion hd
    · intro p t j hp ht hc
      have hp0 : p = 0 := by
        have : p < 1 := hp
        omega
      subst hp0
      exact Option.noConfusion hc
    · intro i i' j hi hi' h1 _
      have hi0 : i = 0 := by
        have : i < 1 := hi
        omega
      subst hi0
      exact Option.noConfusion h1.1
    · intro i j hi hj
      have hi0 : i = 0 := by
        have : i < 1 := hi
        omega
      subst hi0
      exact Option.noConfusion hj
    · intro i j hi hj
      have hi0 : i = 0 := by
        have : i < 1 := hi
        omega
      subst hi0
      exact Option.noConfusion hj.1
    · exact ⟨fun _ => 0, fun i hi =>
        ⟨fun j hj => by
          have hi0 : i = 0 := by
            have : i < 1 := hi
            omega
          subst hi0
          exact Option.noConfusion hj,
         fun j hj => by
          have hi0 : i = 0 := by
            have : i < 1 := hi
            omega
          subst hi0
          exact Option.noConfusion hj⟩⟩
    · exact List.mem_cons_self 0 []
  exact Inv_enterOp fs cfg _ σ hIB rfl
    (fun L hL => Option.noConfusion hL) h

theorem reachS_Inv (fs : FsTree) (cfg : Config) (σ : TState)
    (h : ReachS fs cfg σ) : Inv σ := by
  induction h with
  | init σ0 hb => exact Inv_buildInit fs cfg σ0 hb
  | load σ0 σ' i hprev hi hdir hlc ih =>
    exact Inv_loadChildren fs cfg σ0 σ' i ih hi hdir hlc
  | enter σ0 σ' hprev hdir hsafe hok ih =>
    exact Inv_enterOp fs cfg σ0 σ' ih hdir hsafe hok
  | exi σ0 hprev ih => exact Inv_nodeExit σ0 ih
  | move σ0 d hprev ih => exact Inv_moveOp σ0 ih d

/-- C1 counterexample: the state reached by entering `a`, entering its
child `c`, collapsing `a`, re-entering `a` while `c` is still expanded, and
walking the focus down to the leaf `d` (id 4) is reachable by
enter/exit/load operations; `d` is visible, non-root, and has a `down`
successor (`b`, id 2), yet `move(+1)` followed by `move(-1)` lands on `c`
(id 3), not back on `d`. -/
theorem c1_counterexample :
    Reach fsC cfgN σC8 ∧
    σC8.focus = 4 ∧
    σC8.focus ∈ visibleChain σC8 ∧
    σC8.focus ≠ 0 ∧
    downOf σC8 σC8.focus = some 2 ∧
    (moveOp (moveOp σC8 1) (-1)).focus = 3 := by
  refine ⟨?_, by decide, by decide, by decide, by decide, by decide⟩
  have h0 : Reach fsC cfgN σC0 := Reach.init σC0 (by rfl)
  have h1 : Reach fsC cfgN (moveOp σC0 1) := Reach.move σC0 1 h0
  have h2 : Reach fsC cfgN σC2 :=
    Reach.enter (moveOp σC0 1) σC2 (moveOp σC0 1).focus h1
      (by decide) (by decide) (by rfl)
  have h3 : Reach fsC cfgN (moveOp σC2 1) := Reach.move σC2 1 h2
  have h4 : Reach fsC cfgN σC4 :=
    Reach.enter (moveOp σC2 1) σC4 (moveOp σC2 1).focus h3
      (by decide) (by decide) (by rfl)
  have h5 : Reach fsC cfgN (moveOp σC4 (-1)) := Reach.move σC4 (-1) h4
  have h6 : Reach fsC cfgN σC6 :=
    Reach.exi (moveOp σC4 (-1)) (moveOp σC4 (-1)).focus h5 (by decide)
  have h7 : Reach fsC cfgN σC7 :=
    Reach.enter σC6 σC7 σC6.focus h6 (by decide) (by decide) (by rfl)
  have h8 : Reach fsC cfgN (moveOp σC7 1) := Reach.move σC7 1 h7
  exact Reach.move (moveOp σC7 1) 1 h8

/-- C1: amended round-trip. If every `enter` is performed on the focused
container and never on one whose memoized last child is still expanded
(`safeEnter`, the discipline of `ReachS`), then from any focused entry
with a `down` successor, `move(+1)` followed by `move(-1)` returns the
focus exactly to where it started. -/
theorem c1_amended_roundtrip (fs : FsTree) (cfg : Config) (σ : TState)
    (h : ReachS fs cfg σ) (F : Nat)
    (hdown : downOf σ σ.focus = some F) :
    (moveOp (moveOp σ 1) (-1)).focus = σ.focus := by
  have hI := reachS_Inv fs cfg σ h
  have hanc : ∀ a, Anc σ a σ.focus → (getN σ a).expanded = true :=
    fun a ha => (chain_anc σ hI σ.focus hI.focus_vis a ha).2
  have hup : (getN σ F).slUp = some σ.focus :=
    down_up σ hI σ.focus F hI.focus_lt hanc hdown
  have h1 : moveOp σ 1 = setFocusTo σ (some F) := by
    simp only [moveOp]
    rw [if_neg (by decide : ¬ (1 : Int) = -1), hdown]
  rw [h1]
  simp only [moveOp]
  rw [if_pos trivial]
  have hupOf : upOf (setFocusTo σ (some F))
      (setFocusTo σ (some F)).focus = some σ.focus := by
    show (getN (setFocusTo σ (some F)) F).slUp = some σ.focus
    rw [setFocusTo_proj σ (some F) F NodeObj.slUp (fun _ _ => rfl)]
    exact hup
  rw [hupOf]
  rfl

theorem c1_amended_roundtrip_witness :
    downOf σC4 σC4.focus = some 4 ∧
    (moveOp (moveOp σC4 1) (-1)).focus = σC4.focus :=
  ⟨by decide, c1_amended_roundtrip fsC cfgN σC4
    (ReachS.enter (moveOp σC2 1) σC4
      (ReachS.move σC2 1 (ReachS.enter (moveOp σC0 1) σC2
        (ReachS.move σC0 1 (ReachS.init σC0 (by rfl)))
        (by decide) (by decide) (by rfl)))
      (by decide) (by decide) (by rfl))
    4 (by decide)⟩

end Birdeye
